import Mathlib

/-!
# Verification of the NTNU course-query timetable/optimizer core

A shallow embedding of the Python sources (`app_constants.py`, `app_utils.py`,
`app_timetable_logic.py`, `app_workers.py`) of the course-query application,
together with proofs of the specification claims.

Modelling conventions:
* Python `int` is modelled by `Nat`/`Int`; numpy `uint64` bit masks are `Nat`
  (all shifts in the source stay below 64 bits per word, so no wraparound can
  occur and no `% 2^64` is needed; this is proved where relevant).
* Python `float` credit values are modelled exactly by `ℚ`; the source only
  adds and compares credits, which the rational model reproduces exactly.
* Python `str` is `String`, but all character processing is done on
  `String.toList` (a faithful model of Python's per-character operations).
* Python sets are modelled by `List`s considered up to membership; dicts are
  modelled by association lists that append new keys and replace existing keys
  in place, reproducing Python's insertion-ordered dict semantics.
* The worker's cooperative cancellation flag is modelled by a schedule
  `sched : Nat → Bool`; the n-th read of `self._cancel_requested` returns
  `sched n`.  `cancel()` only ever sets the flag, so real schedules are
  monotone.
-/

namespace CourseQuery

/-! ## app_constants.py -/

/-- `DAYS` from app_constants.py. -/
def DAYS : List String := ["一", "二", "三", "四", "五", "六", "日"]

/-- `PERIODS` from app_constants.py. -/
def PERIODS : List String :=
  ["0", "1", "2", "3", "4", "5", "6", "7", "8", "9", "10", "A", "B", "C", "D"]

/-- `BITS_PER_DAY = len(PERIODS)` from app_constants.py. -/
def BITS_PER_DAY : Nat := PERIODS.length

/-- `GENED_DEPT_NAME` from app_constants.py. -/
def GENED_DEPT_NAME : String := "通識"

/-- Index of the first occurrence of `x`, modelling the lookup in the
`DAY_INDEX` / `PERIOD_INDEX` dicts of app_constants.py (`{p: i for i, p in
enumerate(...)}`; the day/period lists are duplicate-free, so first-occurrence
lookup agrees with the dict). -/
def idxOf (x : String) : List String → Option Nat
  | [] => none
  | y :: ys => if y = x then some 0 else (idxOf x ys).map (· + 1)

/-- `DAY_INDEX` membership/lookup. -/
def DAY_INDEX (d : String) : Option Nat := idxOf d DAYS

/-- `PERIOD_INDEX` membership/lookup. -/
def PERIOD_INDEX (p : String) : Option Nat := idxOf p PERIODS

/-! ## app_utils.py: slot encoding -/

/-- `slot_to_mask(day, period)` from app_utils.py: returns the pair of 64-bit
words `(mask_lo, mask_hi)` with a single bit at position
`DAY_INDEX[day] * BITS_PER_DAY + PERIOD_INDEX[period]` (spilling into the high
word from position 64 up), and `(0, 0)` when the day or period is unknown. -/
def slot_to_mask (day period : String) : Nat × Nat :=
  match DAY_INDEX day with
  | none => (0, 0)
  | some di =>
    match PERIOD_INDEX period with
    | none => (0, 0)
    | some pj =>
      let idx := di * BITS_PER_DAY + pj
      if idx < 64 then (1 <<< idx, 0) else (0, 1 <<< (idx - 64))

/-- Python's `s.split("-", 1)` together with the 2-tuple unpacking
`d, p = ...`: `none` models the `ValueError` raised when the separator is
absent (caught by the `except` in `slots_set_to_masks`). -/
def splitDash1 (s : String) : Option (String × String) :=
  let cs := s.toList
  if '-' ∈ cs then
    some (String.mk (cs.takeWhile (· ≠ '-')), String.mk ((cs.dropWhile (· ≠ '-')).drop 1))
  else none

/-- One iteration of the loop of `slots_set_to_masks`: splits the slot at the
first `-` (skipping it on `ValueError`) and ORs in its mask. -/
def maskStep (acc : Nat × Nat) (s : String) : Nat × Nat :=
  match splitDash1 s with
  | none => acc
  | some (d, p) =>
    let m := slot_to_mask d p
    (acc.1 ||| m.1, acc.2 ||| m.2)

/-- `slots_set_to_masks(slots)` from app_utils.py: ORs the per-slot masks of
all members, skipping members without a `-` separator (the `try/except`).
The Python argument is a set; since `|||` is commutative/associative the fold
result is independent of the iteration order, so a list argument is faithful. -/
def slots_set_to_masks (slots : List String) : Nat × Nat :=
  slots.foldl maskStep (0, 0)

/-- All `(day, period)` pairs of the known domain, in grid order. -/
def allSlots : List (String × String) :=
  DAYS.flatMap (fun d => PERIODS.map (fun p => (d, p)))

/-! ## app_timetable_logic.py: lane assignment (definitions) -/

/-- Python's `n.bit_length()`, implemented with structural fuel so that it
evaluates by kernel reduction (`n` itself is a sufficient fuel bound). -/
def bitLenAux : Nat → Nat → Nat
  | 0, _ => 0
  | fuel + 1, n => if n = 0 then 0 else bitLenAux fuel (n / 2) + 1

/-- Python's `n.bit_length()`. -/
def bitLen (n : Nat) : Nat := bitLenAux n n

/-- Index of the lowest set bit (only used in proofs about the two's-complement
lowest-set-bit trick of the source). -/
def lsbIdx (n : Nat) : Nat :=
  if hz : n = 0 then 0
  else if n % 2 = 1 then 0
  else 1 + lsbIdx (n / 2)
decreasing_by exact Nat.div_lt_self (Nat.pos_of_ne_zero hz) (by norm_num)

/-- The lane chosen for the OR of the occupancy masks of a course's slots, in
`build_lane_assignment_sorted`:
`bitlen = used.bit_length() + 2; inv = (~used) & ((1 << bitlen) - 1);
lsb = inv & -inv; lane = lsb.bit_length()`.  Python's masked two's-complement
operations on the nonnegative `used` are expressed on `Nat` as:
`(~used) & mask = mask ^^^ used` (valid since `used < 2^bitlen`), and
`inv & -inv`, the lowest set bit of `inv`, as `inv &&& (inv ^^^ (inv - 1))`. -/
def laneFor (used : Nat) : Nat :=
  let bitlen := bitLen used + 2
  let inv := (2 ^ bitlen - 1) ^^^ used
  let lsb := inv &&& (inv ^^^ (inv - 1))
  bitLen lsb

/-! ## Stable sorting

Python's `list.sort` is a stable sort by a total preorder.  It is modelled by a
structural insertion sort (so that it also evaluates by kernel reduction); a
stable sort's output is uniquely determined by the preorder and the input
order, so this is extensionally the same function. -/

/-- Insert `x` after all existing elements `y` with `le y x` (stability: a
later-arriving element goes after equal earlier ones). -/
def insertOrd (le : α → α → Bool) (x : α) : List α → List α
  | [] => [x]
  | y :: ys => if le y x then y :: insertOrd le x ys else x :: y :: ys

/-- Stable sort by the Boolean preorder `le`. -/
def sortBy (le : α → α → Bool) (l : List α) : List α :=
  l.foldl (fun acc x => insertOrd le x acc) []

/-- One row of the `_cid` / `_slots_set` projection iterated by
`build_lane_assignment_sorted`.  The Python slot set is carried as a list: the
source only forms ORs over it and marks each member, which is order- and
multiplicity-insensitive. -/
structure LaneRow where
  cid : Nat
  slots : List String
deriving DecidableEq

/-- The sort key of `rows.sort(key=lambda x: (-len(slots), int(cid)))`:
descending slot-count, then ascending identifier. -/
def laneRowLe (a b : LaneRow) : Bool :=
  decide (b.slots.length < a.slots.length ∨
    (a.slots.length = b.slots.length ∧ a.cid ≤ b.cid))

/-- The deterministic row sort of `build_lane_assignment_sorted`. -/
def sortLaneRows (rows : List LaneRow) : List LaneRow := sortBy laneRowLe rows

/-- The main loop of `build_lane_assignment_sorted`: `used` is the
`used_by_slot` dict as a total function defaulting to `0`; the result is the
`lane_of` mapping as an association list in processing order.  A course with
an empty slot set receives lane 1 and marks nothing; otherwise the course gets
`laneFor` of the OR of its slots' occupancy masks and its lane bit is ORed
into every slot it occupies. -/
def laneProcess : List LaneRow → (String → Nat) → List (Nat × Nat)
  | [], _ => []
  | r :: rest, used =>
    if r.slots.isEmpty then (r.cid, 1) :: laneProcess rest used
    else
      let u := r.slots.foldl (fun acc s => acc ||| used s) 0
      let lane := laneFor u
      (r.cid, lane) ::
        laneProcess rest
          (fun s => if s ∈ r.slots then used s ||| 1 <<< (lane - 1) else used s)

/-- `build_lane_assignment_sorted` from app_timetable_logic.py, acting on the
already-projected included rows: sorts them by descending slot-count then
ascending identifier, assigns every course the lowest 1-based lane that is
free at all of its slots, and returns the `lane_of` pairs with `max_lane`. -/
def build_lane_assignment_sorted (rows : List LaneRow) : List (Nat × Nat) × Nat :=
  let lanes := laneProcess (sortLaneRows rows) (fun _ => 0)
  (lanes, lanes.foldl (fun m p => max m p.2) 1)

/-- Modelled from the spec: the repository has no `bitset_to_slots` function
(§8's round-trip names one); this is the decode the spec describes — the set
of canonical `"day-period"` identifiers whose `slot_to_mask` bit is present in
the given two-word bitset. -/
def bitset_to_slots (lo hi : Nat) : List String :=
  (allSlots.filter
      (fun dp =>
        let m := slot_to_mask dp.1 dp.2
        (lo &&& m.1) ||| (hi &&& m.2) ≠ 0)).map
    (fun dp => dp.1 ++ "-" ++ dp.2)

/-! ## app_timetable_logic.py: timetable grid (definitions)

The distributed source file is text-corrupted in this function (the column
name on line 110 is mojibake, line 113 unpacks the 4-column rows into three
variables, and line 172 contains a literal `\n`); the model below follows the
evident intent: both loops iterate the same `(cid, cname, slots, tt_label)`
projection, the first using only `cid` and `slots`. -/

/-- `DAY_LABEL` from app_constants.py. -/
def DAY_LABEL : List (String × String) :=
  [("一", "星期一"), ("二", "星期二"), ("三", "星期三"), ("四", "星期四"),
   ("五", "星期五"), ("六", "星期六"), ("日", "星期日"), ("天", "星期日")]

/-- Python `str.strip()`. -/
def pyStrip (s : String) : String :=
  String.mk (((s.toList.dropWhile Char.isWhitespace).reverse.dropWhile
    Char.isWhitespace).reverse)

/-- Non-greedy bracket-span removal, one step per list element; the fuel (the
input length suffices, each step consumes at least one element) keeps the
recursion structural. -/
def removeBrAux (openC closeC : Char) : Nat → List Char → List Char
  | 0, _ => []
  | _ + 1, [] => []
  | fuel + 1, c :: cs =>
    if c = openC then
      match cs.dropWhile (· ≠ closeC) with
      | [] => c :: removeBrAux openC closeC fuel cs
      | _ :: rest => removeBrAux openC closeC fuel rest
    else c :: removeBrAux openC closeC fuel cs

/-- `re.sub(r"\[.*?\]", "", s)`-style removal of every bracketed span. -/
def removeBracketed (openC closeC : Char) (l : List Char) : List Char :=
  removeBrAux openC closeC l.length l

/-- `re.sub(r"\s+", " ", s)`: collapse whitespace runs to single spaces. -/
def collapseWsAux : Nat → List Char → List Char
  | 0, _ => []
  | _ + 1, [] => []
  | fuel + 1, c :: cs =>
    if c.isWhitespace then ' ' :: collapseWsAux fuel (cs.dropWhile Char.isWhitespace)
    else c :: collapseWsAux fuel cs

/-- `strip_bracket_text_for_timetable` from app_utils.py. -/
def strip_bracket_text_for_timetable (name : String) : String :=
  let l1 := removeBracketed '[' ']' name.toList
  let l2 := removeBracketed '【' '】' l1
  pyStrip (String.mk (collapseWsAux l2.length l2))

/-- Decimal digits of `n` (structural fuel; `n + 1` suffices). -/
def natToChars : Nat → Nat → List Char
  | 0, _ => []
  | fuel + 1, n =>
    if n < 10 then [Nat.digitChar n]
    else natToChars fuel (n / 10) ++ [Nat.digitChar (n % 10)]

/-- Python `str(n)` for a natural number. -/
def natToString (n : Nat) : String := String.mk (natToChars (n + 1) n)

/-- `format_cid4` from app_utils.py: zero-padded 4-digit course id. -/
def format_cid4 (cid : Nat) : String :=
  if cid < 10000 then
    let ds := natToChars (cid + 1) cid
    String.mk (List.replicate (4 - ds.length) '0' ++ ds)
  else natToString cid

/-- Python's substring test `needle in hay`. -/
def infixCheck (needle : List Char) : List Char → Bool
  | [] => needle.isEmpty
  | c :: cs => needle.isPrefixOf (c :: cs) || infixCheck needle cs

/-- Order-preserving deduplication (the `uniq`/`seen` loop). -/
def dedupAux : List String → List String → List String
  | [], _ => []
  | x :: xs, seen => if x ∈ seen then dedupAux xs seen else x :: dedupAux xs (x :: seen)

/-- One row of the `(_cid, 中文課程名稱, _slots_set, _tt_label)` projection. -/
structure MetaRow where
  cid : Nat
  cname : String
  slots : List String
  tt_label : String
deriving DecidableEq

/-- The grid state mutated by the cell-writing loop. -/
structure GridState where
  matrix : List (List String)
  id_matrix : List (List (Option Nat))
  locked_matrix : List (List Bool)
  conflicts : List String
deriving DecidableEq

/-- The six return values of `build_timetable_matrix_per_day_lanes_sorted`. -/
structure TimetableResult where
  matrix : List (List String)
  conflicts : List String
  day_lanes : List (String × Nat)
  col_day_idx : List Nat
  id_matrix : List (List (Option Nat))
  locked_matrix : List (List Bool)
deriving DecidableEq

/-- `matrix[r][c] = v` (the source indexes are provably in range: the row
index comes from `PERIOD_INDEX` and the column from the day-lane invariant,
so Python's `IndexError` cannot occur; out-of-range is modelled as a no-op). -/
def set2D (m : List (List α)) (r c : Nat) (v : α) : List (List α) :=
  match m[r]? with
  | none => m
  | some row => m.set r (row.set c v)

/-- The course label: the `_tt_label` override when nonempty, otherwise the
bracket-stripped course name above the 4-digit id. -/
def labelFor (r : MetaRow) : String :=
  let t := if r.tt_label = "" then "" else pyStrip r.tt_label
  if t ≠ "" then t
  else pyStrip (strip_bracket_text_for_timetable (pyStrip r.cname) ++ "\n" ++ format_cid4 r.cid)

/-- `DAY_LABEL.get(day, day)`. -/
def dayLabelGet (d : String) : String := (DAY_LABEL.lookup d).getD d

/-- The conflict description appended for a doubly-occupied cell.  (The exact
literal in the distributed source is mojibake; reconstructed as day label plus
period.) -/
def conflictText (day per : String) : String := dayLabelGet day ++ " 第" ++ per ++ "節"

/-- Update the first matching key of an association list (Python dict item
assignment for an existing key). -/
def alSet (l : List (String × Nat)) (k : String) (v : Nat) : List (String × Nat) :=
  l.map (fun p => if p.1 = k then (k, v) else p)

/-- One slot of the first pass: raise (`none`) when the slot has no separator,
otherwise widen the day's lane count when this course's lane exceeds it. -/
def updateDayLanes (lane : Nat) (dl : List (String × Nat)) (slot : String) :
    Option (List (String × Nat)) :=
  match splitDash1 slot with
  | none => none
  | some (day, _per) =>
    match dl.lookup day with
    | none => some dl
    | some cur => some (if lane > cur then alSet dl day lane else dl)

/-- One slot of the second pass: raise (`none`) when the slot has no
separator; skip slots with unknown day or period; otherwise write the label
into the `(period row, day lane column)` cell, merging with a conflict marker
when a different label already occupies it. -/
def cellWrite (label : String) (cid : Nat) (is_locked : Bool) (lane : Nat)
    (day_offset : List (String × Nat)) (st : GridState) (slot : String) :
    Option GridState :=
  match splitDash1 slot with
  | none => none
  | some (day, per) =>
    match day_offset.lookup day, PERIOD_INDEX per with
    | some off, some r =>
      let c := off + (lane - 1)
      let cur := (st.matrix.getD r []).getD c ""
      if cur ≠ "" ∧ infixCheck label.toList cur.toList = false then
        some { matrix := set2D st.matrix r c (cur ++ "\n---\n" ++ label),
               id_matrix := st.id_matrix,
               locked_matrix :=
                 if is_locked then set2D st.locked_matrix r c true else st.locked_matrix,
               conflicts := st.conflicts ++ [conflictText day per] }
      else
        some { matrix := set2D st.matrix r c label,
               id_matrix :=
                 if (st.id_matrix.getD r []).getD c none = none then
                   set2D st.id_matrix r c (some cid)
                 else st.id_matrix,
               locked_matrix :=
                 if is_locked then set2D st.locked_matrix r c true else st.locked_matrix,
               conflicts := st.conflicts }
    | _, _ => some st

/-- The first pass of `build_timetable_matrix_per_day_lanes_sorted`: widen the
per-day lane counts over every course and slot (raising on a separator-less
slot). -/
def dayLanesPass (lane_map : List (Nat × Nat)) (rows : List MetaRow)
    (dl0 : List (String × Nat)) : Option (List (String × Nat)) :=
  rows.foldlM (fun dl r =>
    r.slots.foldlM (updateDayLanes ((lane_map.lookup r.cid).getD 1)) dl) dl0

/-- The `day_offset` / `col_day_idx` / `offset` accumulation over the shown
days. -/
def offsetsFold (day_lanes : List (String × Nat)) (show_days : List String) :
    List (String × Nat) × List Nat × Nat :=
  show_days.enum.foldl
    (fun (acc : List (String × Nat) × List Nat × Nat) p =>
      let lanes := (day_lanes.lookup p.2).getD 1
      (acc.1 ++ [(p.2, acc.2.2)], acc.2.1 ++ List.replicate lanes p.1, acc.2.2 + lanes))
    ([], [], 0)

/-- The second pass: write every course's label into its cells. -/
def cellPass (lane_map : List (Nat × Nat)) (locked_ids : List Nat)
    (doff : List (String × Nat)) (rows : List MetaRow) (st0 : GridState) :
    Option GridState :=
  rows.foldlM (fun st r =>
    r.slots.foldlM
      (cellWrite (labelFor r) r.cid (decide (r.cid ∈ locked_ids))
        ((lane_map.lookup r.cid).getD 1) doff) st) st0

/-- `build_timetable_matrix_per_day_lanes_sorted` from app_timetable_logic.py,
acting on the already-projected included rows.  `none` models an uncaught
`ValueError` from `slot.split("-", 1)` unpacking propagating out of the
function. -/
def build_timetable_matrix_per_day_lanes_sorted (rows : List MetaRow)
    (locked_ids : List Nat) (show_days : List String) : Option TimetableResult :=
  let lane_map := (build_lane_assignment_sorted (rows.map (fun r => LaneRow.mk r.cid r.slots))).1
  (dayLanesPass lane_map rows (show_days.map (fun d => (d, 1)))).bind fun day_lanes =>
    let triple := offsetsFold day_lanes show_days
    let cols := triple.2.2
    let st0 : GridState :=
      { matrix := List.replicate PERIODS.length (List.replicate cols ""),
        id_matrix := List.replicate PERIODS.length (List.replicate cols none),
        locked_matrix := List.replicate PERIODS.length (List.replicate cols false),
        conflicts := [] }
    (cellPass lane_map locked_ids triple.1 rows st0).bind fun st =>
      some { matrix := st.matrix, conflicts := dedupAux st.conflicts [],
             day_lanes := day_lanes, col_day_idx := triple.2.1,
             id_matrix := st.id_matrix, locked_matrix := st.locked_matrix }

/-! ## app_workers.py: BestScheduleWorker (definitions)

Python `float` credit arithmetic is modelled exactly on `ℚ` (the source only
adds and compares credits).  The cooperative cancellation flag is modelled by
a schedule `sched : Nat → Bool`: the n-th read of `self._cancel_requested`
returns `sched n` (the worker's `cancel()` only ever sets the flag, so real
schedules are monotone). -/

/-- One `courses_df` row as consumed by the worker: `_cid`, `學分` (credit;
`_safe_credit`'s NaN/except fallback to `0.0` lies outside the exact rational
model), `系所`, `_mask_lo`, `_mask_hi`. -/
structure Course where
  cid : Nat
  credit : ℚ
  dept : String
  maskLo : Nat
  maskHi : Nat
deriving DecidableEq

/-- The worker's snapshotted inputs.  The favourite/locked/included Python
sets are lists considered up to membership; `fav_seq` is the drag-order
dict. -/
structure OptInput where
  favorites : List Nat
  locked_ids : List Nat
  included_ids : List Nat
  fav_seq : List (Nat × Int)
  courses : List Course
deriving DecidableEq

/-- `_BestCandidate`. -/
structure BestCandidate where
  cid : Nat
  credit : ℚ
  gened : Nat
  maskLo : Nat
  maskHi : Nat
deriving DecidableEq

/-- The six values returned by `_build_candidates`. -/
structure CandBuild where
  cand : List BestCandidate
  base_credit : ℚ
  base_gened : Nat
  locked_ids : List Nat
  base_lo : Nat
  base_hi : Nat
deriving DecidableEq

/-- `set(self.favorites) & self.included_ids`. -/
def targetIds (inp : OptInput) : List Nat :=
  inp.favorites.filter (fun c => c ∈ inp.included_ids)

/-- The candidate sort key `(-credit, cid)`, ascending. -/
def candLe (a b : BestCandidate) : Bool :=
  decide (b.credit < a.credit ∨ (a.credit = b.credit ∧ a.cid ≤ b.cid))

def natLe (a b : Nat) : Bool := decide (a ≤ b)

/-- One row of `_build_candidates`'s accumulation loop: locked rows are summed
into the base, the rest become candidates. -/
def bcStep (inp : OptInput) (acc : CandBuild) (c : Course) : CandBuild :=
  let gened : Nat := if pyStrip c.dept = GENED_DEPT_NAME then 1 else 0
  if c.cid ∈ inp.locked_ids then
    { acc with base_credit := acc.base_credit + c.credit,
               base_gened := acc.base_gened + gened,
               base_lo := acc.base_lo ||| c.maskLo,
               base_hi := acc.base_hi ||| c.maskHi,
               locked_ids := acc.locked_ids ++ [c.cid] }
  else
    { acc with cand := acc.cand ++ [⟨c.cid, c.credit, gened, c.maskLo, c.maskHi⟩] }

/-- `_build_candidates` from app_workers.py: splits the favourited-and-included
course rows into the locked base (credit/gened/bitset summed) and the sorted
optional candidate list. -/
def build_candidates (inp : OptInput) : CandBuild :=
  if inp.courses = [] ∨ inp.favorites = [] then ⟨[], 0, 0, [], 0, 0⟩
  else if targetIds inp = [] then ⟨[], 0, 0, [], 0, 0⟩
  else
    let sub := inp.courses.filter (fun c => c.cid ∈ targetIds inp)
    if sub = [] then ⟨[], 0, 0, [], 0, 0⟩
    else
      let acc := sub.foldl (bcStep inp) ⟨[], 0, 0, [], 0, 0⟩
      { acc with cand := sortBy candLe acc.cand, locked_ids := sortBy natLe acc.locked_ids }

/-- The `(-locked, seq, cid)` sort key of `_build_order_map`, ascending. -/
def orderTripleLe (a b : Int × Int × Nat) : Bool :=
  decide (a.1 < b.1 ∨ (a.1 = b.1 ∧ (a.2.1 < b.2.1 ∨ (a.2.1 = b.2.1 ∧ a.2.2 ≤ b.2.2))))

/-- One `(-locked, seq, cid)` sort item of `_build_order_map`. -/
def orderTriple (inp : OptInput) (cid : Nat) : Int × Int × Nat :=
  ((if cid ∈ inp.locked_ids then (-1 : Int) else 0),
   ((inp.fav_seq.lookup cid).getD (10 ^ 12) : Int), cid)

/-- `_build_order_map` from app_workers.py: dense ranks `1..N` over the
favourites sorted by `(-locked, seq, cid)` (the key determines the result, so
the unspecified Python set-iteration order is immaterial). -/
def build_order_map (inp : OptInput) : List (Nat × Nat) :=
  let items := sortBy orderTripleLe (inp.favorites.map (orderTriple inp))
  items.enum.map (fun p => (p.2.2.2, p.1 + 1))

/-- `order_map.get(cid, 10**12)`. -/
def omFun (inp : OptInput) (cid : Nat) : Nat :=
  ((build_order_map inp).lookup cid).getD (10 ^ 12)

/-- The sorted item list underlying `_build_order_map`. -/
def omItems (inp : OptInput) : List (Int × Int × Nat) :=
  sortBy orderTripleLe (inp.favorites.map (orderTriple inp))

/-- `_HalfEntry`. -/
structure HalfEntry where
  mask : Nat
  credit : ℚ
  gened : Nat
  ids : List Nat
  priority_sum : Nat
deriving DecidableEq

/-- One filtered optional tuple `(cid, credit, gened, mask, order_val)`. -/
structure Item where
  cid : Nat
  credit : ℚ
  gened : Nat
  mask : Nat
  order_val : Nat
deriving DecidableEq

/-- The 128-bit combined mask and base-conflict filtering producing `items`. -/
def compute_items (inp : OptInput) (cb : CandBuild) : List Item :=
  let base_mask := (cb.base_hi <<< 64) ||| cb.base_lo
  cb.cand.filterMap (fun it =>
    let mask := (it.maskHi <<< 64) ||| it.maskLo
    if mask &&& base_mask ≠ 0 then none
    else some ⟨it.cid, it.credit, it.gened, mask, omFun inp it.cid⟩)

/-- Python list `<` (strict lexicographic comparison). -/
def lexLt : List Nat → List Nat → Bool
  | _, [] => false
  | [], _ :: _ => true
  | a :: as, b :: bs => if a < b then true else if a = b then lexLt as bs else false

/-- `order_key_for_ids`: the sorted priority ranks of a tuple of ids. -/
def sortedRanks (inp : OptInput) (ids : List Nat) : List Nat :=
  sortBy natLe (ids.map (omFun inp))

/-- `better_entry` from `_compute_best_combinations`: higher credit, then
lower priority sum, then lexicographically smaller sorted rank list. -/
def better_entry (inp : OptInput) (a b : HalfEntry) : Bool :=
  if a.credit ≠ b.credit then decide (b.credit < a.credit)
  else if a.priority_sum ≠ b.priority_sum then decide (a.priority_sum < b.priority_sum)
  else lexLt (sortedRanks inp a.ids) (sortedRanks inp b.ids)

/-- Python dict assignment on an insertion-ordered association list: replace
in place if the key exists, else append. -/
def dictSet (d : List (Nat × HalfEntry)) (k : Nat) (v : HalfEntry) :
    List (Nat × HalfEntry) :=
  if d.any (fun p => p.1 = k) then d.map (fun p => if p.1 = k then (k, v) else p)
  else d ++ [(k, v)]

/-- Extending every snapshot entry with one item (the inner loop of
`enumerate_half`); `results` is mutated while the snapshot stays fixed. -/
def extendSnap (inp : OptInput) (it : Item) (snap results : List (Nat × HalfEntry)) :
    List (Nat × HalfEntry) :=
  snap.foldl
    (fun res pe =>
      if pe.1 &&& it.mask ≠ 0 then res
      else
        let nm := pe.1 ||| it.mask
        let newE : HalfEntry := ⟨nm, pe.2.credit + it.credit, pe.2.gened + it.gened,
          pe.2.ids ++ [it.cid], pe.2.priority_sum + it.order_val⟩
        match res.lookup nm with
        | none => dictSet res nm newE
        | some ex => if better_entry inp newE ex then dictSet res nm newE else res)
    results

/-- The progress/poll state of one run: number of flag reads so far, the
`_progress_last` deduplication value, and the emitted progress sequence. -/
structure St where
  polls : Nat
  lastProg : Int
  emitted : List Int
deriving DecidableEq

/-- One read of `self._cancel_requested`. -/
def pollCancel (sched : Nat → Bool) (st : St) : Bool × St :=
  (sched st.polls, { st with polls := st.polls + 1 })

/-- `_emit_progress`: clamp to `[0, 100]` and drop repeats of the last emitted
value. -/
def emit_progress (st : St) (v : Int) : St :=
  let v2 : Int := max 0 (min 100 v)
  if v2 = st.lastProg then st
  else { st with lastProg := v2, emitted := st.emitted ++ [v2] }

/-- The item loop of `enumerate_half` (the percentage
`progress_start + int(progress_span * (idx / total))` is modelled by exact
natural division; its float rounding is monotone in `idx` either way). -/
def enumHalfLoop (inp : OptInput) (sched : Nat → Bool) (pstart pspan total : Nat) :
    List Item → Nat → List (Nat × HalfEntry) → St → List (Nat × HalfEntry) × St
  | [], _, results, st => (results, st)
  | it :: rest, idx, results, st =>
    let pc := pollCancel sched st
    if pc.1 then ([], pc.2)
    else
      let results2 := extendSnap inp it results results
      let st2 := if 0 < total then
          emit_progress pc.2 ((pstart + pspan * idx / total : Nat) : Int)
        else pc.2
      enumHalfLoop inp sched pstart pspan total rest (idx + 1) results2 st2

/-- `enumerate_half` from `_compute_best_combinations`. -/
def enumerate_half (inp : OptInput) (sched : Nat → Bool) (pstart pspan : Nat)
    (items_half : List Item) (st : St) : List (Nat × HalfEntry) × St :=
  enumHalfLoop inp sched pstart pspan items_half.length items_half 1
    [(0, ⟨0, 0, 0, [], 0⟩)] st

/-- One entry of the bounded top-5 `best` list. -/
structure ResultEntry where
  credits : ℚ
  gened : Nat
  ids : List Nat
  order_key : List Nat
  priority_sum : Nat
deriving DecidableEq

/-- The `best.sort(key=lambda x: (-credits, priority_sum, order_key))`
preorder. -/
def entryLe (a b : ResultEntry) : Bool :=
  decide (b.credits < a.credits) ||
    (decide (a.credits = b.credits) &&
      (decide (a.priority_sum < b.priority_sum) ||
        (decide (a.priority_sum = b.priority_sum) &&
          (lexLt a.order_key b.order_key || decide (a.order_key = b.order_key)))))

/-- The combined entry built by `consider_combo` (ids, credit, gened summed;
the priority key recomputed from the live order map). -/
def mkEntry (inp : OptInput) (cb : CandBuild) (left right : HalfEntry) : ResultEntry :=
  let ids_all := sortBy natLe (cb.locked_ids ++ left.ids ++ right.ids)
  let order_key := sortBy natLe (ids_all.map (omFun inp))
  { credits := cb.base_credit + left.credit + right.credit,
    gened := cb.base_gened + left.gened + right.gened,
    ids := ids_all, order_key := order_key, priority_sum := order_key.sum }

/-- `consider_combo`: append, stable-sort by the ranking key, truncate to 5. -/
def consider_combo (inp : OptInput) (cb : CandBuild) (best : List ResultEntry)
    (left right : HalfEntry) : List ResultEntry :=
  (sortBy entryLe (best ++ [mkEntry inp cb left right])).take 5

/-- `1e-9`, the float slack of the branch-and-bound cutoffs. -/
def EPS : ℚ := 1 / 1000000000

/-- `best[-1]["credits"]` (only read when `best` has five entries). -/
def worstCredit (best : List ResultEntry) : ℚ := ((best.getLast?).map (·.credits)).getD 0

/-- The inner (right) loop of the cross-combination step; the Bool is true
when a cancellation poll fired (`return []`). -/
def crossInner (inp : OptInput) (cb : CandBuild) (sched : Nat → Bool)
    (left : HalfEntry) (step total_pairs : Nat) :
    List HalfEntry → List ResultEntry → Nat → St → Bool × List ResultEntry × Nat × St
  | [], best, done, st => (false, best, done, st)
  | right :: rest, best, done, st =>
    let pc := pollCancel sched st
    if pc.1 then (true, [], done, pc.2)
    else
      let total_credit := cb.base_credit + left.credit + right.credit
      if best.length = 5 ∧ total_credit + EPS < worstCredit best then (false, best, done, pc.2)
      else if left.mask &&& right.mask ≠ 0 then
        crossInner inp cb sched left step total_pairs rest best done pc.2
      else
        let best2 := consider_combo inp cb best left right
        let done2 := done + 1
        let st2 := if done2 % step = 0 ∧ 0 < total_pairs then
            emit_progress pc.2 ((80 + 20 * done2 / total_pairs : Nat) : Int)
          else pc.2
        crossInner inp cb sched left step total_pairs rest best2 done2 st2

/-- The outer (left) loop of the cross-combination step. -/
def crossOuter (inp : OptInput) (cb : CandBuild) (sched : Nat → Bool)
    (step total_pairs : Nat) (right_list : List HalfEntry) (max_right_credit : ℚ) :
    List HalfEntry → List ResultEntry → Nat → St → Bool × List ResultEntry × Nat × St
  | [], best, done, st => (false, best, done, st)
  | left :: rest, best, done, st =>
    let pc := pollCancel sched st
    if pc.1 then (true, [], done, pc.2)
    else if best.length = 5 ∧
        cb.base_credit + left.credit + max_right_credit + EPS < worstCredit best then
      crossOuter inp cb sched step total_pairs right_list max_right_credit rest best done pc.2
    else
      let r := crossInner inp cb sched left step total_pairs right_list best done pc.2
      if r.1 then r
      else crossOuter inp cb sched step total_pairs right_list max_right_credit rest
        r.2.1 r.2.2.1 r.2.2.2

/-- `right_list[0].credit if right_list else 0.0`. -/
def headCredit : List HalfEntry → ℚ
  | [] => 0
  | r :: _ => r.credit

/-- `left_list.sort(key=lambda x: -x.credit)`, ascending preorder. -/
def leftLe (a b : HalfEntry) : Bool := decide (b.credit ≤ a.credit)

/-- `right_list.sort(key=lambda x: (-x.credit, x.priority_sum))`. -/
def rightLe (a b : HalfEntry) : Bool :=
  decide (b.credit < a.credit ∨ (a.credit = b.credit ∧ a.priority_sum ≤ b.priority_sum))

/-- `_compute_best_combinations` from app_workers.py: meet-in-the-middle with
per-half domination tables, credit cutoffs, and a bounded sorted top-5. -/
def compute_best_combinations (inp : OptInput) (sched : Nat → Bool) (st0 : St) :
    List ResultEntry × St :=
  let cb := build_candidates inp
  if cb.cand = [] ∧ cb.locked_ids = [] then ([], st0)
  else
    let items := compute_items inp cb
    let mid := items.length / 2
    let lmres := enumerate_half inp sched 0 40 (items.take mid) st0
    let pc1 := pollCancel sched lmres.2
    if pc1.1 then ([], pc1.2)
    else
      let rmres := enumerate_half inp sched 40 40 (items.drop mid) pc1.2
      let pc2 := pollCancel sched rmres.2
      if pc2.1 then ([], pc2.2)
      else
        let left_list := sortBy leftLe (lmres.1.map Prod.snd)
        let right_list := sortBy rightLe (rmres.1.map Prod.snd)
        let max_right_credit : ℚ := headCredit right_list
        let total_pairs := left_list.length * right_list.length
        let step := if 0 < total_pairs then max 1 (total_pairs / 200) else 1
        let res := crossOuter inp cb sched step total_pairs right_list max_right_credit
          left_list [] 0 pc2.2
        if res.1 then ([], res.2.2.2) else (res.2.1, res.2.2.2)

/-- Python `str(i)` for an integer. -/
def intToString (i : Int) : String :=
  if i < 0 then "-" ++ natToString i.natAbs else natToString i.natAbs

/-- `_format_credit_text`: integers (within `1e-9`) print bare, otherwise one
decimal with trailing-zero stripping (`f"{v:.1f}"`'s binary-float rounding is
approximated by exact rounding of `10 v`). -/
def format_credit_text (v : ℚ) : String :=
  if |v - ((round v : ℤ) : ℚ)| < EPS then intToString (round v)
  else
    let t : ℤ := round (v * 10)
    if t % 10 = 0 then intToString (t / 10)
    else intToString (t / 10) ++ "." ++ natToString (t % 10).natAbs

/-- First free `base_k.xlsx` name with `k ≥ 2`: the Python `while True` loop
terminates within `used.length + 1` distinct candidates by pigeonhole, so the
bounded search below is equivalent (the default is unreachable). -/
def freshName (used : List String) (base : String) : String :=
  ((((List.range (used.length + 1)).map
      (fun i => base ++ "_" ++ natToString (i + 2) ++ ".xlsx")).filter
    (fun n => n ∉ used)).headD (base ++ ".xlsx"))

/-- The per-entry loop of `_write_results`.  File-system effects are outside
the model: a written file is represented by its generated name. -/
def writeLoop (sched : Nat → Bool) :
    List ResultEntry → List String → List String → St → List String × St
  | [], _, files, st => (files, st)
  | e :: rest, used, files, st =>
    let pc := pollCancel sched st
    if pc.1 then ([], pc.2)
    else
      let base_name := "學分_" ++ format_credit_text e.credits ++ "，優先度和_" ++
        natToString e.priority_sum
      let f0 := base_name ++ ".xlsx"
      let filename := if f0 ∉ used then f0 else freshName used base_name
      writeLoop sched rest (used ++ [filename]) (files ++ [filename]) pc.2

/-- `_write_results` from app_workers.py (file names only; directory handling
and the save-cache write are I/O outside the model). -/
def write_results (sched : Nat → Bool) (results : List ResultEntry) (st : St) :
    List String × St :=
  if results = [] then ([], st)
  else writeLoop sched results [] [] st

/-- The `finished` signal payload `(ok, cancelled, files, error_text)`. -/
structure Finished where
  ok : Bool
  cancelled : Bool
  files : List String
  err : String
deriving DecidableEq

/-- `BestScheduleWorker.run` from app_workers.py. -/
def runWorker (inp : OptInput) (sched : Nat → Bool) : Finished × St :=
  let st1 := emit_progress ⟨0, -1, []⟩ 0
  let cres := compute_best_combinations inp sched st1
  let pc := pollCancel sched cres.2
  if pc.1 then (⟨false, true, [], ""⟩, emit_progress pc.2 100)
  else
    let wres := write_results sched cres.1 pc.2
    let pc2 := pollCancel sched wres.2
    if pc2.1 then (⟨false, true, [], ""⟩, emit_progress pc2.2 100)
    else if wres.1 = [] ∧ cres.1 ≠ [] then
      (⟨false, false, [], "無法寫入最佳選課檔案。"⟩, emit_progress pc2.2 100)
    else (⟨true, false, wres.1, ""⟩, emit_progress pc2.2 100)

/-- The never-cancelled schedule. -/
def neverCancel : Nat → Bool := fun _ => false

/-- A monotone (once set, stays set) cancellation flag schedule. -/
def MonoSched (sched : Nat → Bool) : Prop :=
  ∀ i j, i ≤ j → sched i = true → sched j = true

/-- All rows of a grid have width `L`. -/
def GridShape (L : Nat) (m : List (List α)) : Prop := ∀ row ∈ m, row.length = L

/-- Well-formedness of the progress state: every emitted value lies in
`[0, 100]`, the emitted sequence is strictly increasing, and `lastProg` is
either the initial `-1` (nothing emitted yet) or the last emitted value. -/
def StWF (st : St) : Prop :=
  (∀ v ∈ st.emitted, 0 ≤ v ∧ v ≤ 100) ∧ List.Chain' (· < ·) st.emitted ∧
    (st.lastProg = -1 ∧ st.emitted = [] ∨ st.emitted.getLast? = some st.lastProg)

/-- The 128-bit combined mask `(base_hi << 64) | base_lo` of the locked base. -/
def baseMask (cb : CandBuild) : Nat := (cb.base_hi <<< 64) ||| cb.base_lo

/-- OR of the combined masks of a list of optional items. -/
def orMasks (S : List Item) : Nat := S.foldr (fun it acc => it.mask ||| acc) 0

/-- The half entry denoted by a conflict-free subset of one half's items:
OR of the masks, sums of credit, gened and priority, ids in item order. -/
def halfOf (S : List Item) : HalfEntry :=
  ⟨orMasks S, (S.map (fun i => i.credit)).sum, (S.map (fun i => i.gened)).sum,
    S.map (fun i => i.cid), (S.map (fun i => i.order_val)).sum⟩

/-- One dictionary step of `enumerate_half`: extend a half entry by one item. -/
def extendE (e : HalfEntry) (it : Item) : HalfEntry :=
  ⟨e.mask ||| it.mask, e.credit + it.credit, e.gened + it.gened,
    e.ids ++ [it.cid], e.priority_sum + it.order_val⟩

/-- Spec side of the refinement claim: all conflict-free subsets of the
optional pool (every subset of the base-compatible items whose masks are
pairwise disjoint), enumerated by brute force. -/
def feasibleSets (items : List Item) : List (List Item) :=
  items.sublists.filter (fun S => decide (S.Pairwise (fun a b => a.mask &&& b.mask = 0)))

/-- The full schedule entry denoted by a conflict-free optional subset on top
of the locked base. -/
def entryOf (inp : OptInput) (cb : CandBuild) (S : List Item) : ResultEntry :=
  mkEntry inp cb (halfOf S) ⟨0, 0, 0, [], 0⟩

/-- Spec side of the refinement claim: the entries of all conflict-free
subsets. -/
def allEntries (inp : OptInput) : List ResultEntry :=
  (feasibleSets (compute_items inp (build_candidates inp))).map
    (entryOf inp (build_candidates inp))

/-- Spec side of the refinement claim: the brute-force top-1 — sort every
conflict-free subset's entry by (maximal credit, minimal priority-sum,
lexicographically minimal sorted rank list) and take the first. -/
def bruteForceTop (inp : OptInput) : Option ResultEntry :=
  (sortBy entryLe (allEntries inp)).head?

/-- The strict `better_entry` comparison as a proposition. -/
def hlt (inp : OptInput) (a b : HalfEntry) : Prop :=
  b.credit < a.credit ∨ (a.credit = b.credit ∧
    (a.priority_sum < b.priority_sum ∨ (a.priority_sum = b.priority_sum ∧
      lexLt (sortedRanks inp a.ids) (sortedRanks inp b.ids) = true)))

/-- Equality of the three `better_entry` key components. -/
def hkeyEq (inp : OptInput) (a b : HalfEntry) : Prop :=
  a.credit = b.credit ∧ a.priority_sum = b.priority_sum ∧
    sortedRanks inp a.ids = sortedRanks inp b.ids

/-- The strict full-entry ranking `(-credits, priority_sum, order_key)` as a
proposition. -/
def flt (a b : ResultEntry) : Prop :=
  b.credits < a.credits ∨ (a.credits = b.credits ∧
    (a.priority_sum < b.priority_sum ∨ (a.priority_sum = b.priority_sum ∧
      lexLt a.order_key b.order_key = true)))

/-- Equality of the three full ranking key components. -/
def fkeyEq (a b : ResultEntry) : Prop :=
  a.credits = b.credits ∧ a.priority_sum = b.priority_sum ∧ a.order_key = b.order_key

/-- Multiset comparison: `A` has strictly more copies of some value than `B`
while agreeing on every smaller value. -/
def CntBelow (A B : List Nat) : Prop :=
  ∃ v, B.count v < A.count v ∧ ∀ w, w < v → A.count w = B.count w

/-- Soundness of a half table for a processed item prefix: every stored pair
is the mask and exact half entry of some conflict-free subset. -/
def TableSound (done : List Item) (d : List (Nat × HalfEntry)) : Prop :=
  ∀ p ∈ d, ∃ S : List Item, S.Sublist done ∧
    S.Pairwise (fun a b => a.mask &&& b.mask = 0) ∧ p.1 = orMasks S ∧ p.2 = halfOf S

/-- Completeness with domination: every conflict-free subset's mask is a key
of the table, and the stored entry is at least as good as the subset's own
entry under `better_entry`. -/
def TableComplete (inp : OptInput) (done : List Item)
    (d : List (Nat × HalfEntry)) : Prop :=
  ∀ S : List Item, S.Sublist done → S.Pairwise (fun a b => a.mask &&& b.mask = 0) →
    ∃ e, (orMasks S, e) ∈ d ∧ better_entry inp (halfOf S) e = false

/-- Invariant of the bounded `best` list: sorted by the ranking key, at most
five entries, every entry the entry of some conflict-free subset. -/
def BestInv (inp : OptInput) (best : List ResultEntry) : Prop :=
  List.Pairwise (fun a b => entryLe a b = true) best ∧ best.length ≤ 5 ∧
    ∀ e ∈ best, e ∈ allEntries inp

/-- A half-table value: the exact entry of some conflict-free subset of one
half of the item list. -/
def GoodHalfVal (half : List Item) (e : HalfEntry) : Prop :=
  ∃ S : List Item, S.Sublist half ∧
    S.Pairwise (fun a b => a.mask &&& b.mask = 0) ∧ e = halfOf S

/-! ### Basic facts about `idxOf` and the slot encoding -/

theorem idxOf_eq_none {x : String} {l : List String} (h : x ∉ l) : idxOf x l = none := by
  induction l with
  | nil => rfl
  | cons y ys ih =>
    simp only [List.mem_cons, not_or] at h
    have hyx : ¬ y = x := fun hxy => h.1 hxy.symm
    simp only [idxOf, if_neg hyx, ih h.2, Option.map_none']

theorem idxOf_some_lt {x : String} {l : List String} {i : Nat}
    (h : idxOf x l = some i) : i < l.length := by
  induction l generalizing i with
  | nil => simp [idxOf] at h
  | cons y ys ih =>
    by_cases hyx : y = x
    · simp [idxOf, if_pos hyx] at h
      simp [← h]
    · simp only [idxOf, if_neg hyx, Option.map_eq_some'] at h
      obtain ⟨j, hj, rfl⟩ := h
      have := ih hj
      simpa using Nat.succ_lt_succ this

theorem idxOf_some_get {x : String} {l : List String} {i : Nat}
    (h : idxOf x l = some i) : l.get ⟨i, idxOf_some_lt h⟩ = x := by
  induction l generalizing i with
  | nil => simp [idxOf] at h
  | cons y ys ih =>
    by_cases hyx : y = x
    · simp [idxOf, if_pos hyx] at h
      subst h
      simpa using hyx
    · simp only [idxOf, if_neg hyx, Option.map_eq_some'] at h
      obtain ⟨j, hj, rfl⟩ := h
      simpa using ih hj

theorem idxOf_mem {x : String} {l : List String} (h : x ∈ l) :
    ∃ i, idxOf x l = some i := by
  induction l with
  | nil => simp at h
  | cons y ys ih =>
    by_cases hyx : y = x
    · exact ⟨0, by simp [idxOf, hyx]⟩
    · have hx : x ∈ ys := by
        rcases List.mem_cons.mp h with h1 | h1
        · exact absurd h1.symm hyx
        · exact h1
      obtain ⟨i, hi⟩ := ih hx
      exact ⟨i + 1, by simp [idxOf, if_neg hyx, hi]⟩

theorem idxOf_inj {x y : String} {l : List String} {i : Nat}
    (hx : idxOf x l = some i) (hy : idxOf y l = some i) : x = y := by
  have h1 := idxOf_some_get hx
  have h2 := idxOf_some_get hy
  rw [← h1, ← h2]

theorem one_shiftLeft_eq (n : Nat) : 1 <<< n = 2 ^ n := by
  rw [Nat.shiftLeft_eq, one_mul]

theorem land_two_pow_ne_zero_iff (x i : Nat) : x &&& 2 ^ i ≠ 0 ↔ x.testBit i = true := by
  constructor
  · intro h
    by_contra hb
    apply h
    apply Nat.eq_of_testBit_eq
    intro j
    rw [Nat.testBit_land, Nat.testBit_two_pow, Nat.zero_testBit]
    by_cases hij : i = j
    · subst hij
      simp [Bool.eq_false_iff.mpr hb]
    · simp [hij]
  · intro h h0
    have := congrArg (fun n => Nat.testBit n i) h0
    simp only [Nat.testBit_land, Nat.testBit_two_pow, Nat.zero_testBit] at this
    rw [h] at this
    simp at this

theorem slot_to_mask_valid {d p : String} {di pj : Nat}
    (hd : DAY_INDEX d = some di) (hp : PERIOD_INDEX p = some pj) :
    slot_to_mask d p =
      if di * BITS_PER_DAY + pj < 64 then (2 ^ (di * BITS_PER_DAY + pj), 0)
      else (0, 2 ^ (di * BITS_PER_DAY + pj - 64)) := by
  simp only [slot_to_mask, hd, hp, one_shiftLeft_eq]

/-- The bit-position map `(di, pj) ↦ di * 15 + pj` produces equal mask pairs
only at equal positions. -/
theorem slot_mask_form_inj {a b : Nat}
    (h : (if a < 64 then ((2 : Nat) ^ a, (0 : Nat)) else (0, 2 ^ (a - 64))) =
         (if b < 64 then ((2 : Nat) ^ b, (0 : Nat)) else (0, 2 ^ (b - 64)))) : a = b := by
  by_cases ha : a < 64 <;> by_cases hb : b < 64 <;>
      simp [ha, hb, Prod.ext_iff] at h <;> omega

theorem DAYS_length : DAYS.length = 7 := rfl

theorem PERIODS_length : PERIODS.length = 15 := rfl

/-- `slot_to_mask` is injective on the valid domain. -/
theorem slot_to_mask_inj {d1 p1 d2 p2 : String}
    (hd1 : d1 ∈ DAYS) (hp1 : p1 ∈ PERIODS) (hd2 : d2 ∈ DAYS) (hp2 : p2 ∈ PERIODS)
    (h : slot_to_mask d1 p1 = slot_to_mask d2 p2) : d1 = d2 ∧ p1 = p2 := by
  obtain ⟨i1, hi1⟩ := idxOf_mem hd1
  obtain ⟨j1, hj1⟩ := idxOf_mem hp1
  obtain ⟨i2, hi2⟩ := idxOf_mem hd2
  obtain ⟨j2, hj2⟩ := idxOf_mem hp2
  rw [@slot_to_mask_valid d1 p1 i1 j1 hi1 hj1, @slot_to_mask_valid d2 p2 i2 j2 hi2 hj2] at h
  have hidx := slot_mask_form_inj h
  have hlt1 : j1 < 15 := by
    have := idxOf_some_lt hj1
    rwa [PERIODS_length] at this
  have hlt2 : j2 < 15 := by
    have := idxOf_some_lt hj2
    rwa [PERIODS_length] at this
  have hb : BITS_PER_DAY = 15 := rfl
  rw [hb] at hidx
  have hij : i1 = i2 ∧ j1 = j2 := by omega
  constructor
  · exact idxOf_inj hi1 (hij.1 ▸ hi2)
  · exact idxOf_inj hj1 (hij.2 ▸ hj2)

/-- Bit-level description of the OR-fold in `slots_set_to_masks`. -/
theorem testBit_maskStep_fold (S : List String) (acc : Nat × Nat) (i : Nat) :
    ((S.foldl maskStep acc).1.testBit i = true ↔
      acc.1.testBit i = true ∨
        ∃ s ∈ S, ∃ d p, splitDash1 s = some (d, p) ∧ (slot_to_mask d p).1.testBit i = true) ∧
    ((S.foldl maskStep acc).2.testBit i = true ↔
      acc.2.testBit i = true ∨
        ∃ s ∈ S, ∃ d p, splitDash1 s = some (d, p) ∧ (slot_to_mask d p).2.testBit i = true) := by
  induction S generalizing acc with
  | nil => simp
  | cons s S ih =>
    simp only [List.foldl_cons]
    have hstep := ih (maskStep acc s)
    rcases hsp : splitDash1 s with _ | ⟨d, p⟩
    · constructor
      · rw [hstep.1]
        simp only [maskStep, hsp]
        constructor
        · rintro (h | ⟨t, ht, hrest⟩)
          · exact Or.inl h
          · exact Or.inr ⟨t, List.mem_cons_of_mem _ ht, hrest⟩
        · rintro (h | ⟨t, ht, d', p', hsp', hbit⟩)
          · exact Or.inl h
          · rcases List.mem_cons.mp ht with rfl | ht'
            · rw [hsp] at hsp'; exact absurd hsp' (by simp)
            · exact Or.inr ⟨t, ht', d', p', hsp', hbit⟩
      · rw [hstep.2]
        simp only [maskStep, hsp]
        constructor
        · rintro (h | ⟨t, ht, hrest⟩)
          · exact Or.inl h
          · exact Or.inr ⟨t, List.mem_cons_of_mem _ ht, hrest⟩
        · rintro (h | ⟨t, ht, d', p', hsp', hbit⟩)
          · exact Or.inl h
          · rcases List.mem_cons.mp ht with rfl | ht'
            · rw [hsp] at hsp'; exact absurd hsp' (by simp)
            · exact Or.inr ⟨t, ht', d', p', hsp', hbit⟩
    · have hm : maskStep acc s =
          (acc.1 ||| (slot_to_mask d p).1, acc.2 ||| (slot_to_mask d p).2) := by
        simp [maskStep, hsp]
      constructor
      · rw [hstep.1, hm]
        simp only [Nat.testBit_or, Bool.or_eq_true]
        constructor
        · rintro ((h | h) | ⟨t, ht, hrest⟩)
          · exact Or.inl h
          · exact Or.inr ⟨s, List.mem_cons_self s S, d, p, hsp, h⟩
          · exact Or.inr ⟨t, List.mem_cons_of_mem _ ht, hrest⟩
        · rintro (h | ⟨t, ht, d', p', hsp', hbit⟩)
          · exact Or.inl (Or.inl h)
          · rcases List.mem_cons.mp ht with rfl | ht'
            · rw [hsp] at hsp'
              obtain ⟨rfl, rfl⟩ : d = d' ∧ p = p' := by
                simpa [Prod.ext_iff] using hsp'
              exact Or.inl (Or.inr hbit)
            · exact Or.inr ⟨t, ht', d', p', hsp', hbit⟩
      · rw [hstep.2, hm]
        simp only [Nat.testBit_or, Bool.or_eq_true]
        constructor
        · rintro ((h | h) | ⟨t, ht, hrest⟩)
          · exact Or.inl h
          · exact Or.inr ⟨s, List.mem_cons_self s S, d, p, hsp, h⟩
          · exact Or.inr ⟨t, List.mem_cons_of_mem _ ht, hrest⟩
        · rintro (h | ⟨t, ht, d', p', hsp', hbit⟩)
          · exact Or.inl (Or.inl h)
          · rcases List.mem_cons.mp ht with rfl | ht'
            · rw [hsp] at hsp'
              obtain ⟨rfl, rfl⟩ : d = d' ∧ p = p' := by
                simpa [Prod.ext_iff] using hsp'
              exact Or.inl (Or.inr hbit)
            · exact Or.inr ⟨t, ht', d', p', hsp', hbit⟩

/-- Splitting a canonical slot identifier recovers its day and period. -/
theorem splitDash1_canonical : ∀ d ∈ DAYS, ∀ p ∈ PERIODS,
    splitDash1 (d ++ "-" ++ p) = some (d, p) := by decide

theorem slot_mask_testBit_lo {d p : String} {di pj i : Nat}
    (hd : DAY_INDEX d = some di) (hp : PERIOD_INDEX p = some pj) :
    (slot_to_mask d p).1.testBit i = true ↔
      di * BITS_PER_DAY + pj < 64 ∧ i = di * BITS_PER_DAY + pj := by
  rw [slot_to_mask_valid hd hp]
  by_cases hlt : di * BITS_PER_DAY + pj < 64
  · simp [hlt, Nat.testBit_two_pow, eq_comm]
  · simp [hlt, Nat.zero_testBit]

theorem slot_mask_testBit_hi {d p : String} {di pj i : Nat}
    (hd : DAY_INDEX d = some di) (hp : PERIOD_INDEX p = some pj) :
    (slot_to_mask d p).2.testBit i = true ↔
      ¬ di * BITS_PER_DAY + pj < 64 ∧ i = di * BITS_PER_DAY + pj - 64 := by
  rw [slot_to_mask_valid hd hp]
  by_cases hlt : di * BITS_PER_DAY + pj < 64
  · simp [hlt, Nat.zero_testBit]
  · simp [hlt, Nat.testBit_two_pow, eq_comm]

/-- The nonzero test used by `bitset_to_slots` is exactly a `testBit` of one of
the two words. -/
theorem decode_test_iff {lo hi : Nat} {d p : String} {di pj : Nat}
    (hd : DAY_INDEX d = some di) (hp : PERIOD_INDEX p = some pj) :
    ((lo &&& (slot_to_mask d p).1) ||| (hi &&& (slot_to_mask d p).2) ≠ 0) ↔
      (if di * BITS_PER_DAY + pj < 64 then lo.testBit (di * BITS_PER_DAY + pj)
       else hi.testBit (di * BITS_PER_DAY + pj - 64)) = true := by
  rw [slot_to_mask_valid hd hp]
  by_cases hlt : di * BITS_PER_DAY + pj < 64
  · rw [if_pos hlt, if_pos hlt]
    simp only [Nat.and_zero, Nat.or_zero]
    exact land_two_pow_ne_zero_iff lo _
  · rw [if_neg hlt, if_neg hlt]
    simp only [Nat.and_zero, Nat.zero_or]
    exact land_two_pow_ne_zero_iff hi _

theorem mem_allSlots {d p : String} : (d, p) ∈ allSlots ↔ d ∈ DAYS ∧ p ∈ PERIODS := by
  simp only [allSlots, List.mem_flatMap, List.mem_map, Prod.mk.injEq]
  constructor
  · rintro ⟨a, ha, b, hb, rfl, rfl⟩
    exact ⟨ha, hb⟩
  · rintro ⟨ha, hb⟩
    exact ⟨d, ha, p, hb, rfl, rfl⟩

/-- Round trip: decoding the bitset of a set of canonical slot identifiers
recovers exactly that set. -/
theorem mem_decode_iff (S : List String)
    (hS : ∀ s ∈ S, ∃ d ∈ DAYS, ∃ p ∈ PERIODS, s = d ++ "-" ++ p) (x : String) :
    x ∈ bitset_to_slots (slots_set_to_masks S).1 (slots_set_to_masks S).2 ↔ x ∈ S := by
  set lo := (slots_set_to_masks S).1 with hlo
  set hi := (slots_set_to_masks S).2 with hhi
  have hmem : ∀ y : String,
      y ∈ bitset_to_slots lo hi ↔
        ∃ d p, (d ∈ DAYS ∧ p ∈ PERIODS) ∧
          ((lo &&& (slot_to_mask d p).1) ||| (hi &&& (slot_to_mask d p).2) ≠ 0) ∧
          y = d ++ "-" ++ p := by
    intro y
    simp only [bitset_to_slots, List.mem_map, List.mem_filter, decide_eq_true_eq]
    constructor
    · rintro ⟨⟨d, p⟩, ⟨hin, htest⟩, rfl⟩
      exact ⟨d, p, mem_allSlots.mp hin, htest, rfl⟩
    · rintro ⟨d, p, hdp, htest, rfl⟩
      exact ⟨(d, p), ⟨mem_allSlots.mpr hdp, htest⟩, rfl⟩
  rw [hmem x]
  constructor
  · rintro ⟨d, p, ⟨hd, hp⟩, htest, rfl⟩
    obtain ⟨di, hdi⟩ := idxOf_mem hd
    obtain ⟨pj, hpj⟩ := idxOf_mem hp
    rw [decode_test_iff hdi hpj] at htest
    by_cases hlt : di * BITS_PER_DAY + pj < 64
    · rw [if_pos hlt] at htest
      rw [hlo] at htest
      obtain ⟨s, hsS, d', p', hsp, hbit⟩ :=
        ((testBit_maskStep_fold S (0, 0) _).1.mp htest).resolve_left (by simp [Nat.zero_testBit])
      obtain ⟨d2, hd2, p2, hp2, hseq⟩ := hS s hsS
      rw [hseq, splitDash1_canonical d2 hd2 p2 hp2] at hsp
      obtain ⟨rfl, rfl⟩ : d2 = d' ∧ p2 = p' := by simpa [Prod.ext_iff] using hsp
      obtain ⟨di2, hdi2⟩ := idxOf_mem hd2
      obtain ⟨pj2, hpj2⟩ := idxOf_mem hp2
      rw [slot_mask_testBit_lo hdi2 hpj2] at hbit
      have heq : slot_to_mask d p = slot_to_mask d2 p2 := by
        rw [slot_to_mask_valid hdi hpj, slot_to_mask_valid hdi2 hpj2]
        rw [if_pos hlt, if_pos hbit.1, hbit.2]
      obtain ⟨rfl, rfl⟩ := slot_to_mask_inj hd hp hd2 hp2 heq
      rw [← hseq]
      exact hsS
    · rw [if_neg hlt] at htest
      rw [hhi] at htest
      obtain ⟨s, hsS, d', p', hsp, hbit⟩ :=
        ((testBit_maskStep_fold S (0, 0) _).2.mp htest).resolve_left (by simp [Nat.zero_testBit])
      obtain ⟨d2, hd2, p2, hp2, hseq⟩ := hS s hsS
      rw [hseq, splitDash1_canonical d2 hd2 p2 hp2] at hsp
      obtain ⟨rfl, rfl⟩ : d2 = d' ∧ p2 = p' := by simpa [Prod.ext_iff] using hsp
      obtain ⟨di2, hdi2⟩ := idxOf_mem hd2
      obtain ⟨pj2, hpj2⟩ := idxOf_mem hp2
      rw [slot_mask_testBit_hi hdi2 hpj2] at hbit
      have heq : slot_to_mask d p = slot_to_mask d2 p2 := by
        rw [slot_to_mask_valid hdi hpj, slot_to_mask_valid hdi2 hpj2]
        rw [if_neg hlt, if_neg hbit.1, hbit.2]
      obtain ⟨rfl, rfl⟩ := slot_to_mask_inj hd hp hd2 hp2 heq
      rw [← hseq]
      exact hsS
  · intro hxS
    obtain ⟨d, hd, p, hp, rfl⟩ := hS x hxS
    obtain ⟨di, hdi⟩ := idxOf_mem hd
    obtain ⟨pj, hpj⟩ := idxOf_mem hp
    refine ⟨d, p, ⟨hd, hp⟩, ?_, rfl⟩
    rw [decode_test_iff hdi hpj]
    by_cases hlt : di * BITS_PER_DAY + pj < 64
    · rw [if_pos hlt, hlo]
      refine (testBit_maskStep_fold S (0, 0) _).1.mpr (Or.inr ?_)
      exact ⟨d ++ "-" ++ p, hxS, d, p, splitDash1_canonical d hd p hp,
        (slot_mask_testBit_lo hdi hpj).mpr ⟨hlt, rfl⟩⟩
    · rw [if_neg hlt, hhi]
      refine (testBit_maskStep_fold S (0, 0) _).2.mpr (Or.inr ?_)
      exact ⟨d ++ "-" ++ p, hxS, d, p, splitDash1_canonical d hd p hp,
        (slot_mask_testBit_hi hdi hpj).mpr ⟨hlt, rfl⟩⟩

/-! ### Claim C6 (slot encoding of out-of-domain inputs) -/

/-- C6 counterexample: on an out-of-domain day the slot-to-bit encoding does
not fail with an error — it returns the ordinary zero mask `(0, 0)`, and a
slot set containing only that slot encodes identically to the empty slot set
(silent skip). -/
theorem C6_counterexample_no_failure :
    slot_to_mask "八" "1" = (0, 0) ∧
      slots_set_to_masks ["八-1"] = slots_set_to_masks [] := by decide

/-- C6 (amended): for every `(day, period)` with the day or the period outside
the known domain, `slot_to_mask` returns the zero mask `(0, 0)` (the slot is
silently skipped) instead of raising an error; no in-domain pair ever returns
the zero mask, so the zero mask is the distinguished invalid-slot result. -/
theorem C6_out_of_domain_slot_yields_zero_mask :
    (∀ d p : String, d ∉ DAYS ∨ p ∉ PERIODS → slot_to_mask d p = (0, 0)) ∧
      (∀ d ∈ DAYS, ∀ p ∈ PERIODS, slot_to_mask d p ≠ (0, 0)) := by
  constructor
  · intro d p h
    rcases h with h | h
    · simp [slot_to_mask, DAY_INDEX, idxOf_eq_none h]
    · rcases hdi : DAY_INDEX d with _ | di
      · simp [slot_to_mask, hdi]
      · simp [slot_to_mask, hdi, PERIOD_INDEX, idxOf_eq_none h]
  · intro d hd p hp
    obtain ⟨di, hdi⟩ := idxOf_mem hd
    obtain ⟨pj, hpj⟩ := idxOf_mem hp
    rw [slot_to_mask_valid hdi hpj]
    by_cases hlt : di * BITS_PER_DAY + pj < 64
    · rw [if_pos hlt]
      intro hcontra
      have h1 : (2 : Nat) ^ (di * BITS_PER_DAY + pj) = 0 := congrArg Prod.fst hcontra
      have h2 := Nat.two_pow_pos (di * BITS_PER_DAY + pj)
      omega
    · rw [if_neg hlt]
      intro hcontra
      have h1 : (2 : Nat) ^ (di * BITS_PER_DAY + pj - 64) = 0 := congrArg Prod.snd hcontra
      have h2 := Nat.two_pow_pos (di * BITS_PER_DAY + pj - 64)
      omega

/-- C6 witness: the amended theorem applied at concrete inputs. -/
theorem C6_witness :
    slot_to_mask "月" "1" = (0, 0) ∧ slot_to_mask "一" "0" ≠ (0, 0) :=
  ⟨C6_out_of_domain_slot_yields_zero_mask.1 "月" "1" (Or.inl (by decide)),
    C6_out_of_domain_slot_yields_zero_mask.2 "一" (by decide) "0" (by decide)⟩

/-! ### Claim C9 (injectivity, bit-position formula, round trip) -/

/-- C9: over the 7×15 valid domain, `slot_to_mask` is injective; the bit
position is `day_index * periods_per_day + period_index`, with positions ≥ 64
spilling into the second 64-bit word; and decoding the bitset of any set of
canonical slot identifiers yields the original set. -/
theorem C9_slot_encoding_injective_round_trip :
    (∀ d1 ∈ DAYS, ∀ p1 ∈ PERIODS, ∀ d2 ∈ DAYS, ∀ p2 ∈ PERIODS,
        slot_to_mask d1 p1 = slot_to_mask d2 p2 → d1 = d2 ∧ p1 = p2) ∧
    (∀ (d p : String) (di pj : Nat), DAY_INDEX d = some di → PERIOD_INDEX p = some pj →
        slot_to_mask d p =
          if di * BITS_PER_DAY + pj < 64 then (2 ^ (di * BITS_PER_DAY + pj), 0)
          else (0, 2 ^ (di * BITS_PER_DAY + pj - 64))) ∧
    (∀ S : List String, (∀ s ∈ S, ∃ d ∈ DAYS, ∃ p ∈ PERIODS, s = d ++ "-" ++ p) →
        (bitset_to_slots (slots_set_to_masks S).1 (slots_set_to_masks S).2).toFinset =
          S.toFinset) := by
  refine ⟨?_, ?_, ?_⟩
  · intro d1 hd1 p1 hp1 d2 hd2 p2 hp2 h
    exact slot_to_mask_inj hd1 hp1 hd2 hp2 h
  · intro d p di pj hd hp
    exact slot_to_mask_valid hd hp
  · intro S hS
    ext x
    simp only [List.mem_toFinset]
    exact mem_decode_iff S hS x

/-! ## Stable sorting: proofs -/

theorem insertOrd_perm (le : α → α → Bool) (x : α) (l : List α) :
    List.Perm (insertOrd le x l) (x :: l) := by
  induction l with
  | nil => rfl
  | cons y ys ih =>
    by_cases h : le y x = true
    · simp only [insertOrd, if_pos h]
      exact (List.Perm.cons y ih).trans (List.Perm.swap x y ys)
    · simp [insertOrd, h]

theorem sortBy_perm (le : α → α → Bool) (l : List α) : List.Perm (sortBy le l) l := by
  have key : ∀ (l acc : List α),
      List.Perm (l.foldl (fun a x => insertOrd le x a) acc) (acc ++ l) := by
    intro l
    induction l with
    | nil => simp
    | cons x xs ih =>
      intro acc
      exact ((ih (insertOrd le x acc)).trans
        ((insertOrd_perm le x acc).append_right xs)).trans List.perm_middle.symm
  simpa [sortBy] using key l []

theorem insertOrd_pairwise {le : α → α → Bool}
    (htrans : ∀ a b c, le a b = true → le b c = true → le a c = true)
    (htotal : ∀ a b, le a b = true ∨ le b a = true)
    (x : α) {l : List α} (hl : List.Pairwise (fun a b => le a b = true) l) :
    List.Pairwise (fun a b => le a b = true) (insertOrd le x l) := by
  induction l with
  | nil => simp [insertOrd]
  | cons y ys ih =>
    rcases List.pairwise_cons.mp hl with ⟨hy, hys⟩
    by_cases h : le y x = true
    · simp only [insertOrd, if_pos h]
      refine List.pairwise_cons.mpr ⟨?_, ih hys⟩
      intro z hz
      have hz' : z = x ∨ z ∈ ys := by
        have := (insertOrd_perm le x ys).mem_iff.mp hz
        simpa using this
      rcases hz' with rfl | hz'
      · exact h
      · exact hy z hz'
    · have hxy : le x y = true := (htotal x y).resolve_right (by simpa using h)
      simp only [insertOrd, if_neg h]
      refine List.pairwise_cons.mpr ⟨?_, hl⟩
      intro z hz
      rcases List.mem_cons.mp hz with rfl | hz'
      · exact hxy
      · exact htrans x y z hxy (hy z hz')

theorem sortBy_pairwise {le : α → α → Bool}
    (htrans : ∀ a b c, le a b = true → le b c = true → le a c = true)
    (htotal : ∀ a b, le a b = true ∨ le b a = true) (l : List α) :
    List.Pairwise (fun a b => le a b = true) (sortBy le l) := by
  have key : ∀ (l acc : List α), List.Pairwise (fun a b => le a b = true) acc →
      List.Pairwise (fun a b => le a b = true)
        (l.foldl (fun a x => insertOrd le x a) acc) := by
    intro l
    induction l with
    | nil => intro acc h; simpa using h
    | cons x xs ih =>
      intro acc h
      exact ih _ (insertOrd_pairwise htrans htotal x h)
  exact key l [] List.Pairwise.nil

theorem sortBy_mem {le : α → α → Bool} {l : List α} {a : α} :
    a ∈ sortBy le l ↔ a ∈ l := (sortBy_perm le l).mem_iff

theorem sortBy_length (le : α → α → Bool) (l : List α) :
    (sortBy le l).length = l.length := (sortBy_perm le l).length_eq

/-! ## app_timetable_logic.py: lane assignment (proofs) -/

theorem bitLenAux_fuel_irrel : ∀ f1 f2 n, n ≤ f1 → n ≤ f2 →
    bitLenAux f1 n = bitLenAux f2 n := by
  intro f1
  induction f1 with
  | zero =>
    intro f2 n h1 _
    interval_cases n
    cases f2 <;> simp [bitLenAux]
  | succ f ih =>
    intro f2 n h1 h2
    cases f2 with
    | zero =>
      interval_cases n
      simp [bitLenAux]
    | succ g =>
      by_cases hn : n = 0
      · simp [bitLenAux, hn]
      · simp only [bitLenAux, if_neg hn]
        rw [ih g (n / 2) (by omega) (by omega)]

theorem lt_two_pow_bitLenAux : ∀ fuel n, n ≤ fuel → n < 2 ^ bitLenAux fuel n := by
  intro fuel
  induction fuel with
  | zero =>
    intro n h
    interval_cases n
    simp [bitLenAux]
  | succ f ih =>
    intro n h
    by_cases hn : n = 0
    · simp [bitLenAux, hn]
    · simp only [bitLenAux, if_neg hn]
      have := ih (n / 2) (by omega)
      have hpow : (2 : Nat) ^ (bitLenAux f (n / 2) + 1) = 2 * 2 ^ bitLenAux f (n / 2) := by
        ring
      omega

theorem lt_two_pow_bitLen (n : Nat) : n < 2 ^ bitLen n :=
  lt_two_pow_bitLenAux n n le_rfl

theorem bitLen_two_pow (k : Nat) : bitLen (2 ^ k) = k + 1 := by
  induction k with
  | zero => rfl
  | succ k ih =>
    have hne : (2 : Nat) ^ (k + 1) ≠ 0 := by positivity
    have hexp : (2 : Nat) ^ (k + 1) = 2 * 2 ^ k := by ring
    have h1 : (1 : Nat) ≤ 2 ^ k := Nat.one_le_two_pow
    have hdiv : (2 : Nat) ^ (k + 1) / 2 = 2 ^ k := by omega
    unfold bitLen
    have hstep : bitLenAux (2 ^ (k + 1)) (2 ^ (k + 1)) =
        bitLenAux (2 ^ (k + 1) - 1) (2 ^ k) + 1 := by
      rcases hfuel : (2 : Nat) ^ (k + 1) with _ | f
      · exact absurd hfuel hne
      · have hne' : f + 1 ≠ 0 := by omega
        simp only [bitLenAux, if_neg hne']
        rw [show (f + 1) / 2 = 2 ^ k from by rw [← hfuel]; exact hdiv]
        rw [show f + 1 - 1 = f from rfl]
    rw [hstep, bitLenAux_fuel_irrel (2 ^ (k + 1) - 1) (2 ^ k) (2 ^ k) (by omega) le_rfl]
    rw [← bitLen, ih]

theorem xor_pred_of_odd {n : Nat} (h : n % 2 = 1) : n ^^^ (n - 1) = 1 := by
  apply Nat.eq_of_testBit_eq
  intro i
  cases i with
  | zero =>
    have h1 : (n - 1) % 2 = 0 := by omega
    rw [Nat.testBit_xor, Nat.testBit_zero, Nat.testBit_zero, Nat.testBit_zero, h, h1]
    simp
  | succ i =>
    have h2 : (n - 1) / 2 = n / 2 := by omega
    rw [Nat.testBit_xor, Nat.testBit_succ, Nat.testBit_succ, h2, Nat.testBit_succ]
    simp

theorem land_xor_pred_even {n : Nat} (h0 : n ≠ 0) (h : n % 2 = 0) :
    n &&& (n ^^^ (n - 1)) = 2 * ((n / 2) &&& ((n / 2) ^^^ (n / 2 - 1))) := by
  apply Nat.eq_of_testBit_eq
  intro i
  cases i with
  | zero =>
    have hb : n.testBit 0 = false := by simp [Nat.testBit_zero, h]
    have hb2 : (2 * (n / 2 &&& (n / 2 ^^^ (n / 2 - 1)))).testBit 0 = false := by
      simp [Nat.testBit_zero, Nat.mul_mod_right]
    rw [Nat.testBit_land, hb, hb2, Bool.false_and]
  | succ i =>
    have hm : (n - 1) / 2 = n / 2 - 1 := by omega
    have hdiv : (2 * (n / 2 &&& (n / 2 ^^^ (n / 2 - 1)))) / 2 =
        n / 2 &&& (n / 2 ^^^ (n / 2 - 1)) := by omega
    rw [Nat.testBit_land, Nat.testBit_xor, Nat.testBit_succ, Nat.testBit_succ,
      Nat.testBit_succ, hm, hdiv, Nat.testBit_land, Nat.testBit_xor]

theorem land_xor_pred_eq_pow {n : Nat} (h : n ≠ 0) :
    n &&& (n ^^^ (n - 1)) = 2 ^ lsbIdx n := by
  induction n using Nat.strong_induction_on with
  | _ n ih =>
    by_cases hodd : n % 2 = 1
    · have hz : lsbIdx n = 0 := by
        rw [lsbIdx]
        simp [h, hodd]
      rw [xor_pred_of_odd hodd, Nat.and_one_is_mod, hodd, hz, pow_zero]
    · have heven : n % 2 = 0 := by omega
      have hhalf : n / 2 ≠ 0 := by omega
      have hstep : lsbIdx n = 1 + lsbIdx (n / 2) := by
        rw [lsbIdx]
        simp [h, hodd]
      rw [land_xor_pred_even h heven, ih (n / 2) (Nat.div_lt_self (Nat.pos_of_ne_zero h)
        (by norm_num)) hhalf, hstep]
      ring

theorem testBit_lsbIdx {n : Nat} (h : n ≠ 0) : n.testBit (lsbIdx n) = true := by
  induction n using Nat.strong_induction_on with
  | _ n ih =>
    by_cases hodd : n % 2 = 1
    · have hz : lsbIdx n = 0 := by
        rw [lsbIdx]
        simp [h, hodd]
      rw [hz, Nat.testBit_zero]
      simp [hodd]
    · have hhalf : n / 2 ≠ 0 := by omega
      have hstep : lsbIdx n = 1 + lsbIdx (n / 2) := by
        rw [lsbIdx]
        simp [h, hodd]
      rw [hstep, Nat.add_comm, Nat.testBit_succ]
      exact ih (n / 2) (Nat.div_lt_self (Nat.pos_of_ne_zero h) (by norm_num)) hhalf

/-- The chosen lane is 1-based and its bit is free in `used`. -/
theorem laneFor_spec (used : Nat) :
    1 ≤ laneFor used ∧ used.testBit (laneFor used - 1) = false := by
  have hblt : used < 2 ^ (bitLen used + 1) := by
    have h1 := lt_two_pow_bitLen used
    have h2 : (2 : Nat) ^ bitLen used ≤ 2 ^ (bitLen used + 1) :=
      Nat.pow_le_pow_right (by norm_num) (by omega)
    omega
  have hblt2 : used < 2 ^ (bitLen used + 2) := by
    have h2 : (2 : Nat) ^ (bitLen used + 1) ≤ 2 ^ (bitLen used + 2) :=
      Nat.pow_le_pow_right (by norm_num) (by omega)
    omega
  set b := bitLen used + 2 with hb
  set inv := (2 ^ b - 1) ^^^ used with hinv
  have hinv_bit : ∀ i, inv.testBit i = ((decide (i < b)) ^^ used.testBit i) := by
    intro i
    rw [hinv, Nat.testBit_xor, Nat.testBit_two_pow_sub_one]
  have hinv_ne : inv ≠ 0 := by
    intro h0
    have := hinv_bit (b - 1)
    rw [h0, Nat.zero_testBit] at this
    have hd : decide (b - 1 < b) = true := by
      simp only [decide_eq_true_eq]
      omega
    have hu : used.testBit (b - 1) = false := by
      apply Nat.testBit_lt_two_pow
      have : (b : Nat) - 1 = bitLen used + 1 := by omega
      rw [this]
      exact hblt
    rw [hd, hu] at this
    simp at this
  have hlsb : inv &&& (inv ^^^ (inv - 1)) = 2 ^ lsbIdx inv := land_xor_pred_eq_pow hinv_ne
  have hlane : laneFor used = lsbIdx inv + 1 := by
    show bitLen (inv &&& (inv ^^^ (inv - 1))) = _
    rw [hlsb, bitLen_two_pow]
  constructor
  · omega
  · rw [hlane]
    simp only [Nat.add_sub_cancel]
    have hbit := testBit_lsbIdx hinv_ne
    have := hinv_bit (lsbIdx inv)
    rw [hbit] at this
    by_cases hk : lsbIdx inv < b
    · have hd : decide (lsbIdx inv < b) = true := by simp [hk]
      rw [hd] at this
      cases hu : used.testBit (lsbIdx inv)
      · rfl
      · rw [hu] at this
        simp at this
    · exfalso
      have hu : used.testBit (lsbIdx inv) = false := by
        apply Nat.testBit_lt_two_pow
        calc used < 2 ^ b := hblt2
        _ ≤ 2 ^ lsbIdx inv := Nat.pow_le_pow_right (by norm_num) (by omega)
      have hd : decide (lsbIdx inv < b) = false := by simp [hk]
      rw [hd, hu] at this
      simp at this

/-- C9 witness: the theorem applied at concrete inputs. -/
theorem C9_witness :
    ("一" = "一" ∧ "0" = "0") ∧
      (bitset_to_slots (slots_set_to_masks ["二-3"]).1
          (slots_set_to_masks ["二-3"]).2).toFinset = (["二-3"] : List String).toFinset :=
  ⟨C9_slot_encoding_injective_round_trip.1 "一" (by decide) "0" (by decide) "一" (by decide)
      "0" (by decide) rfl,
    C9_slot_encoding_injective_round_trip.2.2 ["二-3"]
      (by
        intro s hs
        simp only [List.mem_singleton] at hs
        exact ⟨"二", by decide, "3", by decide, by rw [hs]; decide⟩)⟩

theorem testBit_or_fold (used : String → Nat) (k : Nat) :
    ∀ (slots : List String) (acc : Nat),
      ((slots.foldl (fun a t => a ||| used t) acc).testBit k = true ↔
        acc.testBit k = true ∨ ∃ t ∈ slots, (used t).testBit k = true) := by
  intro slots
  induction slots with
  | nil => simp
  | cons s ss ih =>
    intro acc
    rw [List.foldl_cons, ih]
    simp only [Nat.testBit_or, Bool.or_eq_true, List.mem_cons]
    constructor
    · rintro ((h | h) | ⟨t, ht, h⟩)
      · exact Or.inl h
      · exact Or.inr ⟨s, Or.inl rfl, h⟩
      · exact Or.inr ⟨t, Or.inr ht, h⟩
    · rintro (h | ⟨t, ht, h⟩)
      · exact Or.inl (Or.inl h)
      · rcases ht with rfl | ht
        · exact Or.inl (Or.inr h)
        · exact Or.inr ⟨t, ht, h⟩

/-- Once a slot's occupancy mask has bit `k` set, no later-processed course
containing that slot ever receives lane `k + 1`. -/
theorem laneProcess_avoid :
    ∀ (rows : List LaneRow) (used : String → Nat) (s : String) (k : Nat),
      (used s).testBit k = true →
      ∀ (j : Nat) (r : LaneRow) (lp : Nat × Nat),
        rows[j]? = some r → s ∈ r.slots →
        (laneProcess rows used)[j]? = some lp → lp.2 ≠ k + 1 := by
  intro rows
  induction rows with
  | nil =>
    intro used s k hb j r lp hr
    simp at hr
  | cons r0 rest ih =>
    intro used s k hb j r lp hr hs hlp
    by_cases hemp : r0.slots.isEmpty
    · simp only [laneProcess, if_pos hemp] at hlp
      cases j with
      | zero =>
        simp only [List.getElem?_cons_zero, Option.some.injEq] at hr
        rw [List.isEmpty_iff] at hemp
        rw [← hr, hemp] at hs
        simp at hs
      | succ j =>
        simp only [List.getElem?_cons_succ] at hr hlp
        exact ih used s k hb j r lp hr hs hlp
    · simp only [laneProcess, if_neg hemp] at hlp
      cases j with
      | zero =>
        simp only [List.getElem?_cons_zero, Option.some.injEq] at hr hlp
        subst hr
        intro hcontra
        set u := List.foldl (fun acc t => acc ||| used t) 0 r0.slots with hu
        have hbit : u.testBit k = true := by
          rw [hu, testBit_or_fold]
          exact Or.inr ⟨s, hs, hb⟩
        have hfree := (laneFor_spec u).2
        have hlane : lp.2 = laneFor u := by rw [← hlp]
        rw [hlane] at hcontra
        rw [hcontra] at hfree
        simp only [Nat.add_sub_cancel] at hfree
        rw [hbit] at hfree
        exact Bool.true_eq_false.mp hfree
      | succ j =>
        simp only [List.getElem?_cons_succ] at hr hlp
        refine ih _ s k ?_ j r lp hr hs hlp
        by_cases hmem : s ∈ r0.slots
        · simp only [if_pos hmem, Nat.testBit_or, hb, Bool.true_or]
        · simp only [if_neg hmem, hb]

/-- Two courses at distinct positions of the processed row list that share a
slot receive different lanes. -/
theorem laneProcess_lane_ne :
    ∀ (rows : List LaneRow) (used : String → Nat) (i j : Nat) (ri rj : LaneRow)
      (li lj : Nat × Nat) (s : String), i < j →
      rows[i]? = some ri → rows[j]? = some rj → s ∈ ri.slots → s ∈ rj.slots →
      (laneProcess rows used)[i]? = some li → (laneProcess rows used)[j]? = some lj →
      li.2 ≠ lj.2 := by
  intro rows
  induction rows with
  | nil =>
    intro used i j ri rj li lj s hij hri
    simp at hri
  | cons r0 rest ih =>
    intro used i j ri rj li lj s hij hri hrj hsi hsj hli hlj
    cases i with
    | zero =>
      simp only [List.getElem?_cons_zero, Option.some.injEq] at hri
      subst hri
      obtain ⟨j', rfl⟩ : ∃ j', j = j' + 1 := ⟨j - 1, by omega⟩
      have hemp : ¬ r0.slots.isEmpty := by
        intro hc
        rw [List.isEmpty_iff] at hc
        rw [hc] at hsi
        simp at hsi
      simp only [laneProcess, if_neg hemp, List.getElem?_cons_zero, Option.some.injEq,
        List.getElem?_cons_succ] at hli hlj
      simp only [List.getElem?_cons_succ] at hrj
      set u := List.foldl (fun acc t => acc ||| used t) 0 r0.slots with hu
      set L := laneFor u with hL
      have hL1 : 1 ≤ L := (laneFor_spec u).1
      have hbit : ((fun s => if s ∈ r0.slots then used s ||| 1 <<< (L - 1) else used s) s).testBit
          (L - 1) = true := by
        simp only [if_pos hsi, Nat.testBit_or, one_shiftLeft_eq, Nat.testBit_two_pow]
        simp
      have havoid := laneProcess_avoid rest _ s (L - 1) hbit j' rj lj hrj hsj hlj
      have hLL : (L - 1) + 1 = L := by omega
      rw [hLL] at havoid
      rw [← hli]
      exact fun hcontra => havoid hcontra.symm
    | succ i =>
      obtain ⟨j', rfl⟩ : ∃ j', j = j' + 1 := ⟨j - 1, by omega⟩
      simp only [List.getElem?_cons_succ] at hri hrj
      by_cases hemp : r0.slots.isEmpty
      · simp only [laneProcess, if_pos hemp, List.getElem?_cons_succ] at hli hlj
        exact ih used i j' ri rj li lj s (by omega) hri hrj hsi hsj hli hlj
      · simp only [laneProcess, if_neg hemp, List.getElem?_cons_succ] at hli hlj
        exact ih _ i j' ri rj li lj s (by omega) hri hrj hsi hsj hli hlj

theorem laneRowLe_trans (a b c : LaneRow) (h1 : laneRowLe a b = true)
    (h2 : laneRowLe b c = true) : laneRowLe a c = true := by
  simp only [laneRowLe, decide_eq_true_eq] at h1 h2 ⊢
  omega

theorem laneRowLe_total (a b : LaneRow) : laneRowLe a b = true ∨ laneRowLe b a = true := by
  simp only [laneRowLe, decide_eq_true_eq]
  omega

/-! ### Claim C3 (lane assignment separates overlapping courses) -/

/-- C3: the lane assignment is computed over the included rows sorted by
descending slot-count then ascending identifier (a permutation of the input,
pairwise ordered by that key); any two courses at distinct positions that
share at least one slot receive different lane numbers; and two courses with
no time overlap may both receive lane 1 (shown on a concrete instance). -/
theorem C3_lane_assignment_conflict_free :
    (∀ rows : List LaneRow,
        List.Perm (sortLaneRows rows) rows ∧
        List.Pairwise (fun a b => laneRowLe a b = true) (sortLaneRows rows)) ∧
    (∀ (rows : List LaneRow) (i j : Nat) (ri rj : LaneRow) (li lj : Nat × Nat)
        (s : String), i ≠ j →
        (sortLaneRows rows)[i]? = some ri → (sortLaneRows rows)[j]? = some rj →
        s ∈ ri.slots → s ∈ rj.slots →
        (build_lane_assignment_sorted rows).1[i]? = some li →
        (build_lane_assignment_sorted rows).1[j]? = some lj →
        li.2 ≠ lj.2) ∧
    (build_lane_assignment_sorted [⟨1, ["一-1"]⟩, ⟨2, ["二-1"]⟩]).1 = [(1, 1), (2, 1)] := by
  refine ⟨?_, ?_, ?_⟩
  · intro rows
    exact ⟨sortBy_perm laneRowLe rows, sortBy_pairwise laneRowLe_trans laneRowLe_total rows⟩
  · intro rows i j ri rj li lj s hij hri hrj hsi hsj hli hlj
    rcases Nat.lt_or_ge i j with hlt | hge
    · exact laneProcess_lane_ne (sortLaneRows rows) (fun _ => 0) i j ri rj li lj s hlt
        hri hrj hsi hsj hli hlj
    · have hlt : j < i := by omega
      exact (laneProcess_lane_ne (sortLaneRows rows) (fun _ => 0) j i rj ri lj li s hlt
        hrj hri hsj hsi hlj hli).symm
  · decide

/-- C3 witness: two courses sharing slot `一-1` get lanes 1 and 2. -/
theorem C3_witness : ((1, 1) : Nat × Nat).2 ≠ ((2, 2) : Nat × Nat).2 :=
  C3_lane_assignment_conflict_free.2.1 [⟨1, ["一-1"]⟩, ⟨2, ["一-1"]⟩] 0 1
    ⟨1, ["一-1"]⟩ ⟨2, ["一-1"]⟩ (1, 1) (2, 2) "一-1" (by decide) (by decide) (by decide)
    (by decide) (by decide) (by decide) (by decide)

/-! ### Claim C8 (grid construction and malformed slots) -/

theorem splitDash1_some_of_dash {s : String} (h : '-' ∈ s.toList) :
    ∃ d p, splitDash1 s = some (d, p) := by
  refine ⟨String.mk (s.toList.takeWhile (· ≠ '-')),
    String.mk ((s.toList.dropWhile (· ≠ '-')).drop 1), ?_⟩
  simp only [splitDash1]
  rw [if_pos h]

theorem splitDash1_ne_none {s : String} (h : '-' ∈ s.toList) :
    splitDash1 s ≠ none := by
  obtain ⟨d, p, hsp⟩ := splitDash1_some_of_dash h
  rw [hsp]
  simp

theorem mem_set_or {l : List α} {i : Nat} {a x : α} (h : x ∈ l.set i a) :
    x ∈ l ∨ x = a := by
  induction l generalizing i with
  | nil => simp at h
  | cons y ys ih =>
    cases i with
    | zero =>
      rcases List.mem_cons.mp h with rfl | h'
      · exact Or.inr rfl
      · exact Or.inl (List.mem_cons_of_mem _ h')
    | succ i =>
      rcases List.mem_cons.mp h with rfl | h'
      · exact Or.inl (List.mem_cons_self _ _)
      · rcases ih h' with h'' | h''
        · exact Or.inl (List.mem_cons_of_mem _ h'')
        · exact Or.inr h''

theorem set2D_shape {m : List (List α)} {n L : Nat} (r c : Nat) (v : α)
    (hlen : m.length = n) (hsh : GridShape L m) :
    (set2D m r c v).length = n ∧ GridShape L (set2D m r c v) := by
  unfold set2D
  rcases hrow : m[r]? with _ | row
  · exact ⟨hlen, hsh⟩
  · have hrowm : row ∈ m := List.getElem?_mem hrow
    refine ⟨by rw [List.length_set]; exact hlen, ?_⟩
    intro row' hrow'
    rcases mem_set_or hrow' with h | h
    · exact hsh row' h
    · rw [h, List.length_set]
      exact hsh row hrowm

theorem ite_some_ne_none {c : Prop} [Decidable c] {a b : α} :
    (if c then some a else some b) ≠ none := by
  by_cases h : c <;> simp [h]

theorem cellWrite_ne_none {label : String} {cid : Nat} {lk : Bool} {lane : Nat}
    {doff : List (String × Nat)} {st : GridState} {slot : String}
    (h : '-' ∈ slot.toList) : cellWrite label cid lk lane doff st slot ≠ none := by
  unfold cellWrite
  split
  · rename_i heq
    exact absurd heq (splitDash1_ne_none h)
  · split
    · exact ite_some_ne_none
    · simp

theorem cellWrite_shape {label : String} {cid : Nat} {lk : Bool} {lane : Nat}
    {doff : List (String × Nat)} {st st' : GridState} {slot : String} {n L : Nat}
    (heq : cellWrite label cid lk lane doff st slot = some st')
    (hlen : st.matrix.length = n) (hsh : GridShape L st.matrix) :
    st'.matrix.length = n ∧ GridShape L st'.matrix := by
  unfold cellWrite at heq
  split at heq
  · exact absurd heq (by simp)
  · split at heq
    · rename_i off r hoff hper
      by_cases hcond : (st.matrix.getD r []).getD (off + (lane - 1)) "" ≠ "" ∧
          infixCheck label.toList
            ((st.matrix.getD r []).getD (off + (lane - 1)) "").toList = false
      · rw [if_pos hcond] at heq
        simp only [Option.some.injEq] at heq
        subst heq
        exact set2D_shape _ _ _ hlen hsh
      · rw [if_neg hcond] at heq
        simp only [Option.some.injEq] at heq
        subst heq
        exact set2D_shape _ _ _ hlen hsh
    · simp only [Option.some.injEq] at heq
      subst heq
      exact ⟨hlen, hsh⟩

theorem slots_foldlM_cellWrite {label : String} {cid : Nat} {lk : Bool} {lane : Nat}
    {doff : List (String × Nat)} {n L : Nat} :
    ∀ (slots : List String) (st : GridState),
      (∀ s ∈ slots, '-' ∈ s.toList) → st.matrix.length = n → GridShape L st.matrix →
      ∃ st', slots.foldlM (cellWrite label cid lk lane doff) st = some st' ∧
        st'.matrix.length = n ∧ GridShape L st'.matrix := by
  intro slots
  induction slots with
  | nil =>
    intro st _ hlen hsh
    exact ⟨st, rfl, hlen, hsh⟩
  | cons s ss ih =>
    intro st hall hlen hsh
    rcases hst1 : cellWrite label cid lk lane doff st s with _ | st1
    · exact absurd hst1 (cellWrite_ne_none (hall s (List.mem_cons_self s ss)))
    · obtain ⟨hlen1, hsh1⟩ := cellWrite_shape hst1 hlen hsh
      obtain ⟨st', hst', hlen', hsh'⟩ :=
        ih st1 (fun t ht => hall t (List.mem_cons_of_mem _ ht)) hlen1 hsh1
      exact ⟨st', by rw [List.foldlM_cons, hst1]; exact hst', hlen', hsh'⟩

theorem cellPass_some_shape {locked_ids : List Nat}
    {lane_map : List (Nat × Nat)} {doff : List (String × Nat)} {n L : Nat} :
    ∀ (rows : List MetaRow) (st : GridState),
      (∀ r ∈ rows, ∀ s ∈ r.slots, '-' ∈ s.toList) →
      st.matrix.length = n → GridShape L st.matrix →
      ∃ st', cellPass lane_map locked_ids doff rows st = some st' ∧
        st'.matrix.length = n ∧ GridShape L st'.matrix := by
  intro rows
  induction rows with
  | nil =>
    intro st _ hlen hsh
    exact ⟨st, rfl, hlen, hsh⟩
  | cons r rs ih =>
    intro st hall hlen hsh
    obtain ⟨st1, hst1, hlen1, hsh1⟩ :=
      slots_foldlM_cellWrite r.slots st (hall r (List.mem_cons_self r rs)) hlen hsh
    obtain ⟨st', hst', hlen', hsh'⟩ :=
      ih st1 (fun t ht => hall t (List.mem_cons_of_mem _ ht)) hlen1 hsh1
    exact ⟨st', by unfold cellPass; rw [List.foldlM_cons, hst1]; exact hst', hlen', hsh'⟩

theorem updateDayLanes_some {lane : Nat} {dl : List (String × Nat)} {slot : String}
    (h : '-' ∈ slot.toList) : ∃ dl', updateDayLanes lane dl slot = some dl' := by
  rcases hres : updateDayLanes lane dl slot with _ | dl'
  · exfalso
    revert hres
    unfold updateDayLanes
    split
    · rename_i heq
      exact fun _ => absurd heq (splitDash1_ne_none h)
    · split <;> simp
  · exact ⟨dl', rfl⟩

theorem slots_foldlM_dayLanes {lane : Nat} :
    ∀ (slots : List String) (dl : List (String × Nat)),
      (∀ s ∈ slots, '-' ∈ s.toList) →
      ∃ dl', slots.foldlM (updateDayLanes lane) dl = some dl' := by
  intro slots
  induction slots with
  | nil => intro dl _; exact ⟨dl, rfl⟩
  | cons s ss ih =>
    intro dl hall
    obtain ⟨dl1, hdl1⟩ := @updateDayLanes_some lane dl s
      (hall s (List.mem_cons_self s ss))
    obtain ⟨dl', hdl'⟩ := ih dl1 (fun t ht => hall t (List.mem_cons_of_mem _ ht))
    exact ⟨dl', by rw [List.foldlM_cons, hdl1]; exact hdl'⟩

theorem dayLanesPass_some {lane_map : List (Nat × Nat)} :
    ∀ (rows : List MetaRow) (dl : List (String × Nat)),
      (∀ r ∈ rows, ∀ s ∈ r.slots, '-' ∈ s.toList) →
      ∃ dl', dayLanesPass lane_map rows dl = some dl' := by
  intro rows
  induction rows with
  | nil => intro dl _; exact ⟨dl, rfl⟩
  | cons r rs ih =>
    intro dl hall
    obtain ⟨dl1, hdl1⟩ :=
      slots_foldlM_dayLanes r.slots dl (hall r (List.mem_cons_self r rs))
    obtain ⟨dl', hdl'⟩ := ih dl1 (fun t ht => hall t (List.mem_cons_of_mem _ ht))
    exact ⟨dl', by unfold dayLanesPass; rw [List.foldlM_cons, hdl1]; exact hdl'⟩

theorem offsetsFold_colIdx_length (day_lanes : List (String × Nat)) :
    ∀ (l : List (Nat × String)) (acc : List (String × Nat) × List Nat × Nat),
      acc.2.1.length = acc.2.2 →
      (l.foldl (fun (acc : List (String × Nat) × List Nat × Nat) p =>
          let lanes := (day_lanes.lookup p.2).getD 1
          (acc.1 ++ [(p.2, acc.2.2)], acc.2.1 ++ List.replicate lanes p.1,
            acc.2.2 + lanes)) acc).2.1.length =
      (l.foldl (fun (acc : List (String × Nat) × List Nat × Nat) p =>
          let lanes := (day_lanes.lookup p.2).getD 1
          (acc.1 ++ [(p.2, acc.2.2)], acc.2.1 ++ List.replicate lanes p.1,
            acc.2.2 + lanes)) acc).2.2 := by
  intro l
  induction l with
  | nil => intro acc h; exact h
  | cons p ps ih =>
    intro acc h
    refine ih _ ?_
    simp [List.length_append, List.length_replicate, h]

/-- C8 (amended): when every slot identifier contains the `-` separator, the
grid construction completes — slots with a missing or unknown day or period
are skipped per-slot — and returns the complete grid: one row per period,
every row as wide as the column list; a slot identifier with no separator at
all, however, aborts the whole render (shown separately on a concrete input).
A concrete run with an unknown period returns the full empty grid. -/
theorem C8_grid_skips_malformed_slots :
    (∀ (rows : List MetaRow) (locked_ids : List Nat) (show_days : List String),
      (∀ r ∈ rows, ∀ s ∈ r.slots, '-' ∈ s.toList) →
      ∃ res, build_timetable_matrix_per_day_lanes_sorted rows locked_ids show_days
          = some res ∧
        res.matrix.length = PERIODS.length ∧
        ∀ row ∈ res.matrix, row.length = res.col_day_idx.length) ∧
    (build_timetable_matrix_per_day_lanes_sorted [⟨1, "課", ["一-Z"], "L"⟩] [] DAYS
      = some ⟨List.replicate 15 (List.replicate 7 ""), [],
          DAYS.map (fun d => (d, 1)), [0, 1, 2, 3, 4, 5, 6],
          List.replicate 15 (List.replicate 7 none),
          List.replicate 15 (List.replicate 7 false)⟩) := by
  constructor
  · intro rows locked_ids show_days hall
    obtain ⟨day_lanes, hdl⟩ := @dayLanesPass_some
      (build_lane_assignment_sorted
        (rows.map (fun r => LaneRow.mk r.cid r.slots))).1
      rows (show_days.map (fun d => (d, 1))) hall
    have hcols : (offsetsFold day_lanes show_days).2.1.length =
        (offsetsFold day_lanes show_days).2.2 :=
      offsetsFold_colIdx_length day_lanes show_days.enum ([], [], 0) rfl
    obtain ⟨st', hst', hlen', hsh'⟩ := @cellPass_some_shape
      locked_ids
      (build_lane_assignment_sorted
        (rows.map (fun r => LaneRow.mk r.cid r.slots))).1
      (offsetsFold day_lanes show_days).1 PERIODS.length
      ((offsetsFold day_lanes show_days).2.2) rows
      { matrix := List.replicate PERIODS.length
          (List.replicate (offsetsFold day_lanes show_days).2.2 ""),
        id_matrix := List.replicate PERIODS.length
          (List.replicate (offsetsFold day_lanes show_days).2.2 none),
        locked_matrix := List.replicate PERIODS.length
          (List.replicate (offsetsFold day_lanes show_days).2.2 false),
        conflicts := [] }
      hall (by simp) (by
        intro row hrow
        simp only [List.eq_of_mem_replicate hrow, List.length_replicate])
    refine ⟨⟨st'.matrix, dedupAux st'.conflicts [], day_lanes,
      (offsetsFold day_lanes show_days).2.1, st'.id_matrix, st'.locked_matrix⟩,
      ?_, hlen', ?_⟩
    · simp only [build_timetable_matrix_per_day_lanes_sorted]
      rw [hdl, Option.some_bind]
      rw [hst', Option.some_bind]
    · intro row hrow
      rw [hcols]
      exact hsh' row hrow
  · decide

/-- C8 counterexample: a slot identifier with no `day-period` separator at all
(unparseable) makes the grid construction abort the whole render instead of
skipping the slot. -/
theorem C8_counterexample_separatorless_slot_aborts :
    build_timetable_matrix_per_day_lanes_sorted [⟨1, "課", ["一1"], "L"⟩] [] DAYS
      = none := by decide

/-- C8 witness: the amended theorem applied at a concrete input. -/
theorem C8_witness :
    ∃ res, build_timetable_matrix_per_day_lanes_sorted [⟨1, "課", ["一-3"], "L"⟩] [] DAYS
        = some res ∧
      res.matrix.length = PERIODS.length ∧
      ∀ row ∈ res.matrix, row.length = res.col_day_idx.length :=
  C8_grid_skips_malformed_slots.1 [⟨1, "課", ["一-3"], "L"⟩] [] DAYS (by decide)

/-! ### The order map (claim C10 and shared rank facts) -/

theorem assoc_lookup_at {β : Type} :
    ∀ {l : List (Nat × β)}, (l.map Prod.fst).Nodup →
      ∀ {i : Nat} {p : Nat × β}, l[i]? = some p → l.lookup p.1 = some p.2 := by
  intro l
  induction l with
  | nil =>
    intro _ i p h
    simp at h
  | cons q t ih =>
    intro hnd i p h
    rw [List.map_cons, List.nodup_cons] at hnd
    rcases hnd with ⟨hq, ht⟩
    cases i with
    | zero =>
      simp only [List.getElem?_cons_zero, Option.some.injEq] at h
      subst h
      simp [List.lookup]
    | succ i =>
      simp only [List.getElem?_cons_succ] at h
      have hpmem : p ∈ t := List.getElem?_mem h
      have hkey : p.1 ∈ t.map Prod.fst := List.mem_map.mpr ⟨p, hpmem, rfl⟩
      have hne : (p.1 == q.1) = false := by
        rw [beq_eq_false_iff_ne]
        intro hc
        exact hq (hc ▸ hkey)
      simp only [List.lookup, hne]
      exact ih ht h

theorem build_order_map_eq (inp : OptInput) :
    build_order_map inp = (omItems inp).enum.map (fun p => (p.2.2.2, p.1 + 1)) := rfl

theorem omItems_mem {inp : OptInput} {e : Int × Int × Nat} (he : e ∈ omItems inp) :
    e = orderTriple inp e.2.2 ∧ e.2.2 ∈ inp.favorites := by
  have := sortBy_mem.mp he
  obtain ⟨cid, hcid, rfl⟩ := List.mem_map.mp this
  exact ⟨rfl, hcid⟩

theorem map_third_orderTriple (inp : OptInput) :
    ∀ l : List Nat, (l.map (orderTriple inp)).map (fun t : Int × Int × Nat => t.2.2) = l := by
  intro l
  induction l with
  | nil => rfl
  | cons x xs ih => simp only [List.map_cons, ih, orderTriple]

theorem omItems_keys_perm (inp : OptInput) :
    List.Perm ((omItems inp).map (fun t => t.2.2)) inp.favorites := by
  have h1 := (sortBy_perm orderTripleLe (inp.favorites.map (orderTriple inp))).map
    (fun t : Int × Int × Nat => t.2.2)
  rw [map_third_orderTriple inp inp.favorites] at h1
  exact h1

theorem omItems_length (inp : OptInput) :
    (omItems inp).length = inp.favorites.length := by
  rw [omItems, sortBy_length, List.length_map]

theorem bom_getElem (inp : OptInput) (i : Nat) :
    (build_order_map inp)[i]? = ((omItems inp)[i]?).map (fun t => (t.2.2, i + 1)) := by
  rw [build_order_map_eq, List.getElem?_map, List.getElem?_enum, Option.map_map]
  rfl

theorem bom_keys (inp : OptInput) :
    (build_order_map inp).map Prod.fst = (omItems inp).map (fun t => t.2.2) := by
  rw [build_order_map_eq, List.map_map]
  have : (Prod.fst ∘ fun p : Nat × (Int × Int × Nat) => (p.2.2.2, p.1 + 1)) =
      ((fun t : Int × Int × Nat => t.2.2) ∘ Prod.snd) := rfl
  rw [this, ← List.map_map, List.enum_map_snd]

theorem bom_keys_nodup {inp : OptInput} (hnd : inp.favorites.Nodup) :
    ((build_order_map inp).map Prod.fst).Nodup := by
  rw [bom_keys]
  exact (omItems_keys_perm inp).nodup_iff.mpr hnd

theorem omFun_at {inp : OptInput} (hnd : inp.favorites.Nodup) {i : Nat}
    {t : Int × Int × Nat} (h : (omItems inp)[i]? = some t) :
    omFun inp t.2.2 = i + 1 := by
  have hbom : (build_order_map inp)[i]? = some (t.2.2, i + 1) := by
    rw [bom_getElem, h]
    rfl
  have := assoc_lookup_at (bom_keys_nodup hnd) hbom
  rw [omFun, this]
  rfl

theorem omFun_mem_spec {inp : OptInput} (hnd : inp.favorites.Nodup) {a : Nat}
    (ha : a ∈ inp.favorites) :
    ∃ i, i < inp.favorites.length ∧ (omItems inp)[i]? = some (orderTriple inp a) ∧
      omFun inp a = i + 1 := by
  have hmem : orderTriple inp a ∈ omItems inp := by
    rw [omItems, sortBy_mem]
    exact List.mem_map.mpr ⟨a, ha, rfl⟩
  obtain ⟨i, hi⟩ := List.mem_iff_getElem?.mp hmem
  have hlen : i < inp.favorites.length := by
    rw [← omItems_length inp]
    exact (List.getElem?_eq_some_iff.mp hi).1
  have := omFun_at hnd hi
  exact ⟨i, hlen, hi, by simpa [orderTriple] using this⟩

theorem omFun_range {inp : OptInput} (hnd : inp.favorites.Nodup) {a : Nat}
    (ha : a ∈ inp.favorites) :
    1 ≤ omFun inp a ∧ omFun inp a ≤ inp.favorites.length := by
  obtain ⟨i, hlen, _, hval⟩ := omFun_mem_spec hnd ha
  omega

theorem omFun_inj {inp : OptInput} (hnd : inp.favorites.Nodup) {a b : Nat}
    (ha : a ∈ inp.favorites) (hb : b ∈ inp.favorites)
    (h : omFun inp a = omFun inp b) : a = b := by
  obtain ⟨i, _, hi, hvi⟩ := omFun_mem_spec hnd ha
  obtain ⟨j, _, hj, hvj⟩ := omFun_mem_spec hnd hb
  have hij : i = j := by omega
  subst hij
  rw [hi] at hj
  have : orderTriple inp a = orderTriple inp b := by
    exact Option.some.inj hj
  have := congrArg (fun t : Int × Int × Nat => t.2.2) this
  simpa [orderTriple] using this

theorem omFun_surj {inp : OptInput} (hnd : inp.favorites.Nodup) {k : Nat}
    (h1 : 1 ≤ k) (h2 : k ≤ inp.favorites.length) :
    ∃ a ∈ inp.favorites, omFun inp a = k := by
  have hlt : k - 1 < (omItems inp).length := by
    rw [omItems_length]
    omega
  obtain ⟨t, ht⟩ : ∃ t, (omItems inp)[k - 1]? = some t := by
    rcases hx : (omItems inp)[k - 1]? with _ | t
    · rw [List.getElem?_eq_none_iff] at hx
      omega
    · exact ⟨t, rfl⟩
  have hmem := omItems_mem (List.getElem?_mem ht)
  refine ⟨t.2.2, hmem.2, ?_⟩
  have := omFun_at hnd ht
  omega

theorem orderTripleLe_trans (a b c : Int × Int × Nat)
    (h1 : orderTripleLe a b = true) (h2 : orderTripleLe b c = true) :
    orderTripleLe a c = true := by
  simp only [orderTripleLe, decide_eq_true_eq] at h1 h2 ⊢
  omega

theorem orderTripleLe_total (a b : Int × Int × Nat) :
    orderTripleLe a b = true ∨ orderTripleLe b a = true := by
  simp only [orderTripleLe, decide_eq_true_eq]
  omega

theorem omFun_locked_lt {inp : OptInput} (hnd : inp.favorites.Nodup) {a b : Nat}
    (ha : a ∈ inp.favorites) (hb : b ∈ inp.favorites)
    (hal : a ∈ inp.locked_ids) (hbl : b ∉ inp.locked_ids) :
    omFun inp a < omFun inp b := by
  obtain ⟨i, _, hi, hvi⟩ := omFun_mem_spec hnd ha
  obtain ⟨j, _, hj, hvj⟩ := omFun_mem_spec hnd hb
  have hab : a ≠ b := fun hc => hbl (hc ▸ hal)
  have hij : i ≠ j := by
    intro hc
    subst hc
    rw [hi] at hj
    have := congrArg (fun t : Int × Int × Nat => t.2.2) (Option.some.inj hj)
    exact hab (by simpa [orderTriple] using this)
  rcases Nat.lt_or_ge i j with hlt | hge
  · omega
  · exfalso
    have hji : j < i := by omega
    have hpw := sortBy_pairwise orderTripleLe_trans orderTripleLe_total
      (inp.favorites.map (orderTriple inp))
    rw [show sortBy orderTripleLe (inp.favorites.map (orderTriple inp)) = omItems inp
      from rfl] at hpw
    rw [List.pairwise_iff_getElem] at hpw
    obtain ⟨hilen, hieq⟩ := List.getElem?_eq_some_iff.mp hi
    obtain ⟨hjlen, hjeq⟩ := List.getElem?_eq_some_iff.mp hj
    have hle := hpw j i hjlen hilen hji
    rw [hjeq, hieq] at hle
    simp only [orderTripleLe, orderTriple, if_pos hal, if_neg hbl, decide_eq_true_eq] at hle
    omega

/-- C10: with the favourites duplicate-free (they form a Python set), the
priority map assigns every favourite a rank in `1..N`, distinct favourites get
distinct ranks, every rank in `1..N` is used (dense), and every locked
favourite ranks strictly before every non-locked favourite, regardless of the
`fav_seq` drag-order values. -/
theorem C10_order_map_dense_locked_first :
    ∀ inp : OptInput, inp.favorites.Nodup →
      (∀ a ∈ inp.favorites, 1 ≤ omFun inp a ∧ omFun inp a ≤ inp.favorites.length) ∧
      (∀ a ∈ inp.favorites, ∀ b ∈ inp.favorites, omFun inp a = omFun inp b → a = b) ∧
      (∀ k, 1 ≤ k → k ≤ inp.favorites.length → ∃ a ∈ inp.favorites, omFun inp a = k) ∧
      (∀ a ∈ inp.favorites, ∀ b ∈ inp.favorites,
        a ∈ inp.locked_ids → b ∉ inp.locked_ids → omFun inp a < omFun inp b) := by
  intro inp hnd
  exact ⟨fun a ha => omFun_range hnd ha,
    fun a ha b hb h => omFun_inj hnd ha hb h,
    fun k h1 h2 => omFun_surj hnd h1 h2,
    fun a ha b hb hal hbl => omFun_locked_lt hnd ha hb hal hbl⟩

/-- C10 witness: the theorem applied at a concrete input. -/
theorem C10_witness :
    1 ≤ omFun ⟨[2, 7], [7], [], [(2, 1), (7, 5)], []⟩ 2 ∧
      omFun ⟨[2, 7], [7], [], [(2, 1), (7, 5)], []⟩ 2 ≤ 2 :=
  have h := C10_order_map_dense_locked_first ⟨[2, 7], [7], [], [(2, 1), (7, 5)], []⟩
    (by decide)
  ⟨(h.1 2 (by decide)).1, (h.1 2 (by decide)).2⟩

/-! ### Claim C7 (no optional candidates) -/

/-- With no optional candidates and a nonempty locked base, the search reduces
to the single pair of empty half-entries and returns exactly the locked-base
entry. -/
theorem compute_locked_only (inp : OptInput) (st0 : St)
    (hcand : (build_candidates inp).cand = [])
    (hlocked : (build_candidates inp).locked_ids ≠ []) :
    (compute_best_combinations inp neverCancel st0).1 =
      [mkEntry inp (build_candidates inp) ⟨0, 0, 0, [], 0⟩ ⟨0, 0, 0, [], 0⟩] := by
  have hnand : ¬((build_candidates inp).cand = [] ∧
      (build_candidates inp).locked_ids = []) := fun h => hlocked h.2
  simp only [compute_best_combinations, if_neg hnand, compute_items, hcand,
    List.filterMap_nil, List.length_nil, List.take_nil, List.drop_nil,
    enumerate_half, enumHalfLoop, pollCancel, neverCancel, Bool.false_eq_true,
    if_false, List.map_cons, List.map_nil, sortBy, List.foldl_cons, List.foldl_nil,
    insertOrd, crossOuter, crossInner, consider_combo, List.nil_append,
    List.take, worstCredit, EPS, headCredit]
  simp [mkEntry]
  rw [if_neg hlocked]

/-- C7: given no optional candidates the optimizer does not fail: with a
locked base it returns exactly one result — the locked base alone (its sorted
ids, summed credit and gened count) — and with no locked base either it
returns the empty result list. -/
theorem C7_empty_candidate_pool :
    ∀ (inp : OptInput) (st0 : St), (build_candidates inp).cand = [] →
      ((build_candidates inp).locked_ids ≠ [] →
        ∃ e, (compute_best_combinations inp neverCancel st0).1 = [e] ∧
          e.ids = sortBy natLe (build_candidates inp).locked_ids ∧
          e.credits = (build_candidates inp).base_credit ∧
          e.gened = (build_candidates inp).base_gened) ∧
      ((build_candidates inp).locked_ids = [] →
        (compute_best_combinations inp neverCancel st0).1 = []) := by
  intro inp st0 hcand
  constructor
  · intro hlocked
    refine ⟨mkEntry inp (build_candidates inp) ⟨0, 0, 0, [], 0⟩ ⟨0, 0, 0, [], 0⟩,
      compute_locked_only inp st0 hcand hlocked, ?_, ?_, ?_⟩
    · simp [mkEntry]
    · simp [mkEntry]
    · simp [mkEntry]
  · intro hlocked
    simp only [compute_best_combinations, if_pos (And.intro hcand hlocked)]

/-- C7 witness: the theorem applied at a concrete one-locked-course input. -/
theorem C7_witness :
    ∃ e, (compute_best_combinations ⟨[5], [5], [5], [], [⟨5, 2, "系", 3, 0⟩]⟩
        neverCancel ⟨0, -1, []⟩).1 = [e] ∧
      e.ids = sortBy natLe
        (build_candidates ⟨[5], [5], [5], [], [⟨5, 2, "系", 3, 0⟩]⟩).locked_ids ∧
      e.credits = (build_candidates ⟨[5], [5], [5], [], [⟨5, 2, "系", 3, 0⟩]⟩).base_credit ∧
      e.gened = (build_candidates ⟨[5], [5], [5], [], [⟨5, 2, "系", 3, 0⟩]⟩).base_gened :=
  (C7_empty_candidate_pool ⟨[5], [5], [5], [], [⟨5, 2, "系", 3, 0⟩]⟩ ⟨0, -1, []⟩
    (by decide)).1 (by decide)

/-! ### C5 — progress reporting, and C4 — cancellation -/

theorem emit_progress_eq_of (st : St) (v : Int) (h : max 0 (min 100 v) = st.lastProg) :
    emit_progress st v = st := by
  simp only [emit_progress]
  rw [if_pos h]

theorem emit_progress_ne_of (st : St) (v : Int) (h : ¬max 0 (min 100 v) = st.lastProg) :
    emit_progress st v = { st with
      lastProg := max 0 (min 100 v)
      emitted := st.emitted ++ [max 0 (min 100 v)] } := by
  simp only [emit_progress]
  rw [if_neg h]

theorem emit_progress_polls (st : St) (v : Int) : (emit_progress st v).polls = st.polls := by
  by_cases h : max 0 (min 100 v) = st.lastProg
  · rw [emit_progress_eq_of st v h]
  · rw [emit_progress_ne_of st v h]

theorem StWF_lastProg_le (st : St) (h : StWF st) : st.lastProg ≤ 100 := by
  rcases h.2.2 with ⟨h1, _⟩ | h1
  · rw [h1]; decide
  · exact (h.1 _ (List.mem_of_mem_getLast? h1)).2

theorem emit_wf (st : St) (v : Int) (h : StWF st)
    (hle : st.lastProg ≤ max 0 (min 100 v)) :
    StWF (emit_progress st v) ∧ (emit_progress st v).lastProg = max 0 (min 100 v) := by
  by_cases heq : max 0 (min 100 v) = st.lastProg
  · rw [emit_progress_eq_of st v heq]
    exact ⟨h, heq.symm⟩
  · rw [emit_progress_ne_of st v heq]
    refine ⟨⟨?_, ?_, ?_⟩, rfl⟩
    · intro x hx
      rcases List.mem_append.1 hx with hx | hx
      · exact h.1 x hx
      · have hx' : x = max 0 (min 100 v) := by simpa using hx
        subst hx'
        exact ⟨le_max_left 0 _, max_le (by norm_num) (min_le_left _ _)⟩
    · rw [List.chain'_append]
      refine ⟨h.2.1, List.chain'_singleton _, ?_⟩
      intro x hx y hy
      have hy' : max 0 (min 100 v) = y := by simpa using hy
      subst hy'
      rcases h.2.2 with ⟨_, hemp⟩ | hlast
      · rw [hemp] at hx; simp at hx
      · rw [hlast] at hx
        have hx' : st.lastProg = x := by simpa using hx
        subst hx'
        exact lt_of_le_of_ne hle (fun hc => heq hc.symm)
    · right
      simp [List.getLast?_concat]

/-- The item loop of `enumerate_half` preserves well-formedness; on exit the
deduplication mark is at most `pstart + pspan`. -/
theorem enumHalfLoop_wf (inp : OptInput) (sched : Nat → Bool) (pstart pspan total : Nat) :
    ∀ (items : List Item) (idx : Nat) (results : List (Nat × HalfEntry)) (st : St),
      StWF st → 1 ≤ idx → idx + items.length = total + 1 →
      st.lastProg ≤ ((pstart + pspan : Nat) : Int) →
      st.lastProg ≤ ((pstart + pspan * idx / total : Nat) : Int) →
      StWF (enumHalfLoop inp sched pstart pspan total items idx results st).2 ∧
      (enumHalfLoop inp sched pstart pspan total items idx results st).2.lastProg ≤
        ((pstart + pspan : Nat) : Int) := by
  intro items
  induction items with
  | nil =>
    intro idx results st hwf _ _ hspan _
    exact ⟨hwf, hspan⟩
  | cons it rest ih =>
    intro idx results st hwf hidx1 hlen hspan hB
    have hlen' : idx + (rest.length + 1) = total + 1 := by simpa using hlen
    have htot : 0 < total := by omega
    have hidxtot : idx ≤ total := by omega
    simp only [enumHalfLoop]
    by_cases h1 : (pollCancel sched st).1 = true
    · rw [if_pos h1]
      exact ⟨hwf, hspan⟩
    · rw [if_neg h1, if_pos htot]
      have hv0 : (0 : Int) ≤ ((pstart + pspan * idx / total : Nat) : Int) :=
        Int.natCast_nonneg _
      have hclamp : max 0 (min 100 ((pstart + pspan * idx / total : Nat) : Int)) ≤
          ((pstart + pspan * idx / total : Nat) : Int) :=
        max_le hv0 (min_le_right _ _)
      have hle : st.lastProg ≤ max 0 (min 100 ((pstart + pspan * idx / total : Nat) : Int)) :=
        le_trans (le_min (StWF_lastProg_le st hwf) hB) (le_max_right _ _)
      obtain ⟨hwf2, hlast2⟩ :=
        emit_wf ((pollCancel sched st).2) ((pstart + pspan * idx / total : Nat) : Int) hwf hle
      have hvle : (pstart + pspan * idx / total : Nat) ≤ (pstart + pspan : Nat) := by
        have h7 : pspan * idx ≤ pspan * total := Nat.mul_le_mul (le_refl pspan) hidxtot
        have h6 : pspan * idx / total ≤ pspan := by
          calc pspan * idx / total ≤ pspan * total / total := Nat.div_le_div_right h7
            _ = pspan := Nat.mul_div_cancel pspan htot
        exact Nat.add_le_add_left h6 pstart
      have hmono : (pstart + pspan * idx / total : Nat) ≤
          (pstart + pspan * (idx + 1) / total : Nat) := by
        have h5 : pspan * idx / total ≤ pspan * (idx + 1) / total :=
          Nat.div_le_div_right (Nat.mul_le_mul (le_refl pspan) (Nat.le_succ idx))
        exact Nat.add_le_add_left h5 pstart
      refine ih (idx + 1) (extendSnap inp it results results) _ hwf2 (by omega) (by omega) ?_ ?_
      · rw [hlast2]
        exact le_trans hclamp (by exact_mod_cast hvle)
      · rw [hlast2]
        exact le_trans hclamp (by exact_mod_cast hmono)

theorem enumerate_half_wf (inp : OptInput) (sched : Nat → Bool) (pstart pspan : Nat)
    (items_half : List Item) (st : St) (hwf : StWF st)
    (hle : st.lastProg ≤ ((pstart : Nat) : Int)) :
    StWF (enumerate_half inp sched pstart pspan items_half st).2 ∧
    (enumerate_half inp sched pstart pspan items_half st).2.lastProg ≤
      ((pstart + pspan : Nat) : Int) := by
  unfold enumerate_half
  refine enumHalfLoop_wf inp sched pstart pspan items_half.length items_half 1 _ st hwf
    (le_refl 1) (by omega) ?_ ?_
  · exact le_trans hle (by exact_mod_cast Nat.le_add_right pstart pspan)
  · exact le_trans hle (by exact_mod_cast Nat.le_add_right pstart _)

/-- The inner cross loop preserves well-formedness; the pair counter never
decreases and the deduplication mark stays below the running percentage. -/
theorem crossInner_wf (inp : OptInput) (cb : CandBuild) (sched : Nat → Bool)
    (left : HalfEntry) (step total_pairs : Nat) :
    ∀ (rights : List HalfEntry) (best : List ResultEntry) (done : Nat) (st : St),
      StWF st →
      st.lastProg ≤ min 100 ((80 + 20 * done / total_pairs : Nat) : Int) →
      StWF (crossInner inp cb sched left step total_pairs rights best done st).2.2.2 ∧
      done ≤ (crossInner inp cb sched left step total_pairs rights best done st).2.2.1 ∧
      (crossInner inp cb sched left step total_pairs rights best done st).2.2.2.lastProg ≤
        min 100 ((80 + 20 *
          (crossInner inp cb sched left step total_pairs rights best done st).2.2.1 /
            total_pairs : Nat) : Int) := by
  intro rights
  induction rights with
  | nil =>
    intro best done st hwf hlp
    exact ⟨hwf, le_refl done, hlp⟩
  | cons right rest ih =>
    intro best done st hwf hlp
    have hstepmono : st.lastProg ≤ min 100 ((80 + 20 * (done + 1) / total_pairs : Nat) : Int) := by
      refine le_trans hlp (min_le_min (le_refl _) ?_)
      have h5 : 20 * done / total_pairs ≤ 20 * (done + 1) / total_pairs :=
        Nat.div_le_div_right (by omega)
      exact_mod_cast Nat.add_le_add_left h5 80
    simp only [crossInner]
    by_cases h1 : (pollCancel sched st).1 = true
    · rw [if_pos h1]
      exact ⟨hwf, le_refl done, hlp⟩
    · rw [if_neg h1]
      by_cases h2 : best.length = 5 ∧
          cb.base_credit + left.credit + right.credit + EPS < worstCredit best
      · rw [if_pos h2]
        exact ⟨hwf, le_refl done, hlp⟩
      · rw [if_neg h2]
        by_cases h3 : left.mask &&& right.mask ≠ 0
        · rw [if_pos h3]
          exact ih best done _ hwf hlp
        · rw [if_neg h3]
          by_cases h4 : (done + 1) % step = 0 ∧ 0 < total_pairs
          · rw [if_pos h4]
            have hB : (pollCancel sched st).2.lastProg ≤
                max 0 (min 100 ((80 + 20 * (done + 1) / total_pairs : Nat) : Int)) :=
              le_trans hstepmono (le_max_right _ _)
            obtain ⟨hwf2, hlast2⟩ :=
              emit_wf ((pollCancel sched st).2)
                ((80 + 20 * (done + 1) / total_pairs : Nat) : Int) hwf hB
            have hlp2 : (emit_progress ((pollCancel sched st).2)
                ((80 + 20 * (done + 1) / total_pairs : Nat) : Int)).lastProg ≤
                min 100 ((80 + 20 * (done + 1) / total_pairs : Nat) : Int) := by
              rw [hlast2]
              exact max_le (le_min (by norm_num) (Int.natCast_nonneg _)) (le_refl _)
            obtain ⟨ha, hb, hc⟩ :=
              ih (consider_combo inp cb best left right) (done + 1) _ hwf2 hlp2
            exact ⟨ha, le_trans (Nat.le_succ done) hb, hc⟩
          · rw [if_neg h4]
            obtain ⟨ha, hb, hc⟩ :=
              ih (consider_combo inp cb best left right) (done + 1)
                ((pollCancel sched st).2) hwf hstepmono
            exact ⟨ha, le_trans (Nat.le_succ done) hb, hc⟩

/-- The outer cross loop preserves well-formedness. -/
theorem crossOuter_wf (inp : OptInput) (cb : CandBuild) (sched : Nat → Bool)
    (step total_pairs : Nat) (right_list : List HalfEntry) (mrc : ℚ) :
    ∀ (lefts : List HalfEntry) (best : List ResultEntry) (done : Nat) (st : St),
      StWF st →
      st.lastProg ≤ min 100 ((80 + 20 * done / total_pairs : Nat) : Int) →
      StWF (crossOuter inp cb sched step total_pairs right_list mrc
        lefts best done st).2.2.2 ∧
      (crossOuter inp cb sched step total_pairs right_list mrc
        lefts best done st).2.2.2.lastProg ≤
        min 100 ((80 + 20 *
          (crossOuter inp cb sched step total_pairs right_list mrc
            lefts best done st).2.2.1 / total_pairs : Nat) : Int) := by
  intro lefts
  induction lefts with
  | nil =>
    intro best done st hwf hlp
    exact ⟨hwf, hlp⟩
  | cons left rest ih =>
    intro best done st hwf hlp
    simp only [crossOuter]
    by_cases h1 : (pollCancel sched st).1 = true
    · rw [if_pos h1]
      exact ⟨hwf, hlp⟩
    · rw [if_neg h1]
      by_cases h2 : best.length = 5 ∧
          cb.base_credit + left.credit + mrc + EPS < worstCredit best
      · rw [if_pos h2]
        exact ih best done _ hwf hlp
      · rw [if_neg h2]
        obtain ⟨hwfr, _, hlpr⟩ :=
          crossInner_wf inp cb sched left step total_pairs right_list best done
            ((pollCancel sched st).2) hwf hlp
        by_cases h3 : (crossInner inp cb sched left step total_pairs right_list best done
            ((pollCancel sched st).2)).1 = true
        · rw [if_pos h3]
          exact ⟨hwfr, hlpr⟩
        · rw [if_neg h3]
          exact ih _ _ _ hwfr hlpr

/-- `_compute_best_combinations` preserves progress-state well-formedness when
entered with the mark at most `0`. -/
theorem compute_wf (inp : OptInput) (sched : Nat → Bool) (st0 : St)
    (hwf : StWF st0) (hle : st0.lastProg ≤ 0) :
    StWF (compute_best_combinations inp sched st0).2 := by
  have hle0 : st0.lastProg ≤ ((0 : Nat) : Int) := by exact_mod_cast hle
  obtain ⟨hwf1, hle1⟩ := enumerate_half_wf inp sched 0 40
    ((compute_items inp (build_candidates inp)).take
      ((compute_items inp (build_candidates inp)).length / 2)) st0 hwf hle0
  obtain ⟨hwf2, hle2⟩ := enumerate_half_wf inp sched 40 40
    ((compute_items inp (build_candidates inp)).drop
      ((compute_items inp (build_candidates inp)).length / 2))
    ((pollCancel sched (enumerate_half inp sched 0 40
      ((compute_items inp (build_candidates inp)).take
        ((compute_items inp (build_candidates inp)).length / 2)) st0).2).2)
    hwf1 (le_trans hle1 (by norm_num))
  have hlp0 : ∀ tp : Nat,
      ((pollCancel sched (enumerate_half inp sched 40 40
        ((compute_items inp (build_candidates inp)).drop
          ((compute_items inp (build_candidates inp)).length / 2))
        ((pollCancel sched (enumerate_half inp sched 0 40
          ((compute_items inp (build_candidates inp)).take
            ((compute_items inp (build_candidates inp)).length / 2)) st0).2).2)).2).2).lastProg ≤
        min 100 ((80 + 20 * 0 / tp : Nat) : Int) := by
    intro tp
    refine le_min (StWF_lastProg_le _ hwf2) ?_
    have h9 : ((80 + 20 * 0 / tp : Nat) : Int) = 80 := by norm_num
    rw [h9]
    exact le_trans hle2 (by norm_num)
  have hwf2' : StWF ((pollCancel sched (enumerate_half inp sched 40 40
      ((compute_items inp (build_candidates inp)).drop
        ((compute_items inp (build_candidates inp)).length / 2))
      ((pollCancel sched (enumerate_half inp sched 0 40
        ((compute_items inp (build_candidates inp)).take
          ((compute_items inp (build_candidates inp)).length / 2)) st0).2).2)).2).2) := hwf2
  simp only [compute_best_combinations]
  split
  · exact hwf
  · split
    · exact hwf1
    · split
      · exact hwf2
      · split <;> split <;>
          exact (crossOuter_wf inp (build_candidates inp) sched _ _ _ _ _ _ _ _
            hwf2' (hlp0 _)).1

theorem writeLoop_wf (sched : Nat → Bool) :
    ∀ (rs : List ResultEntry) (used files : List String) (st : St),
      StWF st → StWF (writeLoop sched rs used files st).2 := by
  intro rs
  induction rs with
  | nil => intro used files st h; exact h
  | cons e rest ih =>
    intro used files st h
    simp only [writeLoop]
    by_cases h1 : (pollCancel sched st).1 = true
    · rw [if_pos h1]; exact h
    · rw [if_neg h1]; exact ih _ _ _ h

theorem write_results_wf (sched : Nat → Bool) (results : List ResultEntry) (st : St)
    (h : StWF st) : StWF (write_results sched results st).2 := by
  simp only [write_results]
  by_cases hr : results = []
  · rw [if_pos hr]; exact h
  · rw [if_neg hr]; exact writeLoop_wf sched results [] [] st h

/-- **C5.** For every optimizer run — any input and any behaviour of the
cancellation flag — the sequence of progress values emitted is a sequence of
integers each in `[0, 100]` that is strictly increasing along the run, hence
monotonically non-decreasing with no two identical consecutive emitted
values. -/
theorem C5_progress_in_range_monotone_deduplicated (inp : OptInput) (sched : Nat → Bool) :
    (∀ v ∈ (runWorker inp sched).2.emitted, 0 ≤ v ∧ v ≤ 100) ∧
    List.Chain' (· < ·) (runWorker inp sched).2.emitted := by
  have hwf0 : StWF ({ polls := 0, lastProg := -1, emitted := [] } : St) :=
    ⟨by simp, by simp, Or.inl ⟨rfl, rfl⟩⟩
  have hle0 : ({ polls := 0, lastProg := -1, emitted := [] } : St).lastProg ≤
      max 0 (min 100 (0 : Int)) := by decide
  obtain ⟨hwf1, hlast1⟩ := emit_wf ⟨0, -1, []⟩ 0 hwf0 hle0
  have hle1 : (emit_progress ⟨0, -1, []⟩ 0).lastProg ≤ 0 := by
    rw [hlast1]; decide
  have hwfc := compute_wf inp sched (emit_progress ⟨0, -1, []⟩ 0) hwf1 hle1
  have hwfw := write_results_wf sched
    (compute_best_combinations inp sched (emit_progress ⟨0, -1, []⟩ 0)).1
    ((pollCancel sched
      (compute_best_combinations inp sched (emit_progress ⟨0, -1, []⟩ 0)).2).2)
    hwfc
  have hfin : ∀ st : St, StWF st → StWF (emit_progress st 100) := by
    intro st h
    have h100 := StWF_lastProg_le st h
    have hmx : max (0 : Int) (min 100 100) = 100 := by decide
    exact (emit_wf st 100 h (by rw [hmx]; exact h100)).1
  have H1 := hfin ((pollCancel sched
    (compute_best_combinations inp sched (emit_progress ⟨0, -1, []⟩ 0)).2).2) hwfc
  have H2 := hfin ((pollCancel sched (write_results sched
    (compute_best_combinations inp sched (emit_progress ⟨0, -1, []⟩ 0)).1
    ((pollCancel sched
      (compute_best_combinations inp sched (emit_progress ⟨0, -1, []⟩ 0)).2).2)).2).2) hwfw
  simp only [runWorker]
  split
  · exact ⟨H1.1, H1.2.1⟩
  · split
    · exact ⟨H2.1, H2.2.1⟩
    · split
      · exact ⟨H2.1, H2.2.1⟩
      · exact ⟨H2.1, H2.2.1⟩

/-- Concrete evaluation of the C5 invariant on a run. -/
theorem C5_witness :
    List.Chain' (· < ·) (runWorker ⟨[], [], [], [], []⟩ neverCancel).2.emitted :=
  (C5_progress_in_range_monotone_deduplicated ⟨[], [], [], [], []⟩ neverCancel).2

/-- **C4.** If the cancellation flag behaves monotonically (once requested it
stays requested) and is set at some poll index the run actually reaches, the
run finishes with the distinguished cancelled outcome — `ok = false`,
`cancelled = true`, an empty file list and empty error text — never a partial
result list and never the plain no-result outcome. -/
theorem C4_cancellation_yields_cancelled_outcome (inp : OptInput)
    (sched : Nat → Bool) (hmono : MonoSched sched) (i : Nat)
    (hi : sched i = true) (hlt : i < (runWorker inp sched).2.polls) :
    (runWorker inp sched).1 = ⟨false, true, [], ""⟩ := by
  by_cases h1 : (pollCancel sched
      (compute_best_combinations inp sched (emit_progress ⟨0, -1, []⟩ 0)).2).1 = true
  · simp only [runWorker]
    rw [if_pos h1]
  · by_cases h2 : (pollCancel sched (write_results sched
        (compute_best_combinations inp sched (emit_progress ⟨0, -1, []⟩ 0)).1
        ((pollCancel sched
          (compute_best_combinations inp sched (emit_progress ⟨0, -1, []⟩ 0)).2).2)).2).1 = true
    · simp only [runWorker]
      rw [if_neg h1, if_pos h2]
    · exfalso
      have hpolls : (runWorker inp sched).2.polls =
          (write_results sched
            (compute_best_combinations inp sched (emit_progress ⟨0, -1, []⟩ 0)).1
            ((pollCancel sched
              (compute_best_combinations inp sched
                (emit_progress ⟨0, -1, []⟩ 0)).2).2)).2.polls + 1 := by
        simp only [runWorker]
        rw [if_neg h1, if_neg h2]
        split
        · rw [emit_progress_polls]; rfl
        · rw [emit_progress_polls]; rfl
      rw [hpolls] at hlt
      have h3 : sched (write_results sched
          (compute_best_combinations inp sched (emit_progress ⟨0, -1, []⟩ 0)).1
          ((pollCancel sched
            (compute_best_combinations inp sched
              (emit_progress ⟨0, -1, []⟩ 0)).2).2)).2.polls = true :=
        hmono i _ (by omega) hi
      exact h2 h3

/-- Witness for C4: with the flag set from the start on a trivial input, the
run polls the flag and finishes cancelled. -/
theorem C4_witness :
    MonoSched (fun _ => true) ∧
    0 < (runWorker ⟨[], [], [], [], []⟩ (fun _ => true)).2.polls ∧
    (runWorker ⟨[], [], [], [], []⟩ (fun _ => true)).1 = ⟨false, true, [], ""⟩ :=
  ⟨fun _ _ _ h => h, by decide,
    C4_cancellation_yields_cancelled_outcome ⟨[], [], [], [], []⟩ (fun _ => true)
      (fun _ _ _ h => h) 0 rfl (by decide)⟩

/-! ### C1/C2 — ordering facts for `lexLt`, `better_entry` and `entryLe` -/

theorem lexLt_nil_right (l : List Nat) : lexLt l [] = false := by
  cases l <;> rfl

theorem lexLt_irrefl : ∀ l : List Nat, lexLt l l = false
  | [] => rfl
  | a :: as => by simp [lexLt, lexLt_irrefl as]

theorem lexLt_trans : ∀ (a b c : List Nat),
    lexLt a b = true → lexLt b c = true → lexLt a c = true := by
  intro a
  induction a with
  | nil =>
    intro b c hab hbc
    cases b with
    | nil => simp [lexLt] at hab
    | cons y ys =>
      cases c with
      | nil => simp [lexLt_nil_right] at hbc
      | cons z zs => rfl
  | cons x xs ih =>
    intro b c hab hbc
    cases b with
    | nil => simp [lexLt_nil_right] at hab
    | cons y ys =>
      cases c with
      | nil => simp [lexLt_nil_right] at hbc
      | cons z zs =>
        simp only [lexLt] at hab hbc ⊢
        by_cases hxy : x < y
        · by_cases hyz : y < z
          · rw [if_pos (lt_trans hxy hyz)]
          · rw [if_neg hyz] at hbc
            by_cases hyz2 : y = z
            · subst hyz2
              rw [if_pos hxy]
            · rw [if_neg hyz2] at hbc
              simp at hbc
        · rw [if_neg hxy] at hab
          by_cases hxy2 : x = y
          · rw [if_pos hxy2] at hab
            subst hxy2
            by_cases hxz : x < z
            · rw [if_pos hxz]
            · rw [if_neg hxz] at hbc ⊢
              by_cases hxz2 : x = z
              · rw [if_pos hxz2] at hbc ⊢
                exact ih ys zs hab hbc
              · rw [if_neg hxz2] at hbc
                simp at hbc
          · rw [if_neg hxy2] at hab
            simp at hab

theorem lexLt_connex : ∀ (a b : List Nat),
    lexLt a b = false → lexLt b a = false → a = b := by
  intro a
  induction a with
  | nil =>
    intro b hab _
    cases b with
    | nil => rfl
    | cons y ys => simp [lexLt] at hab
  | cons x xs ih =>
    intro b hab hba
    cases b with
    | nil => simp [lexLt] at hba
    | cons y ys =>
      simp only [lexLt] at hab hba
      by_cases hxy : x < y
      · rw [if_pos hxy] at hab; simp at hab
      · by_cases hyx : y < x
        · rw [if_pos hyx] at hba; simp at hba
        · have hxy2 : x = y := le_antisymm (not_lt.mp hyx) (not_lt.mp hxy)
          subst hxy2
          rw [if_neg hxy, if_pos rfl] at hab
          rw [if_neg hxy, if_pos rfl] at hba
          rw [ih ys hab hba]

theorem lexLt_asymm {a b : List Nat} (hab : lexLt a b = true) : lexLt b a = false := by
  by_contra h
  have hba : lexLt b a = true := by
    cases hh : lexLt b a
    · exact absurd hh h
    · rfl
  have h2 := lexLt_trans a b a hab hba
  rw [lexLt_irrefl] at h2
  simp at h2

theorem better_iff (inp : OptInput) (a b : HalfEntry) :
    better_entry inp a b = true ↔ hlt inp a b := by
  unfold better_entry hlt
  by_cases h1 : a.credit = b.credit
  · rw [if_neg (fun hc => hc h1)]
    by_cases h2 : a.priority_sum = b.priority_sum
    · rw [if_neg (fun hc => hc h2)]
      constructor
      · intro h
        exact Or.inr ⟨h1, Or.inr ⟨h2, h⟩⟩
      · intro h
        rcases h with h | ⟨_, h⟩
        · exact absurd h (by rw [h1]; exact lt_irrefl _)
        · rcases h with h | ⟨_, h⟩
          · exact absurd h (by omega)
          · exact h
    · rw [if_pos h2]
      constructor
      · intro h
        exact Or.inr ⟨h1, Or.inl (of_decide_eq_true h)⟩
      · intro h
        rcases h with h | ⟨_, h | ⟨h, _⟩⟩
        · exact absurd h (by rw [h1]; exact lt_irrefl _)
        · exact decide_eq_true h
        · exact absurd h h2
  · rw [if_pos h1]
    constructor
    · intro h
      exact Or.inl (of_decide_eq_true h)
    · intro h
      rcases h with h | ⟨h, _⟩
      · exact decide_eq_true h
      · exact absurd h h1

theorem hlt_trans {inp : OptInput} {a b c : HalfEntry}
    (h1 : hlt inp a b) (h2 : hlt inp b c) : hlt inp a c := by
  unfold hlt at h1 h2 ⊢
  rcases h1 with h1 | ⟨e1, h1⟩ <;> rcases h2 with h2 | ⟨e2, h2⟩
  · exact Or.inl (lt_trans h2 h1)
  · exact Or.inl (by rw [← e2]; exact h1)
  · exact Or.inl (by rw [e1]; exact h2)
  · refine Or.inr ⟨e1.trans e2, ?_⟩
    rcases h1 with h1 | ⟨f1, h1⟩ <;> rcases h2 with h2 | ⟨f2, h2⟩
    · exact Or.inl (lt_trans h1 h2)
    · exact Or.inl (by rw [← f2]; exact h1)
    · exact Or.inl (by rw [f1]; exact h2)
    · exact Or.inr ⟨f1.trans f2, lexLt_trans _ _ _ h1 h2⟩

theorem hlt_irrefl {inp : OptInput} {a : HalfEntry} : ¬ hlt inp a a := by
  unfold hlt
  intro h
  rcases h with h | ⟨_, h | ⟨_, h⟩⟩
  · exact lt_irrefl _ h
  · exact lt_irrefl _ h
  · rw [lexLt_irrefl] at h; simp at h

theorem hlt_or_eq {inp : OptInput} {a b : HalfEntry}
    (h1 : ¬ hlt inp a b) (h2 : ¬ hlt inp b a) : hkeyEq inp a b := by
  have h1c : ¬ b.credit < a.credit := fun hh => h1 (Or.inl hh)
  have h2c : ¬ a.credit < b.credit := fun hh => h2 (Or.inl hh)
  have hc : a.credit = b.credit := le_antisymm (le_of_not_lt h1c) (le_of_not_lt h2c)
  have h1p : ¬ a.priority_sum < b.priority_sum := fun hh => h1 (Or.inr ⟨hc, Or.inl hh⟩)
  have h2p : ¬ b.priority_sum < a.priority_sum := fun hh => h2 (Or.inr ⟨hc.symm, Or.inl hh⟩)
  have hp : a.priority_sum = b.priority_sum := by omega
  have h1l : lexLt (sortedRanks inp a.ids) (sortedRanks inp b.ids) = false := by
    have := fun hh => h1 (Or.inr ⟨hc, Or.inr ⟨hp, hh⟩⟩)
    simpa using this
  have h2l : lexLt (sortedRanks inp b.ids) (sortedRanks inp a.ids) = false := by
    have := fun hh => h2 (Or.inr ⟨hc.symm, Or.inr ⟨hp.symm, hh⟩⟩)
    simpa using this
  exact ⟨hc, hp, lexLt_connex _ _ h1l h2l⟩

theorem hlt_congr_left {inp : OptInput} {a b c : HalfEntry} (he : hkeyEq inp a b) :
    hlt inp a c ↔ hlt inp b c := by
  unfold hlt
  rw [he.1, he.2.1, he.2.2]

theorem hlt_congr_right {inp : OptInput} {a b c : HalfEntry} (he : hkeyEq inp a b) :
    hlt inp c a ↔ hlt inp c b := by
  unfold hlt
  rw [he.1, he.2.1, he.2.2]

theorem not_better_of_not_hlt {inp : OptInput} {a b : HalfEntry} (h : ¬ hlt inp a b) :
    better_entry inp a b = false := by
  cases hh : better_entry inp a b
  · rfl
  · exact absurd ((better_iff inp a b).mp hh) h

theorem not_hlt_of_not_better {inp : OptInput} {a b : HalfEntry}
    (h : better_entry inp a b = false) : ¬ hlt inp a b := by
  intro hh
  rw [(better_iff inp a b).mpr hh] at h
  simp at h

theorem dominates_trans {inp : OptInput} {a b c : HalfEntry}
    (h1 : better_entry inp a b = false) (h2 : better_entry inp b c = false) :
    better_entry inp a c = false := by
  have h1' := not_hlt_of_not_better h1
  have h2' := not_hlt_of_not_better h2
  refine not_better_of_not_hlt ?_
  intro hac
  by_cases hba : hlt inp b a
  · exact h2' (hlt_trans hba hac)
  · exact h2' ((hlt_congr_left (hlt_or_eq h1' hba)).mp hac)

theorem dominates_of_better {inp : OptInput} {x e f : HalfEntry}
    (hx : better_entry inp x e = true) (hf : better_entry inp f e = false) :
    better_entry inp f x = false := by
  have hx' := (better_iff inp x e).mp hx
  have hf' := not_hlt_of_not_better hf
  refine not_better_of_not_hlt ?_
  intro hfx
  exact hf' (hlt_trans hfx hx')

theorem flt_trans {a b c : ResultEntry} (h1 : flt a b) (h2 : flt b c) : flt a c := by
  unfold flt at h1 h2 ⊢
  rcases h1 with h1 | ⟨e1, h1⟩ <;> rcases h2 with h2 | ⟨e2, h2⟩
  · exact Or.inl (lt_trans h2 h1)
  · exact Or.inl (by rw [← e2]; exact h1)
  · exact Or.inl (by rw [e1]; exact h2)
  · refine Or.inr ⟨e1.trans e2, ?_⟩
    rcases h1 with h1 | ⟨f1, h1⟩ <;> rcases h2 with h2 | ⟨f2, h2⟩
    · exact Or.inl (lt_trans h1 h2)
    · exact Or.inl (by rw [← f2]; exact h1)
    · exact Or.inl (by rw [f1]; exact h2)
    · exact Or.inr ⟨f1.trans f2, lexLt_trans _ _ _ h1 h2⟩

theorem flt_irrefl {a : ResultEntry} : ¬ flt a a := by
  unfold flt
  intro h
  rcases h with h | ⟨_, h | ⟨_, h⟩⟩
  · exact lt_irrefl _ h
  · exact lt_irrefl _ h
  · rw [lexLt_irrefl] at h; simp at h

theorem fkeyEq_refl (a : ResultEntry) : fkeyEq a a := ⟨rfl, rfl, rfl⟩

theorem fkeyEq_symm {a b : ResultEntry} (h : fkeyEq a b) : fkeyEq b a :=
  ⟨h.1.symm, h.2.1.symm, h.2.2.symm⟩

theorem fkeyEq_trans {a b c : ResultEntry} (h1 : fkeyEq a b) (h2 : fkeyEq b c) :
    fkeyEq a c := ⟨h1.1.trans h2.1, h1.2.1.trans h2.2.1, h1.2.2.trans h2.2.2⟩

theorem flt_congr_left {a b c : ResultEntry} (he : fkeyEq a b) : flt a c ↔ flt b c := by
  unfold flt
  rw [he.1, he.2.1, he.2.2]

theorem flt_congr_right {a b c : ResultEntry} (he : fkeyEq a b) : flt c a ↔ flt c b := by
  unfold flt
  rw [he.1, he.2.1, he.2.2]

theorem entryLe_iff (a b : ResultEntry) : entryLe a b = true ↔ (flt a b ∨ fkeyEq a b) := by
  unfold entryLe flt fkeyEq
  simp only [Bool.or_eq_true, Bool.and_eq_true, decide_eq_true_eq]
  tauto

theorem flt_or_eq_total (a b : ResultEntry) : flt a b ∨ flt b a ∨ fkeyEq a b := by
  unfold flt fkeyEq
  rcases lt_trichotomy a.credits b.credits with hc | hc | hc
  · exact Or.inr (Or.inl (Or.inl hc))
  · rcases Nat.lt_trichotomy a.priority_sum b.priority_sum with hp | hp | hp
    · exact Or.inl (Or.inr ⟨hc, Or.inl hp⟩)
    · cases hl : lexLt a.order_key b.order_key with
      | true => exact Or.inl (Or.inr ⟨hc, Or.inr ⟨hp, rfl⟩⟩)
      | false =>
        cases hl2 : lexLt b.order_key a.order_key with
        | true => exact Or.inr (Or.inl (Or.inr ⟨hc.symm, Or.inr ⟨hp.symm, rfl⟩⟩))
        | false => exact Or.inr (Or.inr ⟨hc, hp, lexLt_connex _ _ hl hl2⟩)
    · exact Or.inr (Or.inl (Or.inr ⟨hc.symm, Or.inl hp⟩))
  · exact Or.inl (Or.inl hc)

theorem entryLe_total (a b : ResultEntry) : entryLe a b = true ∨ entryLe b a = true := by
  rcases flt_or_eq_total a b with h | h | h
  · exact Or.inl ((entryLe_iff a b).mpr (Or.inl h))
  · exact Or.inr ((entryLe_iff b a).mpr (Or.inl h))
  · exact Or.inl ((entryLe_iff a b).mpr (Or.inr h))

theorem entryLe_trans {a b c : ResultEntry} (h1 : entryLe a b = true)
    (h2 : entryLe b c = true) : entryLe a c = true := by
  rcases (entryLe_iff a b).mp h1 with h1' | h1' <;>
    rcases (entryLe_iff b c).mp h2 with h2' | h2'
  · exact (entryLe_iff a c).mpr (Or.inl (flt_trans h1' h2'))
  · exact (entryLe_iff a c).mpr (Or.inl ((flt_congr_right h2').mp h1'))
  · exact (entryLe_iff a c).mpr (Or.inl ((flt_congr_left h1').mpr h2'))
  · exact (entryLe_iff a c).mpr (Or.inr (fkeyEq_trans h1' h2'))

theorem entryLe_trans_ex : ∀ (a b c : ResultEntry), entryLe a b = true →
    entryLe b c = true → entryLe a c = true :=
  fun _ _ _ h1 h2 => entryLe_trans h1 h2

theorem entryLe_antisymm_key {a b : ResultEntry} (h1 : entryLe a b = true)
    (h2 : entryLe b a = true) : fkeyEq a b := by
  rcases (entryLe_iff a b).mp h1 with h1' | h1'
  · rcases (entryLe_iff b a).mp h2 with h2' | h2'
    · exact absurd (flt_trans h1' h2') flt_irrefl
    · exact absurd ((flt_congr_left (fkeyEq_symm h2')).mp h1') flt_irrefl
  · exact h1'

/-! ### C2 — multiset counting and merge monotonicity of the lexicographic key -/

theorem natLe_trans : ∀ a b c : Nat, natLe a b = true → natLe b c = true →
    natLe a c = true := by
  intro a b c h1 h2
  simp only [natLe, decide_eq_true_eq] at h1 h2 ⊢
  omega

theorem natLe_total : ∀ a b : Nat, natLe a b = true ∨ natLe b a = true := by
  intro a b
  simp only [natLe, decide_eq_true_eq]
  omega

theorem count_eq_zero_of_lt_min {l : List Nat} {a w : Nat}
    (hs : ∀ x ∈ l, a ≤ x) (hw : w < a) : l.count w = 0 := by
  rw [List.count_eq_zero]
  intro hmem
  exact absurd (hs w hmem) (by omega)

theorem lexLt_iff_cntBelow : ∀ (A B : List Nat),
    List.Pairwise (· ≤ ·) A → List.Pairwise (· ≤ ·) B →
    (∀ x ∈ A, 1 ≤ x) → (∀ x ∈ B, 1 ≤ x) → A.sum = B.sum →
    (lexLt A B = true ↔ CntBelow A B) := by
  intro A
  induction A with
  | nil =>
    intro B _ _ _ hB1 hsum
    cases B with
    | nil =>
      constructor
      · intro h; simp [lexLt] at h
      · rintro ⟨v, hv, _⟩; simp at hv
    | cons b bs =>
      exfalso
      have hb := hB1 b (List.mem_cons_self _ _)
      simp [List.sum_cons] at hsum
      omega
  | cons a as ih =>
    intro B hA hB hA1 hB1 hsum
    cases B with
    | nil =>
      exfalso
      have ha := hA1 a (List.mem_cons_self _ _)
      simp [List.sum_cons] at hsum
      omega
    | cons b bs =>
      have hAmin : ∀ x ∈ a :: as, a ≤ x := by
        intro x hx
        rcases List.mem_cons.mp hx with rfl | hx
        · exact le_refl x
        · exact (List.pairwise_cons.mp hA).1 x hx
      have hBmin : ∀ x ∈ b :: bs, b ≤ x := by
        intro x hx
        rcases List.mem_cons.mp hx with rfl | hx
        · exact le_refl x
        · exact (List.pairwise_cons.mp hB).1 x hx
      simp only [lexLt]
      by_cases hab : a < b
      · rw [if_pos hab]
        constructor
        · intro _
          refine ⟨a, ?_, ?_⟩
          · rw [count_eq_zero_of_lt_min hBmin hab]
            exact List.count_pos_iff.mpr (List.mem_cons_self _ _)
          · intro w hw
            rw [count_eq_zero_of_lt_min hAmin hw,
              count_eq_zero_of_lt_min hBmin (lt_trans hw hab)]
        · intro _; rfl
      · rw [if_neg hab]
        by_cases hab2 : a = b
        · rw [if_pos hab2]
          subst hab2
          have hsum' : as.sum = bs.sum := by
            simp only [List.sum_cons] at hsum
            omega
          rw [ih bs (List.pairwise_cons.mp hA).2 (List.pairwise_cons.mp hB).2
            (fun x hx => hA1 x (List.mem_cons_of_mem _ hx))
            (fun x hx => hB1 x (List.mem_cons_of_mem _ hx)) hsum']
          constructor
          · rintro ⟨v, hv, hmin⟩
            refine ⟨v, ?_, ?_⟩
            · simp only [List.count_cons]
              split_ifs <;> omega
            · intro w hw
              have h9 := hmin w hw
              simp only [List.count_cons]
              split_ifs <;> omega
          · rintro ⟨v, hv, hmin⟩
            refine ⟨v, ?_, ?_⟩
            · simp only [List.count_cons] at hv
              split_ifs at hv <;> omega
            · intro w hw
              have h9 := hmin w hw
              simp only [List.count_cons] at h9
              split_ifs at h9 <;> omega
        · rw [if_neg hab2]
          have hba : b < a := by omega
          constructor
          · intro h; simp at h
          · rintro ⟨v, hv, hmin⟩
            exfalso
            have hvA : v ∈ a :: as := by
              by_contra hvn
              rw [List.count_eq_zero.mpr hvn] at hv
              omega
            have hbv : b < v := lt_of_lt_of_le hba (hAmin v hvA)
            have h9 := hmin b hbv
            rw [count_eq_zero_of_lt_min hAmin hba] at h9
            have h10 : 0 < (b :: bs).count b :=
              List.count_pos_iff.mpr (List.mem_cons_self _ _)
            omega

theorem cntBelow_append (A B M : List Nat) (h : CntBelow A B) :
    CntBelow (A ++ M) (B ++ M) := by
  rcases h with ⟨v, hv, hmin⟩
  refine ⟨v, ?_, ?_⟩
  · rw [List.count_append, List.count_append]
    omega
  · intro w hw
    rw [List.count_append, List.count_append, hmin w hw]

theorem cntBelow_congr {A A' B B' : List Nat} (pa : A.Perm A') (pb : B.Perm B')
    (h : CntBelow A B) : CntBelow A' B' := by
  rcases h with ⟨v, hv, hmin⟩
  refine ⟨v, ?_, ?_⟩
  · rw [← pa.count_eq, ← pb.count_eq]
    exact hv
  · intro w hw
    rw [← pa.count_eq, ← pb.count_eq]
    exact hmin w hw

theorem sortBy_natLe_sorted (l : List Nat) :
    List.Pairwise (· ≤ ·) (sortBy natLe l) := by
  refine (sortBy_pairwise natLe_trans natLe_total l).imp ?_
  intro a b h
  simpa [natLe] using h

/-- Merge monotonicity: appending a common multiset to both sides of a
lexicographic comparison of sorted positive lists with equal sums preserves
the comparison. -/
theorem mergeMono (A B M : List Nat)
    (hA1 : ∀ x ∈ A, 1 ≤ x) (hB1 : ∀ x ∈ B, 1 ≤ x) (hM1 : ∀ x ∈ M, 1 ≤ x)
    (hsum : A.sum = B.sum)
    (h : lexLt (sortBy natLe A) (sortBy natLe B) = true ∨
      sortBy natLe A = sortBy natLe B) :
    lexLt (sortBy natLe (A ++ M)) (sortBy natLe (B ++ M)) = true ∨
      sortBy natLe (A ++ M) = sortBy natLe (B ++ M) := by
  rcases h with h | h
  · left
    have h1 : CntBelow (sortBy natLe A) (sortBy natLe B) := by
      rw [← lexLt_iff_cntBelow (sortBy natLe A) (sortBy natLe B)
        (sortBy_natLe_sorted A) (sortBy_natLe_sorted B)
        (fun x hx => hA1 x (sortBy_mem.mp hx)) (fun x hx => hB1 x (sortBy_mem.mp hx))
        (((sortBy_perm natLe A).sum_eq).trans (hsum.trans ((sortBy_perm natLe B).sum_eq).symm))]
      exact h
    have h2 : CntBelow (A ++ M) (B ++ M) :=
      cntBelow_append A B M (cntBelow_congr (sortBy_perm natLe A) (sortBy_perm natLe B) h1)
    have h3 : CntBelow (sortBy natLe (A ++ M)) (sortBy natLe (B ++ M)) :=
      cntBelow_congr (sortBy_perm natLe (A ++ M)).symm (sortBy_perm natLe (B ++ M)).symm h2
    rw [lexLt_iff_cntBelow (sortBy natLe (A ++ M)) (sortBy natLe (B ++ M))
      (sortBy_natLe_sorted _) (sortBy_natLe_sorted _)
      (fun x hx => by
        rcases List.mem_append.mp (sortBy_mem.mp hx) with hx' | hx'
        · exact hA1 x hx'
        · exact hM1 x hx')
      (fun x hx => by
        rcases List.mem_append.mp (sortBy_mem.mp hx) with hx' | hx'
        · exact hB1 x hx'
        · exact hM1 x hx')
      (by
        rw [(sortBy_perm natLe (A ++ M)).sum_eq, (sortBy_perm natLe (B ++ M)).sum_eq,
          List.sum_append, List.sum_append, hsum])]
    exact h3
  · right
    have hcnt : ∀ v : Nat, (A ++ M).count v = (B ++ M).count v := by
      intro v
      rw [List.count_append, List.count_append,
        (sortBy_perm natLe A).symm.count_eq v, (sortBy_perm natLe B).symm.count_eq v, h]
    have hperm : (sortBy natLe (A ++ M)).Perm (sortBy natLe (B ++ M)) :=
      ((sortBy_perm natLe (A ++ M)).trans (List.perm_iff_count.mpr hcnt)).trans
        (sortBy_perm natLe (B ++ M)).symm
    exact List.eq_of_perm_of_sorted hperm (sortBy_natLe_sorted _) (sortBy_natLe_sorted _)

/-! ### C1/C2 — mask algebra and item facts -/

theorem and_eq_zero_iff (a b : Nat) :
    a &&& b = 0 ↔ ∀ i, ¬(a.testBit i = true ∧ b.testBit i = true) := by
  constructor
  · intro h i hi
    have h2 : (a &&& b).testBit i = true := by
      rw [Nat.testBit_and, hi.1, hi.2]
      rfl
    rw [h, Nat.zero_testBit] at h2
    simp at h2
  · intro h
    refine Nat.eq_of_testBit_eq fun i => ?_
    rw [Nat.testBit_and, Nat.zero_testBit]
    by_cases ha : a.testBit i = true
    · have hb : b.testBit i = false := by
        have := fun hb => h i ⟨ha, hb⟩
        simpa using this
      rw [ha, hb]
      rfl
    · have ha' : a.testBit i = false := by simpa using ha
      rw [ha']
      rfl

theorem and_zero_symm {a b : Nat} (h : a &&& b = 0) : b &&& a = 0 := by
  rw [Nat.land_comm]
  exact h

theorem orMasks_cons (s : Item) (ss : List Item) :
    orMasks (s :: ss) = s.mask ||| orMasks ss := rfl

theorem testBit_orMasks (S : List Item) (i : Nat) :
    (orMasks S).testBit i = true ↔ ∃ s ∈ S, s.mask.testBit i = true := by
  induction S with
  | nil => simp [orMasks, Nat.zero_testBit]
  | cons s ss ih =>
    rw [orMasks_cons, Nat.testBit_or]
    simp [ih]

theorem orMasks_append (S T : List Item) :
    orMasks (S ++ T) = orMasks S ||| orMasks T := by
  induction S with
  | nil => simp [orMasks]
  | cons s ss ih =>
    rw [List.cons_append, orMasks_cons, orMasks_cons, ih, Nat.or_assoc]

theorem orMasks_disj_of_forall {S : List Item} {m : Nat}
    (h : ∀ s ∈ S, s.mask &&& m = 0) : orMasks S &&& m = 0 := by
  rw [and_eq_zero_iff]
  intro i hi
  rcases (testBit_orMasks S i).mp hi.1 with ⟨s, hs, hbit⟩
  exact (and_eq_zero_iff _ _).mp (h s hs) i ⟨hbit, hi.2⟩

theorem forall_disj_of_orMasks {S : List Item} {m : Nat}
    (h : orMasks S &&& m = 0) : ∀ s ∈ S, s.mask &&& m = 0 := by
  intro s hs
  rw [and_eq_zero_iff] at h ⊢
  intro i hi
  exact h i ⟨(testBit_orMasks S i).mpr ⟨s, hs, hi.1⟩, hi.2⟩

theorem orMasks_nil : orMasks [] = 0 := rfl

theorem halfOf_append_extend (S : List Item) (it : Item) :
    halfOf (S ++ [it]) = extendE (halfOf S) it := by
  simp only [halfOf, extendE, orMasks_append, orMasks_cons, orMasks_nil, Nat.or_zero,
    List.map_append, List.sum_append, List.map_cons, List.map_nil, List.sum_cons,
    List.sum_nil, add_zero]

theorem halfOf_nil : halfOf [] = ⟨0, 0, 0, [], 0⟩ := rfl

theorem mem_compute_items {inp : OptInput} {cb : CandBuild} {it : Item}
    (h : it ∈ compute_items inp cb) :
    it.order_val = omFun inp it.cid ∧ it.mask &&& baseMask cb = 0 := by
  simp only [compute_items] at h
  rcases List.mem_filterMap.mp h with ⟨c, _, hc⟩
  by_cases hmask : ((c.maskHi <<< 64) ||| c.maskLo) &&&
      ((cb.base_hi <<< 64) ||| cb.base_lo) ≠ 0
  · rw [if_pos hmask] at hc
    simp at hc
  · rw [if_neg hmask] at hc
    have h2 := Option.some.inj hc
    subst h2
    exact ⟨rfl, by simpa [baseMask] using hmask⟩

theorem map_filterMap_sublist {α β γ : Type} (f : α → Option β) (g : β → γ) (h : α → γ)
    (hfg : ∀ a b, f a = some b → g b = h a) :
    ∀ l : List α, ((l.filterMap f).map g).Sublist (l.map h) := by
  intro l
  induction l with
  | nil => simp
  | cons c cs ih =>
    rw [List.filterMap_cons, List.map_cons]
    cases hfc : f c with
    | none => exact ih.trans (List.sublist_cons_self _ _)
    | some b =>
      rw [List.map_cons, hfg c b hfc]
      exact ih.cons₂ _

theorem compute_items_cids_sublist (inp : OptInput) (cb : CandBuild) :
    ((compute_items inp cb).map (fun i => i.cid)).Sublist
      (cb.cand.map (fun c => c.cid)) := by
  simp only [compute_items]
  refine map_filterMap_sublist _ _ _ ?_ cb.cand
  intro a b hab
  by_cases hmask : ((a.maskHi <<< 64) ||| a.maskLo) &&&
      ((cb.base_hi <<< 64) ||| cb.base_lo) ≠ 0
  · rw [if_pos hmask] at hab
    simp at hab
  · rw [if_neg hmask] at hab
    have h2 := Option.some.inj hab
    subst h2
    rfl

theorem lookup_mem {β : Type} : ∀ (l : List (Nat × β)) (k : Nat) (v : β),
    l.lookup k = some v → (k, v) ∈ l := by
  intro l
  induction l with
  | nil => intro k v h; simp [List.lookup] at h
  | cons p ps ih =>
    intro k v h
    rcases p with ⟨a, b⟩
    simp only [List.lookup] at h
    cases hak : k == a with
    | true =>
      rw [hak] at h
      simp only [Option.some.injEq] at h
      have ha : k = a := by simpa using hak
      subst ha
      subst h
      exact List.mem_cons_self _ _
    | false =>
      rw [hak] at h
      exact List.mem_cons_of_mem _ (ih k v h)

theorem bom_snd_pos {inp : OptInput} {c v : Nat}
    (h : (c, v) ∈ build_order_map inp) : 1 ≤ v := by
  simp only [build_order_map] at h
  rcases List.mem_map.mp h with ⟨p, _, hp⟩
  have h2 := congrArg Prod.snd hp
  simp at h2
  omega

theorem omFun_pos (inp : OptInput) (c : Nat) : 1 ≤ omFun inp c := by
  unfold omFun
  cases h : (build_order_map inp).lookup c with
  | none => simp
  | some v =>
    simp only [Option.getD_some]
    exact bom_snd_pos (lookup_mem _ c v h)

theorem halfOf_psum_ranks {inp : OptInput} {cb : CandBuild} {S : List Item}
    (h : ∀ it ∈ S, it ∈ compute_items inp cb) :
    (halfOf S).priority_sum = ((halfOf S).ids.map (omFun inp)).sum := by
  show (S.map (fun i => i.order_val)).sum = ((S.map (fun i => i.cid)).map (omFun inp)).sum
  rw [List.map_map]
  congr 1
  refine List.map_congr_left ?_
  intro it hit
  exact (mem_compute_items (h it hit)).1

theorem sortedRanks_append (inp : OptInput) (ids : List Nat) (c : Nat) :
    sortedRanks inp (ids ++ [c]) =
      sortBy natLe (ids.map (omFun inp) ++ [omFun inp c]) := by
  unfold sortedRanks
  rw [List.map_append]
  rfl

/-- Extending two half entries by the same item preserves `better_entry`
domination (the credit and priority sums shift equally, and the sorted rank
lists gain a common element — merge monotonicity). -/
theorem extend_dominates {inp : OptInput} {a b : HalfEntry} (it : Item)
    (ha : a.priority_sum = (a.ids.map (omFun inp)).sum)
    (hb : b.priority_sum = (b.ids.map (omFun inp)).sum)
    (hd : better_entry inp b a = false) :
    better_entry inp (extendE b it) (extendE a it) = false := by
  have hd' := not_hlt_of_not_better hd
  refine not_better_of_not_hlt ?_
  intro hlt2
  apply hd'
  unfold hlt at hlt2 ⊢
  unfold extendE at hlt2
  simp only at hlt2
  rcases hlt2 with h | ⟨hc, h⟩
  · exact Or.inl (by linarith)
  · have hc' : b.credit = a.credit := by linarith
    rcases h with h | ⟨hp, h⟩
    · exact Or.inr ⟨hc', Or.inl (by omega)⟩
    · have hp' : b.priority_sum = a.priority_sum := by omega
      refine Or.inr ⟨hc', Or.inr ⟨hp', ?_⟩⟩
      rw [sortedRanks_append, sortedRanks_append] at h
      unfold sortedRanks
      by_contra hno
      have hno' : lexLt (sortBy natLe (b.ids.map (omFun inp)))
          (sortBy natLe (a.ids.map (omFun inp))) = false := by
        simpa using hno
      have hpos : ∀ (l : List Nat), ∀ x ∈ l.map (omFun inp), 1 ≤ x := by
        intro l x hx
        rcases List.mem_map.mp hx with ⟨c, _, hc2⟩
        rw [← hc2]
        exact omFun_pos inp c
      have hsums : (a.ids.map (omFun inp)).sum = (b.ids.map (omFun inp)).sum := by
        omega
      have hstart : lexLt (sortBy natLe (a.ids.map (omFun inp)))
          (sortBy natLe (b.ids.map (omFun inp))) = true ∨
          sortBy natLe (a.ids.map (omFun inp)) =
            sortBy natLe (b.ids.map (omFun inp)) := by
        cases hAB : lexLt (sortBy natLe (a.ids.map (omFun inp)))
            (sortBy natLe (b.ids.map (omFun inp))) with
        | true => exact Or.inl rfl
        | false => exact Or.inr (lexLt_connex _ _ hAB hno')
      have hmerge := mergeMono (a.ids.map (omFun inp)) (b.ids.map (omFun inp))
        [omFun inp it.cid] (hpos a.ids) (hpos b.ids)
        (by
          intro x hx
          have hx' : x = omFun inp it.cid := by simpa using hx
          rw [hx']
          exact omFun_pos inp it.cid)
        hsums hstart
      rcases hmerge with hm | hm
      · rw [lexLt_asymm hm] at h
        simp at h
      · rw [← hm] at h
        rw [lexLt_irrefl] at h
        simp at h

/-! ### C1/C2 — the per-mask dictionary -/

theorem lookup_none_not_mem {β : Type} : ∀ (l : List (Nat × β)) (k : Nat),
    l.lookup k = none → ∀ v, (k, v) ∉ l := by
  intro l
  induction l with
  | nil => intro k _ v; simp
  | cons p ps ih =>
    intro k hl v hm
    rcases p with ⟨a, b⟩
    simp only [List.lookup] at hl
    cases hak : k == a with
    | true =>
      rw [hak] at hl
      simp at hl
    | false =>
      rw [hak] at hl
      rcases List.mem_cons.mp hm with hm | hm
      · have h2 : k = a := congrArg Prod.fst hm
        exact absurd h2 (by simpa using hak)
      · exact ih k hl v hm

theorem key_unique {β : Type} : ∀ (d : List (Nat × β)) (k : Nat) (a b : β),
    (d.map Prod.fst).Nodup → (k, a) ∈ d → (k, b) ∈ d → a = b := by
  intro d
  induction d with
  | nil => intro k a b _ ha; simp at ha
  | cons p ps ih =>
    intro k a b hnd ha hb
    rw [List.map_cons, List.nodup_cons] at hnd
    rcases List.mem_cons.mp ha with ha2 | ha2
    · rcases List.mem_cons.mp hb with hb2 | hb2
      · exact congrArg Prod.snd (ha2.trans hb2.symm)
      · exfalso
        have hk : k ∈ ps.map Prod.fst := List.mem_map.mpr ⟨(k, b), hb2, rfl⟩
        rw [← ha2] at hnd
        exact hnd.1 hk
    · rcases List.mem_cons.mp hb with hb2 | hb2
      · exfalso
        have hk : k ∈ ps.map Prod.fst := List.mem_map.mpr ⟨(k, a), ha2, rfl⟩
        rw [← hb2] at hnd
        exact hnd.1 hk
      · exact ih k a b hnd.2 ha2 hb2

theorem dictSet_keys_nodup {d : List (Nat × HalfEntry)} {k : Nat} {v : HalfEntry}
    (h : (d.map Prod.fst).Nodup) : ((dictSet d k v).map Prod.fst).Nodup := by
  unfold dictSet
  by_cases hany : d.any (fun p => decide (p.1 = k)) = true
  · rw [if_pos hany]
    have heq : ((d.map (fun p => if p.1 = k then (k, v) else p)).map Prod.fst) =
        d.map Prod.fst := by
      rw [List.map_map]
      refine List.map_congr_left ?_
      intro p _
      simp only [Function.comp]
      by_cases hp : p.1 = k
      · rw [if_pos hp]
        exact hp.symm
      · rw [if_neg hp]
    rw [heq]
    exact h
  · rw [if_neg hany]
    rw [List.map_append]
    rw [List.nodup_append]
    refine ⟨h, List.nodup_singleton _, ?_⟩
    intro x hx hk
    have hxk : x = k := by simpa using hk
    subst hxk
    rcases List.mem_map.mp hx with ⟨p, hp, hpk⟩
    exact hany (List.any_eq_true.mpr ⟨p, hp, decide_eq_true hpk⟩)

theorem dictSet_mem_of_ne {d : List (Nat × HalfEntry)} {k : Nat} {v : HalfEntry}
    {q : Nat × HalfEntry} (hq : q ∈ d) (hne : q.1 ≠ k) : q ∈ dictSet d k v := by
  unfold dictSet
  by_cases hany : d.any (fun p => decide (p.1 = k)) = true
  · rw [if_pos hany]
    have h2 := List.mem_map_of_mem (fun p => if p.1 = k then (k, v) else p) hq
    simp only at h2
    rw [if_neg hne] at h2
    exact h2
  · rw [if_neg hany]
    exact List.mem_append_left _ hq

theorem dictSet_mem_self (d : List (Nat × HalfEntry)) (k : Nat) (v : HalfEntry) :
    (k, v) ∈ dictSet d k v := by
  unfold dictSet
  by_cases hany : d.any (fun p => decide (p.1 = k)) = true
  · rw [if_pos hany]
    rcases List.any_eq_true.mp hany with ⟨p, hp, hpk⟩
    have hpk' : p.1 = k := of_decide_eq_true hpk
    have h2 := List.mem_map_of_mem (fun p => if p.1 = k then (k, v) else p) hp
    simp only at h2
    rw [if_pos hpk'] at h2
    exact h2
  · rw [if_neg hany]
    exact List.mem_append_right _ (List.mem_singleton.mpr rfl)

theorem dictSet_mem_cases {d : List (Nat × HalfEntry)} {k : Nat} {v : HalfEntry}
    {q : Nat × HalfEntry} (hq : q ∈ dictSet d k v) : q ∈ d ∨ q = (k, v) := by
  unfold dictSet at hq
  by_cases hany : d.any (fun p => decide (p.1 = k)) = true
  · rw [if_pos hany] at hq
    rcases List.mem_map.mp hq with ⟨p, hp, hpq⟩
    by_cases hpk : p.1 = k
    · rw [if_pos hpk] at hpq
      exact Or.inr hpq.symm
    · rw [if_neg hpk] at hpq
      rw [← hpq]
      exact Or.inl hp
  · rw [if_neg hany] at hq
    rcases List.mem_append.mp hq with h | h
    · exact Or.inl h
    · exact Or.inr (List.mem_singleton.mp h)

theorem better_self_false (inp : OptInput) (a : HalfEntry) :
    better_entry inp a a = false := not_better_of_not_hlt hlt_irrefl

theorem better_asymm_false {inp : OptInput} {x y : HalfEntry}
    (h : better_entry inp x y = true) : better_entry inp y x = false := by
  refine not_better_of_not_hlt ?_
  intro h2
  exact hlt_irrefl (hlt_trans h2 ((better_iff inp x y).mp h))

theorem extendSnap_nil (inp : OptInput) (it : Item) (res : List (Nat × HalfEntry)) :
    extendSnap inp it [] res = res := rfl

theorem extendSnap_cons (inp : OptInput) (it : Item) (pe : Nat × HalfEntry)
    (rest res : List (Nat × HalfEntry)) :
    extendSnap inp it (pe :: rest) res = extendSnap inp it rest
      (if pe.1 &&& it.mask ≠ 0 then res
       else
         match res.lookup (pe.1 ||| it.mask) with
         | none => dictSet res (pe.1 ||| it.mask)
             ⟨pe.1 ||| it.mask, pe.2.credit + it.credit, pe.2.gened + it.gened,
               pe.2.ids ++ [it.cid], pe.2.priority_sum + it.order_val⟩
         | some ex =>
           if better_entry inp
               ⟨pe.1 ||| it.mask, pe.2.credit + it.credit, pe.2.gened + it.gened,
                 pe.2.ids ++ [it.cid], pe.2.priority_sum + it.order_val⟩ ex then
             dictSet res (pe.1 ||| it.mask)
               ⟨pe.1 ||| it.mask, pe.2.credit + it.credit, pe.2.gened + it.gened,
                 pe.2.ids ++ [it.cid], pe.2.priority_sum + it.order_val⟩
           else res) := rfl

theorem extendSnap_step_skip (inp : OptInput) (it : Item) (pe : Nat × HalfEntry)
    (rest res : List (Nat × HalfEntry)) (hskip : pe.1 &&& it.mask ≠ 0) :
    extendSnap inp it (pe :: rest) res = extendSnap inp it rest res := by
  rw [extendSnap_cons, if_pos hskip]

theorem extendSnap_step_none (inp : OptInput) (it : Item) (pe : Nat × HalfEntry)
    (rest res : List (Nat × HalfEntry)) (hdisj : pe.1 &&& it.mask = 0)
    (hlk : res.lookup (pe.1 ||| it.mask) = none) :
    extendSnap inp it (pe :: rest) res = extendSnap inp it rest
      (dictSet res (pe.1 ||| it.mask)
        ⟨pe.1 ||| it.mask, pe.2.credit + it.credit, pe.2.gened + it.gened,
          pe.2.ids ++ [it.cid], pe.2.priority_sum + it.order_val⟩) := by
  rw [extendSnap_cons, if_neg (not_not_intro hdisj), hlk]

theorem extendSnap_step_some (inp : OptInput) (it : Item) (pe : Nat × HalfEntry)
    (rest res : List (Nat × HalfEntry)) (ex : HalfEntry)
    (hdisj : pe.1 &&& it.mask = 0)
    (hlk : res.lookup (pe.1 ||| it.mask) = some ex) :
    extendSnap inp it (pe :: rest) res = extendSnap inp it rest
      (if better_entry inp
          ⟨pe.1 ||| it.mask, pe.2.credit + it.credit, pe.2.gened + it.gened,
            pe.2.ids ++ [it.cid], pe.2.priority_sum + it.order_val⟩ ex then
        dictSet res (pe.1 ||| it.mask)
          ⟨pe.1 ||| it.mask, pe.2.credit + it.credit, pe.2.gened + it.gened,
            pe.2.ids ++ [it.cid], pe.2.priority_sum + it.order_val⟩
      else res) := by
  rw [extendSnap_cons, if_neg (not_not_intro hdisj), hlk]

/-- Invariant of the snapshot fold inside `enumerate_half`: keys stay
distinct, every entry stays the exact entry of a conflict-free subset, stored
entries only ever improve, and each processed compatible snapshot pair leaves
a dominating entry at the combined mask. -/
theorem extendSnap_inv (inp : OptInput) (it : Item) (done : List Item) :
    ∀ (rest res : List (Nat × HalfEntry)),
      TableSound done rest →
      (res.map Prod.fst).Nodup →
      TableSound (done ++ [it]) res →
      ((extendSnap inp it rest res).map Prod.fst).Nodup ∧
      TableSound (done ++ [it]) (extendSnap inp it rest res) ∧
      (∀ m e', (m, e') ∈ res →
        ∃ e2, (m, e2) ∈ extendSnap inp it rest res ∧ better_entry inp e' e2 = false) ∧
      (∀ pe ∈ rest, pe.1 &&& it.mask = 0 →
        ∃ e2, (pe.1 ||| it.mask, e2) ∈ extendSnap inp it rest res ∧
          better_entry inp (extendE pe.2 it) e2 = false) := by
  intro rest
  induction rest with
  | nil =>
    intro res _ hnd hsound
    rw [extendSnap_nil]
    exact ⟨hnd, hsound, fun m e' hm => ⟨e', hm, better_self_false inp e'⟩, by simp⟩
  | cons pe rest ih =>
    intro res hrest hnd hsound
    obtain ⟨S, hSsub, hSpw, hS1, hS2⟩ := hrest pe (List.mem_cons_self _ _)
    have hrest' : TableSound done rest := fun q hq => hrest q (List.mem_cons_of_mem _ hq)
    by_cases hskip : pe.1 &&& it.mask ≠ 0
    · rw [extendSnap_step_skip inp it pe rest res hskip]
      obtain ⟨c1, c2, c3, c4⟩ := ih res hrest' hnd hsound
      refine ⟨c1, c2, c3, ?_⟩
      intro q hq hqd
      rcases List.mem_cons.mp hq with rfl | hq2
      · exact absurd hqd hskip
      · exact c4 q hq2 hqd
    · have hdisj : pe.1 &&& it.mask = 0 := not_not.mp hskip
      have hkey : pe.1 = pe.2.mask := by
        rw [hS1, hS2]
        rfl
      have hNE : (⟨pe.1 ||| it.mask, pe.2.credit + it.credit, pe.2.gened + it.gened,
          pe.2.ids ++ [it.cid], pe.2.priority_sum + it.order_val⟩ : HalfEntry) =
          extendE pe.2 it := by
        unfold extendE
        rw [hkey]
      have hS2' : extendE pe.2 it = halfOf (S ++ [it]) := by
        rw [hS2, halfOf_append_extend]
      have hsub' : (S ++ [it]).Sublist (done ++ [it]) :=
        hSsub.append (List.Sublist.refl [it])
      have hpw' : (S ++ [it]).Pairwise (fun a b => a.mask &&& b.mask = 0) := by
        rw [List.pairwise_append]
        refine ⟨hSpw, List.pairwise_singleton _ _, ?_⟩
        intro a haS b hbit
        have hb : b = it := by simpa using hbit
        subst hb
        exact forall_disj_of_orMasks (by rw [← hS1]; exact hdisj) a haS
      have hnm : pe.1 ||| it.mask = orMasks (S ++ [it]) := by
        rw [orMasks_append, hS1, orMasks_cons, orMasks_nil, Nat.or_zero]
      have hDS : ∀ res2 : List (Nat × HalfEntry),
          (res2.map Prod.fst).Nodup → TableSound (done ++ [it]) res2 →
          ((dictSet res2 (pe.1 ||| it.mask)
            ⟨pe.1 ||| it.mask, pe.2.credit + it.credit, pe.2.gened + it.gened,
              pe.2.ids ++ [it.cid], pe.2.priority_sum + it.order_val⟩).map Prod.fst).Nodup ∧
          TableSound (done ++ [it]) (dictSet res2 (pe.1 ||| it.mask)
            ⟨pe.1 ||| it.mask, pe.2.credit + it.credit, pe.2.gened + it.gened,
              pe.2.ids ++ [it.cid], pe.2.priority_sum + it.order_val⟩) := by
        intro res2 hnd2 hsound2
        refine ⟨dictSet_keys_nodup hnd2, ?_⟩
        intro q hq
        rcases dictSet_mem_cases hq with hq2 | hq2
        · exact hsound2 q hq2
        · subst hq2
          exact ⟨S ++ [it], hsub', hpw', hnm, hNE.trans hS2'⟩
      cases hlk : res.lookup (pe.1 ||| it.mask) with
      | none =>
        rw [extendSnap_step_none inp it pe rest res hdisj hlk]
        obtain ⟨hnd2, hsound2⟩ := hDS res hnd hsound
        have hK : ∀ m e', (m, e') ∈ res →
            ∃ e2, (m, e2) ∈ dictSet res (pe.1 ||| it.mask)
              ⟨pe.1 ||| it.mask, pe.2.credit + it.credit, pe.2.gened + it.gened,
                pe.2.ids ++ [it.cid], pe.2.priority_sum + it.order_val⟩ ∧
              better_entry inp e' e2 = false := by
          intro m e' hm
          by_cases hmn : m = pe.1 ||| it.mask
          · subst hmn
            exact absurd hm (lookup_none_not_mem res (pe.1 ||| it.mask) hlk e')
          · exact ⟨e', dictSet_mem_of_ne hm hmn, better_self_false inp e'⟩
        obtain ⟨c1, c2, c3, c4⟩ := ih _ hrest' hnd2 hsound2
        refine ⟨c1, c2, ?_, ?_⟩
        · intro m e' hm
          obtain ⟨e2, he2, hb2⟩ := hK m e' hm
          obtain ⟨e3, he3, hb3⟩ := c3 m e2 he2
          exact ⟨e3, he3, dominates_trans hb2 hb3⟩
        · intro q hq hqd
          rcases List.mem_cons.mp hq with rfl | hq2
          · obtain ⟨e3, he3, hb3⟩ := c3 _ _ (dictSet_mem_self res (q.1 ||| it.mask)
              ⟨q.1 ||| it.mask, q.2.credit + it.credit, q.2.gened + it.gened,
                q.2.ids ++ [it.cid], q.2.priority_sum + it.order_val⟩)
            refine ⟨e3, he3, dominates_trans ?_ hb3⟩
            rw [hNE]
            exact better_self_false inp _
          · exact c4 q hq2 hqd
      | some ex =>
        have hexm : (pe.1 ||| it.mask, ex) ∈ res := lookup_mem res _ ex hlk
        rw [extendSnap_step_some inp it pe rest res ex hdisj hlk]
        by_cases hbet : better_entry inp
            ⟨pe.1 ||| it.mask, pe.2.credit + it.credit, pe.2.gened + it.gened,
              pe.2.ids ++ [it.cid], pe.2.priority_sum + it.order_val⟩ ex = true
        · rw [if_pos hbet]
          obtain ⟨hnd2, hsound2⟩ := hDS res hnd hsound
          have hK : ∀ m e', (m, e') ∈ res →
              ∃ e2, (m, e2) ∈ dictSet res (pe.1 ||| it.mask)
                ⟨pe.1 ||| it.mask, pe.2.credit + it.credit, pe.2.gened + it.gened,
                  pe.2.ids ++ [it.cid], pe.2.priority_sum + it.order_val⟩ ∧
                better_entry inp e' e2 = false := by
            intro m e' hm
            by_cases hmn : m = pe.1 ||| it.mask
            · subst hmn
              have he' : e' = ex := key_unique res (pe.1 ||| it.mask) e' ex hnd hm hexm
              subst he'
              exact ⟨_, dictSet_mem_self res (pe.1 ||| it.mask) _, better_asymm_false hbet⟩
            · exact ⟨e', dictSet_mem_of_ne hm hmn, better_self_false inp e'⟩
          obtain ⟨c1, c2, c3, c4⟩ := ih _ hrest' hnd2 hsound2
          refine ⟨c1, c2, ?_, ?_⟩
          · intro m e' hm
            obtain ⟨e2, he2, hb2⟩ := hK m e' hm
            obtain ⟨e3, he3, hb3⟩ := c3 m e2 he2
            exact ⟨e3, he3, dominates_trans hb2 hb3⟩
          · intro q hq hqd
            rcases List.mem_cons.mp hq with rfl | hq2
            · obtain ⟨e3, he3, hb3⟩ := c3 _ _ (dictSet_mem_self res (q.1 ||| it.mask)
                ⟨q.1 ||| it.mask, q.2.credit + it.credit, q.2.gened + it.gened,
                  q.2.ids ++ [it.cid], q.2.priority_sum + it.order_val⟩)
              refine ⟨e3, he3, dominates_trans ?_ hb3⟩
              rw [hNE]
              exact better_self_false inp _
            · exact c4 q hq2 hqd
        · rw [if_neg hbet]
          have hbet' : better_entry inp
              ⟨pe.1 ||| it.mask, pe.2.credit + it.credit, pe.2.gened + it.gened,
                pe.2.ids ++ [it.cid], pe.2.priority_sum + it.order_val⟩ ex = false := by
            cases hh : better_entry inp
                ⟨pe.1 ||| it.mask, pe.2.credit + it.credit, pe.2.gened + it.gened,
                  pe.2.ids ++ [it.cid], pe.2.priority_sum + it.order_val⟩ ex
            · rfl
            · exact absurd hh hbet
          obtain ⟨c1, c2, c3, c4⟩ := ih res hrest' hnd hsound
          refine ⟨c1, c2, c3, ?_⟩
          intro q hq hqd
          rcases List.mem_cons.mp hq with rfl | hq2
          · obtain ⟨e3, he3, hb3⟩ := c3 _ ex hexm
            refine ⟨e3, he3, dominates_trans ?_ hb3⟩
            rw [← hNE]
            exact hbet'
          · exact c4 q hq2 hqd

/-- Without cancellation, `enumerate_half`'s item loop maintains key
distinctness, exact soundness and dominating completeness of the mask table. -/
theorem enumHalfLoop_table (inp : OptInput) (cb : CandBuild) (pstart pspan total : Nat) :
    ∀ (items done : List Item) (idx : Nat) (d : List (Nat × HalfEntry)) (st : St),
      (d.map Prod.fst).Nodup →
      TableSound done d →
      TableComplete inp done d →
      (∀ x ∈ done, x ∈ compute_items inp cb) →
      (∀ x ∈ items, x ∈ compute_items inp cb) →
      ((enumHalfLoop inp neverCancel pstart pspan total items idx d st).1.map
        Prod.fst).Nodup ∧
      TableSound (done ++ items)
        (enumHalfLoop inp neverCancel pstart pspan total items idx d st).1 ∧
      TableComplete inp (done ++ items)
        (enumHalfLoop inp neverCancel pstart pspan total items idx d st).1 := by
  intro items
  induction items with
  | nil =>
    intro done idx d st hnd hsound hcomp _ _
    rw [show enumHalfLoop inp neverCancel pstart pspan total [] idx d st = (d, st) from rfl,
      List.append_nil]
    exact ⟨hnd, hsound, hcomp⟩
  | cons it rest ih =>
    intro done idx d st hnd hsound hcomp hdone hitems
    have hstep : enumHalfLoop inp neverCancel pstart pspan total (it :: rest) idx d st =
        enumHalfLoop inp neverCancel pstart pspan total rest (idx + 1)
          (extendSnap inp it d d)
          (if 0 < total then
            emit_progress (pollCancel neverCancel st).2
              ((pstart + pspan * idx / total : Nat) : Int)
          else (pollCancel neverCancel st).2) := rfl
    rw [hstep]
    have hsound' : TableSound (done ++ [it]) d := by
      intro q hq
      obtain ⟨S, h1, h2, h3, h4⟩ := hsound q hq
      exact ⟨S, h1.trans (List.sublist_append_left done [it]), h2, h3, h4⟩
    obtain ⟨hnd2, hsound2, hK, hP⟩ := extendSnap_inv inp it done d d hsound hnd hsound'
    have hcomp2 : TableComplete inp (done ++ [it]) (extendSnap inp it d d) := by
      intro S hsub hpw
      rcases List.sublist_append_iff.mp hsub with ⟨T, U, rfl, hT, hU⟩
      rcases List.sublist_singleton.mp hU with hU0 | hU0
      · subst hU0
        rw [List.append_nil] at hpw ⊢
        obtain ⟨e, hmem, hdom⟩ := hcomp T hT hpw
        obtain ⟨e3, he3, hb3⟩ := hK (orMasks T) e hmem
        exact ⟨e3, he3, dominates_trans hdom hb3⟩
      · subst hU0
        have hpwT := (List.pairwise_append.mp hpw).1
        have hcross : ∀ a ∈ T, a.mask &&& it.mask = 0 := by
          intro a ha
          exact (List.pairwise_append.mp hpw).2.2 a ha it (List.mem_singleton.mpr rfl)
        obtain ⟨eT, hmemT, hdomT⟩ := hcomp T hT hpwT
        obtain ⟨ST, hSTsub, _, _, hST4⟩ := hsound _ hmemT
        have hWFeT : eT.priority_sum = (eT.ids.map (omFun inp)).sum := by
          have h4 : eT = halfOf ST := hST4
          rw [h4]
          exact halfOf_psum_ranks (fun x hx => hdone x (hSTsub.subset hx))
        have hWFT : (halfOf T).priority_sum = ((halfOf T).ids.map (omFun inp)).sum :=
          halfOf_psum_ranks (fun x hx => hdone x (hT.subset hx))
        have hkeydisj : orMasks T &&& it.mask = 0 := orMasks_disj_of_forall hcross
        obtain ⟨e2, hmem2, hdom2⟩ := hP (orMasks T, eT) hmemT hkeydisj
        refine ⟨e2, ?_, ?_⟩
        · rw [show orMasks (T ++ [it]) = orMasks T ||| it.mask from by
            rw [orMasks_append, orMasks_cons, orMasks_nil, Nat.or_zero]]
          exact hmem2
        · rw [halfOf_append_extend]
          refine dominates_trans ?_ hdom2
          exact extend_dominates it hWFeT hWFT hdomT
    have hdone2 : ∀ x ∈ done ++ [it], x ∈ compute_items inp cb := by
      intro x hx
      rcases List.mem_append.mp hx with hx | hx
      · exact hdone x hx
      · rw [List.mem_singleton.mp hx]
        exact hitems it (List.mem_cons_self _ _)
    have hitems2 : ∀ x ∈ rest, x ∈ compute_items inp cb :=
      fun x hx => hitems x (List.mem_cons_of_mem _ hx)
    have hres := ih (done ++ [it]) (idx + 1) (extendSnap inp it d d)
      (if 0 < total then
        emit_progress (pollCancel neverCancel st).2
          ((pstart + pspan * idx / total : Nat) : Int)
      else (pollCancel neverCancel st).2)
      hnd2 hsound2 hcomp2 hdone2 hitems2
    have happ : (done ++ [it]) ++ rest = done ++ (it :: rest) := by
      rw [List.append_assoc, List.singleton_append]
    rw [← happ]
    exact hres

/-- The table produced by a cancelled-free `enumerate_half` is sound, complete
and has distinct mask keys. -/
theorem enumerate_half_table (inp : OptInput) (cb : CandBuild) (pstart pspan : Nat)
    (items_half : List Item) (st : St)
    (hitems : ∀ x ∈ items_half, x ∈ compute_items inp cb) :
    (((enumerate_half inp neverCancel pstart pspan items_half st).1.map
      Prod.fst).Nodup) ∧
    TableSound items_half (enumerate_half inp neverCancel pstart pspan items_half st).1 ∧
    TableComplete inp items_half
      (enumerate_half inp neverCancel pstart pspan items_half st).1 := by
  unfold enumerate_half
  have h0nd : (([((0 : Nat), (⟨0, 0, 0, [], 0⟩ : HalfEntry))].map Prod.fst)).Nodup := by
    simp
  have h0sound : TableSound [] [(0, ⟨0, 0, 0, [], 0⟩)] := by
    intro q hq
    have hq2 : q = ((0 : Nat), (⟨0, 0, 0, [], 0⟩ : HalfEntry)) := by simpa using hq
    subst hq2
    exact ⟨[], List.Sublist.refl [], List.Pairwise.nil, rfl, rfl⟩
  have h0comp : TableComplete inp [] [(0, ⟨0, 0, 0, [], 0⟩)] := by
    intro S hsub _
    have hS : S = [] := List.sublist_nil.mp hsub
    subst hS
    exact ⟨⟨0, 0, 0, [], 0⟩, List.mem_singleton.mpr rfl, better_self_false inp _⟩
  have hres := enumHalfLoop_table inp cb pstart pspan items_half.length items_half [] 1
    [(0, ⟨0, 0, 0, [], 0⟩)] st h0nd h0sound h0comp (by simp) hitems
  simpa using hres

/-! ### C1/C2 — combined entries and their monotonicity -/

theorem entryLe_refl (a : ResultEntry) : entryLe a a = true :=
  (entryLe_iff a a).mpr (Or.inr (fkeyEq_refl a))

theorem entryLe_credits {a b : ResultEntry} (h : entryLe a b = true) :
    b.credits ≤ a.credits := by
  rcases (entryLe_iff a b).mp h with h | h
  · unfold flt at h
    rcases h with h | ⟨h, _⟩
    · exact le_of_lt h
    · exact le_of_eq h.symm
  · exact le_of_eq h.1.symm

theorem sortBy_natLe_congr_perm {l1 l2 : List Nat} (h : l1.Perm l2) :
    sortBy natLe l1 = sortBy natLe l2 :=
  List.eq_of_perm_of_sorted
    ((sortBy_perm natLe l1).trans (h.trans (sortBy_perm natLe l2).symm))
    (sortBy_natLe_sorted l1) (sortBy_natLe_sorted l2)

theorem ranks_pos (inp : OptInput) (ids : List Nat) :
    ∀ x ∈ ids.map (omFun inp), 1 ≤ x := by
  intro x hx
  rcases List.mem_map.mp hx with ⟨c, _, hc⟩
  rw [← hc]
  exact omFun_pos inp c

theorem mkEntry_credits (inp : OptInput) (cb : CandBuild) (l r : HalfEntry) :
    (mkEntry inp cb l r).credits = cb.base_credit + l.credit + r.credit := rfl

theorem mkEntry_psum_raw (inp : OptInput) (cb : CandBuild) (l r : HalfEntry) :
    (mkEntry inp cb l r).priority_sum =
      (cb.locked_ids.map (omFun inp)).sum + (l.ids.map (omFun inp)).sum +
        (r.ids.map (omFun inp)).sum := by
  show (sortBy natLe
    ((sortBy natLe (cb.locked_ids ++ l.ids ++ r.ids)).map (omFun inp))).sum = _
  rw [(sortBy_perm natLe _).sum_eq,
    ((sortBy_perm natLe (cb.locked_ids ++ l.ids ++ r.ids)).map (omFun inp)).sum_eq,
    List.map_append, List.map_append, List.sum_append, List.sum_append]

theorem mkEntry_order_key (inp : OptInput) (cb : CandBuild) (l r : HalfEntry) :
    (mkEntry inp cb l r).order_key =
      sortBy natLe ((cb.locked_ids ++ l.ids ++ r.ids).map (omFun inp)) := by
  show sortBy natLe
    ((sortBy natLe (cb.locked_ids ++ l.ids ++ r.ids)).map (omFun inp)) = _
  exact sortBy_natLe_congr_perm
    ((sortBy_perm natLe (cb.locked_ids ++ l.ids ++ r.ids)).map (omFun inp))

theorem mkEntry_ids (inp : OptInput) (cb : CandBuild) (l r : HalfEntry) :
    (mkEntry inp cb l r).ids = sortBy natLe (cb.locked_ids ++ l.ids ++ r.ids) := rfl

theorem mkEntry_mono_left (inp : OptInput) (cb : CandBuild) {l l' : HalfEntry}
    (r : HalfEntry)
    (hl : l.priority_sum = (l.ids.map (omFun inp)).sum)
    (hl' : l'.priority_sum = (l'.ids.map (omFun inp)).sum)
    (hd : better_entry inp l' l = false) :
    entryLe (mkEntry inp cb l r) (mkEntry inp cb l' r) = true := by
  have hd' := not_hlt_of_not_better hd
  rw [entryLe_iff]
  have hcred1 := mkEntry_credits inp cb l r
  have hcred2 := mkEntry_credits inp cb l' r
  have hps1 := mkEntry_psum_raw inp cb l r
  have hps2 := mkEntry_psum_raw inp cb l' r
  have hok1 := mkEntry_order_key inp cb l r
  have hok2 := mkEntry_order_key inp cb l' r
  have harr : ∀ x : HalfEntry,
      sortBy natLe ((cb.locked_ids ++ x.ids ++ r.ids).map (omFun inp)) =
      sortBy natLe ((x.ids.map (omFun inp)) ++
        ((cb.locked_ids.map (omFun inp)) ++ (r.ids.map (omFun inp)))) := by
    intro x
    refine sortBy_natLe_congr_perm ?_
    rw [List.map_append, List.map_append, List.perm_iff_count]
    intro v
    simp only [List.count_append]
    omega
  by_cases hll' : hlt inp l l'
  · unfold hlt at hll'
    rcases hll' with h | ⟨hc, h⟩
    · left
      unfold flt
      left
      rw [hcred1, hcred2]
      linarith
    · rcases h with h | ⟨hp, h⟩
      · left
        unfold flt
        right
        refine ⟨by rw [hcred1, hcred2, hc], ?_⟩
        left
        rw [hps1, hps2, ← hl, ← hl']
        omega
      · have hsums : (l.ids.map (omFun inp)).sum = (l'.ids.map (omFun inp)).sum := by
          rw [← hl, ← hl', hp]
        have hm := mergeMono (l.ids.map (omFun inp)) (l'.ids.map (omFun inp))
          ((cb.locked_ids.map (omFun inp)) ++ (r.ids.map (omFun inp)))
          (ranks_pos inp l.ids) (ranks_pos inp l'.ids)
          (by
            intro x hx
            rcases List.mem_append.mp hx with hx | hx
            · exact ranks_pos inp cb.locked_ids x hx
            · exact ranks_pos inp r.ids x hx)
          hsums (Or.inl h)
        rcases hm with hm | hm
        · left
          unfold flt
          right
          refine ⟨by rw [hcred1, hcred2, hc], ?_⟩
          right
          refine ⟨by rw [hps1, hps2, ← hl, ← hl', hp], ?_⟩
          rw [hok1, hok2, harr l, harr l']
          exact hm
        · right
          refine ⟨by rw [hcred1, hcred2, hc], by rw [hps1, hps2, ← hl, ← hl', hp], ?_⟩
          rw [hok1, hok2, harr l, harr l', hm]
  · obtain ⟨hc, hp, hsr⟩ := hlt_or_eq hll' hd'
    right
    refine ⟨by rw [hcred1, hcred2, hc], by rw [hps1, hps2, ← hl, ← hl', hp], ?_⟩
    rw [hok1, hok2, harr l, harr l']
    refine sortBy_natLe_congr_perm (List.Perm.append ?_ (List.Perm.refl _))
    have hsr2 : sortBy natLe (l.ids.map (omFun inp)) =
        sortBy natLe (l'.ids.map (omFun inp)) := hsr
    have p1 : (l.ids.map (omFun inp)).Perm (sortBy natLe (l.ids.map (omFun inp))) :=
      (sortBy_perm natLe _).symm
    rw [hsr2] at p1
    exact p1.trans (sortBy_perm natLe _)

theorem mkEntry_mono_right (inp : OptInput) (cb : CandBuild) (l : HalfEntry)
    {r r' : HalfEntry}
    (hr : r.priority_sum = (r.ids.map (omFun inp)).sum)
    (hr' : r'.priority_sum = (r'.ids.map (omFun inp)).sum)
    (hd : better_entry inp r' r = false) :
    entryLe (mkEntry inp cb l r) (mkEntry inp cb l r') = true := by
  have hd' := not_hlt_of_not_better hd
  rw [entryLe_iff]
  have hcred1 := mkEntry_credits inp cb l r
  have hcred2 := mkEntry_credits inp cb l r'
  have hps1 := mkEntry_psum_raw inp cb l r
  have hps2 := mkEntry_psum_raw inp cb l r'
  have hok1 := mkEntry_order_key inp cb l r
  have hok2 := mkEntry_order_key inp cb l r'
  have harr : ∀ x : HalfEntry,
      sortBy natLe ((cb.locked_ids ++ l.ids ++ x.ids).map (omFun inp)) =
      sortBy natLe ((x.ids.map (omFun inp)) ++
        ((cb.locked_ids.map (omFun inp)) ++ (l.ids.map (omFun inp)))) := by
    intro x
    refine sortBy_natLe_congr_perm ?_
    rw [List.map_append, List.map_append, List.perm_iff_count]
    intro v
    simp only [List.count_append]
    omega
  by_cases hrr' : hlt inp r r'
  · unfold hlt at hrr'
    rcases hrr' with h | ⟨hc, h⟩
    · left
      unfold flt
      left
      rw [hcred1, hcred2]
      linarith
    · rcases h with h | ⟨hp, h⟩
      · left
        unfold flt
        right
        refine ⟨by rw [hcred1, hcred2, hc], ?_⟩
        left
        rw [hps1, hps2, ← hr, ← hr']
        omega
      · have hsums : (r.ids.map (omFun inp)).sum = (r'.ids.map (omFun inp)).sum := by
          rw [← hr, ← hr', hp]
        have hm := mergeMono (r.ids.map (omFun inp)) (r'.ids.map (omFun inp))
          ((cb.locked_ids.map (omFun inp)) ++ (l.ids.map (omFun inp)))
          (ranks_pos inp r.ids) (ranks_pos inp r'.ids)
          (by
            intro x hx
            rcases List.mem_append.mp hx with hx | hx
            · exact ranks_pos inp cb.locked_ids x hx
            · exact ranks_pos inp l.ids x hx)
          hsums (Or.inl h)
        rcases hm with hm | hm
        · left
          unfold flt
          right
          refine ⟨by rw [hcred1, hcred2, hc], ?_⟩
          right
          refine ⟨by rw [hps1, hps2, ← hr, ← hr', hp], ?_⟩
          rw [hok1, hok2, harr r, harr r']
          exact hm
        · right
          refine ⟨by rw [hcred1, hcred2, hc], by rw [hps1, hps2, ← hr, ← hr', hp], ?_⟩
          rw [hok1, hok2, harr r, harr r', hm]
  · obtain ⟨hc, hp, hsr⟩ := hlt_or_eq hrr' hd'
    right
    refine ⟨by rw [hcred1, hcred2, hc], by rw [hps1, hps2, ← hr, ← hr', hp], ?_⟩
    rw [hok1, hok2, harr r, harr r']
    refine sortBy_natLe_congr_perm (List.Perm.append ?_ (List.Perm.refl _))
    have hsr2 : sortBy natLe (r.ids.map (omFun inp)) =
        sortBy natLe (r'.ids.map (omFun inp)) := hsr
    have p1 : (r.ids.map (omFun inp)).Perm (sortBy natLe (r.ids.map (omFun inp))) :=
      (sortBy_perm natLe _).symm
    rw [hsr2] at p1
    exact p1.trans (sortBy_perm natLe _)

theorem mkEntry_halves (inp : OptInput) (cb : CandBuild) (Sl Sr : List Item) :
    mkEntry inp cb (halfOf Sl) (halfOf Sr) = entryOf inp cb (Sl ++ Sr) := by
  unfold entryOf
  simp only [mkEntry]
  rw [show cb.locked_ids ++ (halfOf Sl).ids ++ (halfOf Sr).ids =
      cb.locked_ids ++ (halfOf (Sl ++ Sr)).ids ++ (⟨0, 0, 0, [], 0⟩ : HalfEntry).ids from by
    show cb.locked_ids ++ Sl.map (fun i => i.cid) ++ Sr.map (fun i => i.cid) =
      cb.locked_ids ++ (Sl ++ Sr).map (fun i => i.cid) ++ []
    rw [List.map_append, List.append_nil, List.append_assoc]]
  rw [ResultEntry.mk.injEq]
  refine ⟨?_, ?_, rfl, rfl, rfl⟩
  · show cb.base_credit + (Sl.map (fun i => i.credit)).sum +
      (Sr.map (fun i => i.credit)).sum =
      cb.base_credit + ((Sl ++ Sr).map (fun i => i.credit)).sum + 0
    rw [List.map_append, List.sum_append]
    ring
  · show cb.base_gened + (Sl.map (fun i => i.gened)).sum +
      (Sr.map (fun i => i.gened)).sum =
      cb.base_gened + ((Sl ++ Sr).map (fun i => i.gened)).sum + 0
    rw [List.map_append, List.sum_append]
    omega

theorem entryOf_mem_allEntries {inp : OptInput} {S : List Item}
    (hsub : S.Sublist (compute_items inp (build_candidates inp)))
    (hpw : S.Pairwise (fun a b => a.mask &&& b.mask = 0)) :
    entryOf inp (build_candidates inp) S ∈ allEntries inp := by
  unfold allEntries
  refine List.mem_map_of_mem _ ?_
  unfold feasibleSets
  rw [List.mem_filter]
  exact ⟨List.mem_sublists.mpr hsub, decide_eq_true hpw⟩

theorem pairwise_halves {Sl Sr : List Item}
    (hl : Sl.Pairwise (fun a b => a.mask &&& b.mask = 0))
    (hr : Sr.Pairwise (fun a b => a.mask &&& b.mask = 0))
    (hcross : orMasks Sl &&& orMasks Sr = 0) :
    (Sl ++ Sr).Pairwise (fun a b => a.mask &&& b.mask = 0) := by
  rw [List.pairwise_append]
  refine ⟨hl, hr, ?_⟩
  intro a ha b hb
  rw [and_eq_zero_iff] at hcross ⊢
  intro i hi
  exact hcross i ⟨(testBit_orMasks Sl i).mpr ⟨a, ha, hi.1⟩,
    (testBit_orMasks Sr i).mpr ⟨b, hb, hi.2⟩⟩

theorem orMasks_cross_disj {Sl Sr : List Item}
    (hpw : (Sl ++ Sr).Pairwise (fun a b => a.mask &&& b.mask = 0)) :
    orMasks Sl &&& orMasks Sr = 0 := by
  rw [and_eq_zero_iff]
  intro i hi
  rcases (testBit_orMasks Sl i).mp hi.1 with ⟨a, ha, hai⟩
  rcases (testBit_orMasks Sr i).mp hi.2 with ⟨b, hb, hbi⟩
  have hab := (List.pairwise_append.mp hpw).2.2 a ha b hb
  exact (and_eq_zero_iff _ _).mp hab i ⟨hai, hbi⟩

/-! ### C2 — candidate id bookkeeping and key injectivity -/

theorem targetIds_subset {inp : OptInput} {x : Nat} (hx : x ∈ targetIds inp) :
    x ∈ inp.favorites := (List.mem_filter.mp hx).1

theorem bc_fold (inp : OptInput) : ∀ (l : List Course) (acc : CandBuild),
    ∃ addC : List BestCandidate, ∃ addL : List Nat,
      (l.foldl (bcStep inp) acc).cand = acc.cand ++ addC ∧
      (l.foldl (bcStep inp) acc).locked_ids = acc.locked_ids ++ addL ∧
      ((addC.map (fun b => b.cid)).Sublist (l.map (fun c => c.cid))) ∧
      (∀ x ∈ addL, x ∈ l.map (fun c => c.cid)) := by
  intro l
  induction l with
  | nil =>
    intro acc
    exact ⟨[], [], by simp, by simp, by simp, by simp⟩
  | cons c cs ih =>
    intro acc
    rw [List.foldl_cons]
    obtain ⟨addC, addL, h1, h2, h3, h4⟩ := ih (bcStep inp acc c)
    by_cases hc : c.cid ∈ inp.locked_ids
    · have hcand : (bcStep inp acc c).cand = acc.cand := by
        unfold bcStep
        rw [if_pos hc]
      have hlock : (bcStep inp acc c).locked_ids = acc.locked_ids ++ [c.cid] := by
        unfold bcStep
        rw [if_pos hc]
      refine ⟨addC, c.cid :: addL, ?_, ?_, ?_, ?_⟩
      · rw [h1, hcand]
      · rw [h2, hlock, List.append_assoc, List.singleton_append]
      · exact h3.trans (List.sublist_cons_self _ _)
      · intro x hx
        rcases List.mem_cons.mp hx with rfl | hx2
        · exact List.mem_cons_self _ _
        · exact List.mem_cons_of_mem _ (h4 x hx2)
    · have hcand : (bcStep inp acc c).cand = acc.cand ++
          [⟨c.cid, c.credit, if pyStrip c.dept = GENED_DEPT_NAME then 1 else 0,
            c.maskLo, c.maskHi⟩] := by
        unfold bcStep
        rw [if_neg hc]
      have hlock : (bcStep inp acc c).locked_ids = acc.locked_ids := by
        unfold bcStep
        rw [if_neg hc]
      refine ⟨⟨c.cid, c.credit, if pyStrip c.dept = GENED_DEPT_NAME then 1 else 0,
          c.maskLo, c.maskHi⟩ :: addC, addL, ?_, ?_, ?_, ?_⟩
      · rw [h1, hcand, List.append_assoc, List.singleton_append]
      · rw [h2, hlock]
      · rw [List.map_cons, List.map_cons]
        exact h3.cons₂ _
      · intro x hx
        exact List.mem_cons_of_mem _ (h4 x hx)

theorem build_candidates_props (inp : OptInput) :
    (∀ x ∈ (build_candidates inp).locked_ids, x ∈ inp.favorites) ∧
    (∀ b ∈ (build_candidates inp).cand, b.cid ∈ inp.favorites) ∧
    ((inp.courses.map (fun c => c.cid)).Nodup →
      (((build_candidates inp).cand.map (fun b => b.cid))).Nodup) := by
  unfold build_candidates
  by_cases h1 : inp.courses = [] ∨ inp.favorites = []
  · rw [if_pos h1]
    refine ⟨?_, ?_, ?_⟩ <;> simp
  · rw [if_neg h1]
    by_cases h2 : targetIds inp = []
    · rw [if_pos h2]
      refine ⟨?_, ?_, ?_⟩ <;> simp
    · rw [if_neg h2]
      by_cases h3 : inp.courses.filter (fun c => c.cid ∈ targetIds inp) = []
      · rw [if_pos h3]
        refine ⟨?_, ?_, ?_⟩ <;> simp
      · rw [if_neg h3]
        obtain ⟨addC, addL, hC, hL, hCsub, hLmem⟩ := bc_fold inp
          (inp.courses.filter (fun c => c.cid ∈ targetIds inp)) ⟨[], 0, 0, [], 0, 0⟩
        have hsubfav : ∀ x ∈ (inp.courses.filter
            (fun c => c.cid ∈ targetIds inp)).map (fun c => c.cid),
            x ∈ inp.favorites := by
          intro x hx
          rcases List.mem_map.mp hx with ⟨c, hcmem, hcx⟩
          rw [← hcx]
          exact targetIds_subset (of_decide_eq_true (List.mem_filter.mp hcmem).2)
        refine ⟨?_, ?_, ?_⟩
        · intro x hx
          have hx2 : x ∈ sortBy natLe ((List.foldl (bcStep inp)
              ⟨[], 0, 0, [], 0, 0⟩ (inp.courses.filter
                (fun c => c.cid ∈ targetIds inp))).locked_ids) := hx
          rw [sortBy_mem, hL] at hx2
          have hx3 : x ∈ addL := by simpa using hx2
          exact hsubfav x (hLmem x hx3)
        · intro b hb
          have hb2 : b ∈ sortBy candLe ((List.foldl (bcStep inp)
              ⟨[], 0, 0, [], 0, 0⟩ (inp.courses.filter
                (fun c => c.cid ∈ targetIds inp))).cand) := hb
          rw [sortBy_mem, hC] at hb2
          have hb3 : b ∈ addC := by simpa using hb2
          exact hsubfav b.cid (hCsub.subset (List.mem_map_of_mem _ hb3))
        · intro hnd
          have hnd1 : ((inp.courses.filter
              (fun c => c.cid ∈ targetIds inp)).map (fun c => c.cid)).Nodup :=
            ((List.filter_sublist _).map _).nodup hnd
          have hnd2 : (addC.map (fun b => b.cid)).Nodup := hCsub.nodup hnd1
          have hperm : ((sortBy candLe ((List.foldl (bcStep inp)
              ⟨[], 0, 0, [], 0, 0⟩ (inp.courses.filter
                (fun c => c.cid ∈ targetIds inp))).cand)).map (fun b => b.cid)).Perm
              (addC.map (fun b => b.cid)) := by
            refine List.Perm.map _ ?_
            rw [hC] at *
            exact (sortBy_perm candLe _).trans (by simp)
          exact hperm.nodup_iff.mpr hnd2

theorem items_cid_favorites {inp : OptInput} {it : Item}
    (h : it ∈ compute_items inp (build_candidates inp)) : it.cid ∈ inp.favorites := by
  have h2 : it.cid ∈ (compute_items inp (build_candidates inp)).map (fun i => i.cid) :=
    List.mem_map_of_mem _ h
  have h3 := (compute_items_cids_sublist inp (build_candidates inp)).subset h2
  rcases List.mem_map.mp h3 with ⟨b, hb, hbe⟩
  rw [← hbe]
  exact (build_candidates_props inp).2.1 b hb

theorem items_cids_nodup {inp : OptInput}
    (h : (inp.courses.map (fun c => c.cid)).Nodup) :
    ((compute_items inp (build_candidates inp)).map (fun i => i.cid)).Nodup :=
  (compute_items_cids_sublist inp (build_candidates inp)).nodup
    ((build_candidates_props inp).2.2 h)

theorem count_map_eq {f : Nat → Nat} {l : List Nat} {v : Nat}
    (hv : ∀ w ∈ l, f w = f v → w = v) : (l.map f).count (f v) = l.count v := by
  induction l with
  | nil => rfl
  | cons a as ih =>
    rw [List.map_cons, List.count_cons, List.count_cons]
    rw [ih (fun w hw => hv w (List.mem_cons_of_mem _ hw))]
    by_cases ha : a = v
    · subst ha
      simp
    · have hfa : ¬(f a = f v) := fun hf => ha (hv a (List.mem_cons_self _ _) hf)
      simp [ha, hfa]

theorem sublist_eq_filter {l L : List Item} (hsub : l.Sublist L) :
    L.Nodup → l = L.filter (fun x => decide (x ∈ l)) := by
  induction hsub with
  | slnil => intro _; rfl
  | @cons l1 l2 a h ih =>
    intro hnd
    rw [List.nodup_cons] at hnd
    have ha : a ∉ l1 := fun hmem => hnd.1 (h.subset hmem)
    rw [List.filter_cons]
    rw [if_neg (by simpa using ha)]
    exact ih hnd.2
  | @cons₂ l1 l2 a h ih =>
    intro hnd
    rw [List.nodup_cons] at hnd
    rw [List.filter_cons]
    rw [if_pos (by simp)]
    have hcong : l2.filter (fun x => decide (x ∈ a :: l1)) =
        l2.filter (fun x => decide (x ∈ l1)) := by
      refine List.filter_congr ?_
      intro x hx
      have hxa : x ≠ a := fun hxa => hnd.1 (hxa ▸ hx)
      simp [List.mem_cons, hxa]
    rw [hcong, ← ih hnd.2]

theorem inj_of_nodup_map {f : Item → Nat} : ∀ {L : List Item}, (L.map f).Nodup →
    ∀ x ∈ L, ∀ y ∈ L, f x = f y → x = y := by
  intro L
  induction L with
  | nil =>
    intro _ x hx
    simp at hx
  | cons a as ih =>
    intro hnd x hx y hy hf
    rw [List.map_cons, List.nodup_cons] at hnd
    rcases List.mem_cons.mp hx with rfl | hx2
    · rcases List.mem_cons.mp hy with rfl | hy2
      · rfl
      · exfalso
        apply hnd.1
        rw [hf]
        exact List.mem_map_of_mem f hy2
    · rcases List.mem_cons.mp hy with rfl | hy2
      · exfalso
        apply hnd.1
        rw [← hf]
        exact List.mem_map_of_mem f hx2
      · exact ih hnd.2 x hx2 y hy2 hf

/-- With duplicate-free favourites and course ids, the ranking key of a
conflict-free subset's entry determines the subset. -/
theorem entryOf_key_inj {inp : OptInput}
    (hfav : inp.favorites.Nodup)
    (hcrs : (inp.courses.map (fun c => c.cid)).Nodup)
    {S1 S2 : List Item}
    (h1 : S1.Sublist (compute_items inp (build_candidates inp)))
    (h2 : S2.Sublist (compute_items inp (build_candidates inp)))
    (hkey : fkeyEq (entryOf inp (build_candidates inp) S1)
      (entryOf inp (build_candidates inp) S2)) :
    S1 = S2 := by
  have hok := hkey.2.2
  rw [show (entryOf inp (build_candidates inp) S1).order_key =
      sortBy natLe (((build_candidates inp).locked_ids ++ (halfOf S1).ids ++
        (⟨0, 0, 0, [], 0⟩ : HalfEntry).ids).map (omFun inp)) from
    mkEntry_order_key inp (build_candidates inp) (halfOf S1) ⟨0, 0, 0, [], 0⟩,
    show (entryOf inp (build_candidates inp) S2).order_key =
      sortBy natLe (((build_candidates inp).locked_ids ++ (halfOf S2).ids ++
        (⟨0, 0, 0, [], 0⟩ : HalfEntry).ids).map (omFun inp)) from
    mkEntry_order_key inp (build_candidates inp) (halfOf S2) ⟨0, 0, 0, [], 0⟩] at hok
  have hcnt : ∀ v : Nat,
      ((build_candidates inp).locked_ids ++ (halfOf S1).ids ++
        ([] : List Nat)).count v =
      ((build_candidates inp).locked_ids ++ (halfOf S2).ids ++
        ([] : List Nat)).count v := by
    intro v
    by_cases hvfav : v ∈ inp.favorites
    · have hmemfav : ∀ w ∈ (build_candidates inp).locked_ids ++ (halfOf S1).ids ++
          ([] : List Nat), w ∈ inp.favorites := by
        intro w hw
        rw [List.append_nil] at hw
        rcases List.mem_append.mp hw with hw | hw
        · exact (build_candidates_props inp).1 w hw
        · rcases List.mem_map.mp hw with ⟨i, hi, hie⟩
          rw [← hie]
          exact items_cid_favorites (h1.subset hi)
      have hmemfav2 : ∀ w ∈ (build_candidates inp).locked_ids ++ (halfOf S2).ids ++
          ([] : List Nat), w ∈ inp.favorites := by
        intro w hw
        rw [List.append_nil] at hw
        rcases List.mem_append.mp hw with hw | hw
        · exact (build_candidates_props inp).1 w hw
        · rcases List.mem_map.mp hw with ⟨i, hi, hie⟩
          rw [← hie]
          exact items_cid_favorites (h2.subset hi)
      have hc1 := @count_map_eq (omFun inp) ((build_candidates inp).locked_ids ++
        (halfOf S1).ids ++ ([] : List Nat)) v
        (fun w hw hfw => omFun_inj hfav (hmemfav w hw) hvfav hfw)
      have hc2 := @count_map_eq (omFun inp) ((build_candidates inp).locked_ids ++
        (halfOf S2).ids ++ ([] : List Nat)) v
        (fun w hw hfw => omFun_inj hfav (hmemfav2 w hw) hvfav hfw)
      have hmapc : (((build_candidates inp).locked_ids ++ (halfOf S1).ids ++
          ([] : List Nat)).map (omFun inp)).count (omFun inp v) =
          (((build_candidates inp).locked_ids ++ (halfOf S2).ids ++
            ([] : List Nat)).map (omFun inp)).count (omFun inp v) := by
        rw [(sortBy_perm natLe _).symm.count_eq, hok,
          (sortBy_perm natLe _).count_eq]
      rw [← hc1, ← hc2]
      exact hmapc
    · rw [List.count_eq_zero.mpr, List.count_eq_zero.mpr]
      · intro hmem
        rw [List.append_nil] at hmem
        rcases List.mem_append.mp hmem with hw | hw
        · exact hvfav ((build_candidates_props inp).1 v hw)
        · rcases List.mem_map.mp hw with ⟨i, hi, hie⟩
          exact hvfav (hie ▸ items_cid_favorites (h2.subset hi))
      · intro hmem
        rw [List.append_nil] at hmem
        rcases List.mem_append.mp hmem with hw | hw
        · exact hvfav ((build_candidates_props inp).1 v hw)
        · rcases List.mem_map.mp hw with ⟨i, hi, hie⟩
          exact hvfav (hie ▸ items_cid_favorites (h1.subset hi))
  have hcids : ∀ v : Nat, (S1.map (fun i => i.cid)).count v =
      (S2.map (fun i => i.cid)).count v := by
    intro v
    have h9 := hcnt v
    rw [List.append_nil, List.append_nil, List.count_append, List.count_append,
      show (halfOf S1).ids = S1.map (fun i => i.cid) from rfl,
      show (halfOf S2).ids = S2.map (fun i => i.cid) from rfl] at h9
    omega
  have hndi : ((compute_items inp (build_candidates inp)).map (fun i => i.cid)).Nodup :=
    items_cids_nodup hcrs
  have hset : ∀ x, x ∈ S1 ↔ x ∈ S2 := by
    intro x
    constructor
    · intro hx
      have hc : x.cid ∈ S2.map (fun i => i.cid) := by
        rw [← List.count_pos_iff, ← hcids x.cid]
        exact List.count_pos_iff.mpr (List.mem_map_of_mem _ hx)
      rcases List.mem_map.mp hc with ⟨y, hy, hyx⟩
      have hxy : y = x := inj_of_nodup_map hndi y (h2.subset hy) x (h1.subset hx) hyx
      rw [← hxy]
      exact hy
    · intro hx
      have hc : x.cid ∈ S1.map (fun i => i.cid) := by
        rw [← List.count_pos_iff, hcids x.cid]
        exact List.count_pos_iff.mpr (List.mem_map_of_mem _ hx)
      rcases List.mem_map.mp hc with ⟨y, hy, hyx⟩
      have hxy : y = x := inj_of_nodup_map hndi y (h1.subset hy) x (h2.subset hx) hyx
      rw [← hxy]
      exact hy
  have hndL : (compute_items inp (build_candidates inp)).Nodup :=
    List.Nodup.of_map _ hndi
  rw [sublist_eq_filter h1 hndL, sublist_eq_filter h2 hndL]
  refine List.filter_congr ?_
  intro x _
  simp only [decide_eq_decide]
  exact hset x

/-! ### C1/C2 — the bounded best list and the cross loops -/

theorem rightLe_trans (a b c : HalfEntry) (h1 : rightLe a b = true)
    (h2 : rightLe b c = true) : rightLe a c = true := by
  simp only [rightLe, decide_eq_true_eq] at h1 h2 ⊢
  rcases h1 with h1 | ⟨e1, p1⟩ <;> rcases h2 with h2 | ⟨e2, p2⟩
  · exact Or.inl (lt_trans h2 h1)
  · exact Or.inl (by rw [← e2]; exact h1)
  · exact Or.inl (by rw [e1]; exact h2)
  · exact Or.inr ⟨e1.trans e2, le_trans p1 p2⟩

theorem rightLe_total (a b : HalfEntry) : rightLe a b = true ∨ rightLe b a = true := by
  simp only [rightLe, decide_eq_true_eq]
  rcases lt_trichotomy a.credit b.credit with h | h | h
  · exact Or.inr (Or.inl h)
  · rcases Nat.le_total a.priority_sum b.priority_sum with hp | hp
    · exact Or.inl (Or.inr ⟨h, hp⟩)
    · exact Or.inr (Or.inr ⟨h.symm, hp⟩)
  · exact Or.inl (Or.inl h)

theorem rightLe_credit {a b : HalfEntry} (h : rightLe a b = true) :
    b.credit ≤ a.credit := by
  simp only [rightLe, decide_eq_true_eq] at h
  rcases h with h | ⟨h, _⟩
  · exact le_of_lt h
  · exact le_of_eq h.symm

theorem goodval_psum {inp : OptInput} {half : List Item} {e : HalfEntry}
    (hg : GoodHalfVal half e)
    (hhalf : ∀ x ∈ half, x ∈ compute_items inp (build_candidates inp)) :
    e.priority_sum = (e.ids.map (omFun inp)).sum := by
  obtain ⟨S, hsub, _, rfl⟩ := hg
  exact halfOf_psum_ranks (fun x hx => hhalf x (hsub.subset hx))

theorem mkEntry_sound {inp : OptInput} {Lh Rh : List Item} {l r : HalfEntry}
    (hitems : Lh ++ Rh = compute_items inp (build_candidates inp))
    (hl : GoodHalfVal Lh l) (hr : GoodHalfVal Rh r)
    (hdisj : l.mask &&& r.mask = 0) :
    mkEntry inp (build_candidates inp) l r ∈ allEntries inp := by
  obtain ⟨Sl, hSl, hpl, rfl⟩ := hl
  obtain ⟨Sr, hSr, hpr, rfl⟩ := hr
  rw [mkEntry_halves]
  refine entryOf_mem_allEntries ?_ (pairwise_halves hpl hpr hdisj)
  rw [← hitems]
  exact hSl.append hSr

theorem sorted_head_min {L : List ResultEntry} {EStar : ResultEntry}
    (hs : List.Pairwise (fun a b => entryLe a b = true) L) (hmem : EStar ∈ L)
    (hmin : ∀ x ∈ L, entryLe EStar x = true)
    (hinj : ∀ x ∈ L, fkeyEq x EStar → x = EStar) :
    L.head? = some EStar := by
  cases L with
  | nil => simp at hmem
  | cons x L' =>
    rcases List.mem_cons.mp hmem with rfl | hmem2
    · rfl
    · have h1 : entryLe x EStar = true := (List.pairwise_cons.mp hs).1 EStar hmem2
      have h2 : entryLe EStar x = true := hmin x (List.mem_cons_self _ _)
      rw [hinj x (List.mem_cons_self _ _) (entryLe_antisymm_key h1 h2)]
      rfl

theorem consider_inv {inp : OptInput} (cb : CandBuild) {best : List ResultEntry}
    {l r : HalfEntry} (hb : BestInv inp best)
    (hnew : mkEntry inp cb l r ∈ allEntries inp) :
    BestInv inp (consider_combo inp cb best l r) := by
  unfold consider_combo
  refine ⟨?_, ?_, ?_⟩
  · exact List.Pairwise.sublist (List.take_sublist _ _)
      (sortBy_pairwise entryLe_trans_ex entryLe_total _)
  · rw [List.length_take]
    exact min_le_left _ _
  · intro e he
    have he2 : e ∈ sortBy entryLe (best ++ [mkEntry inp cb l r]) :=
      (List.take_sublist _ _).subset he
    rw [sortBy_mem] at he2
    rcases List.mem_append.mp he2 with he3 | he3
    · exact hb.2.2 e he3
    · rw [List.mem_singleton.mp he3]
      exact hnew

theorem estar_head_consider {inp : OptInput} {cb : CandBuild} {best : List ResultEntry}
    {l r : HalfEntry} {EStar : ResultEntry}
    (hb : BestInv inp best) (hnew : mkEntry inp cb l r ∈ allEntries inp)
    (hmin : ∀ e ∈ allEntries inp, entryLe EStar e = true)
    (hinj : ∀ e ∈ allEntries inp, fkeyEq e EStar → e = EStar)
    (hE : EStar ∈ best ∨ EStar = mkEntry inp cb l r) :
    EStar ∈ consider_combo inp cb best l r := by
  unfold consider_combo
  have hmem : EStar ∈ sortBy entryLe (best ++ [mkEntry inp cb l r]) := by
    rw [sortBy_mem]
    rcases hE with h | h
    · exact List.mem_append_left _ h
    · exact List.mem_append_right _ (List.mem_singleton.mpr h)
  have hsorted := sortBy_pairwise entryLe_trans_ex entryLe_total
    (best ++ [mkEntry inp cb l r])
  have hall : ∀ x ∈ sortBy entryLe (best ++ [mkEntry inp cb l r]),
      x ∈ allEntries inp := by
    intro x hx
    rw [sortBy_mem] at hx
    rcases List.mem_append.mp hx with hx | hx
    · exact hb.2.2 x hx
    · rw [List.mem_singleton.mp hx]
      exact hnew
  have hhead := sorted_head_min hsorted hmem (fun x hx => hmin x (hall x hx))
    (fun x hx hk => hinj x (hall x hx) hk)
  cases hL : sortBy entryLe (best ++ [mkEntry inp cb l r]) with
  | nil =>
    rw [hL] at hhead
    simp at hhead
  | cons x L' =>
    rw [hL] at hhead
    have hx : x = EStar := by simpa using hhead
    rw [show (x :: L').take 5 = x :: L'.take 4 from rfl, hx]
    exact List.mem_cons_self _ _

theorem worst_le {inp : OptInput} {best : List ResultEntry} {EStar : ResultEntry}
    (hb : BestInv inp best)
    (hmin : ∀ e ∈ allEntries inp, entryLe EStar e = true)
    (hlen : best.length = 5) : worstCredit best ≤ EStar.credits := by
  unfold worstCredit
  cases hL : best.getLast? with
  | none =>
    exfalso
    have hne : best ≠ [] := by
      intro h
      rw [h] at hlen
      simp at hlen
    cases best with
    | nil => exact hne rfl
    | cons x xs => simp [List.getLast?_concat] at hL
  | some last =>
    show last.credits ≤ EStar.credits
    have hmem : last ∈ best := List.mem_of_mem_getLast? hL
    exact entryLe_credits (hmin last (hb.2.2 last hmem))

/-- The inner cross loop with no cancellation: never aborts, keeps the best
list invariant, and — whenever the target entry is already present or its pair
is still ahead — ends with the target entry present. -/
theorem crossInner_run (inp : OptInput) (Lh Rh : List Item) (left : HalfEntry)
    (stp total_pairs : Nat) (EStar : ResultEntry)
    (hitems : Lh ++ Rh = compute_items inp (build_candidates inp))
    (hmin : ∀ e ∈ allEntries inp, entryLe EStar e = true)
    (hinj : ∀ e ∈ allEntries inp, fkeyEq e EStar → e = EStar)
    (hleft : GoodHalfVal Lh left) :
    ∀ (rights : List HalfEntry) (best : List ResultEntry) (done : Nat) (st : St),
      List.Pairwise (fun a b => rightLe a b = true) rights →
      (∀ r ∈ rights, GoodHalfVal Rh r) →
      BestInv inp best →
      (crossInner inp (build_candidates inp) neverCancel left stp total_pairs
        rights best done st).1 = false ∧
      BestInv inp (crossInner inp (build_candidates inp) neverCancel left stp
        total_pairs rights best done st).2.1 ∧
      ((EStar ∈ best ∨ ∃ r ∈ rights, left.mask &&& r.mask = 0 ∧
          EStar = mkEntry inp (build_candidates inp) left r) →
        EStar ∈ (crossInner inp (build_candidates inp) neverCancel left stp
          total_pairs rights best done st).2.1) := by
  intro rights
  induction rights with
  | nil =>
    intro best done st _ _ hb
    refine ⟨rfl, hb, ?_⟩
    intro hE
    rcases hE with hE | ⟨r, hr, _⟩
    · exact hE
    · simp at hr
  | cons r rest ih =>
    intro best done st hpw hgood hb
    have hstep : crossInner inp (build_candidates inp) neverCancel left stp total_pairs
        (r :: rest) best done st =
      (if best.length = 5 ∧ (build_candidates inp).base_credit + left.credit +
          r.credit + EPS < worstCredit best then
        (false, best, done, (pollCancel neverCancel st).2)
      else if left.mask &&& r.mask ≠ 0 then
        crossInner inp (build_candidates inp) neverCancel left stp total_pairs rest
          best done (pollCancel neverCancel st).2
      else
        crossInner inp (build_candidates inp) neverCancel left stp total_pairs rest
          (consider_combo inp (build_candidates inp) best left r) (done + 1)
          (if (done + 1) % stp = 0 ∧ 0 < total_pairs then
            emit_progress (pollCancel neverCancel st).2
              ((80 + 20 * (done + 1) / total_pairs : Nat) : Int)
          else (pollCancel neverCancel st).2)) := rfl
    rw [hstep]
    have hpw' := (List.pairwise_cons.mp hpw).2
    have hgood' : ∀ x ∈ rest, GoodHalfVal Rh x :=
      fun x hx => hgood x (List.mem_cons_of_mem _ hx)
    by_cases hcut : best.length = 5 ∧ (build_candidates inp).base_credit + left.credit +
        r.credit + EPS < worstCredit best
    · rw [if_pos hcut]
      refine ⟨rfl, hb, ?_⟩
      intro hE
      rcases hE with hE | ⟨r', hr', hd', hEe⟩
      · exact hE
      · exfalso
        have hrc : r'.credit ≤ r.credit := by
          rcases List.mem_cons.mp hr' with rfl | hr2
          · exact le_refl _
          · exact rightLe_credit ((List.pairwise_cons.mp hpw).1 r' hr2)
        have hEcred : EStar.credits = (build_candidates inp).base_credit +
            left.credit + r'.credit := by
          rw [hEe, mkEntry_credits]
        have hworst : worstCredit best ≤ EStar.credits := worst_le hb hmin hcut.1
        have hEPS : (0 : ℚ) < EPS := by norm_num [EPS]
        have h9 := hcut.2
        linarith
    · rw [if_neg hcut]
      by_cases hmask : left.mask &&& r.mask ≠ 0
      · rw [if_pos hmask]
        obtain ⟨c1, c2, c3⟩ := ih best done ((pollCancel neverCancel st).2) hpw' hgood' hb
        refine ⟨c1, c2, ?_⟩
        intro hE
        refine c3 ?_
        rcases hE with hE | ⟨r', hr', hd', hEe⟩
        · exact Or.inl hE
        · rcases List.mem_cons.mp hr' with rfl | hr2
          · exact absurd hd' hmask
          · exact Or.inr ⟨r', hr2, hd', hEe⟩
      · rw [if_neg hmask]
        have hdisj : left.mask &&& r.mask = 0 := not_not.mp hmask
        have hnew : mkEntry inp (build_candidates inp) left r ∈ allEntries inp :=
          mkEntry_sound hitems hleft (hgood r (List.mem_cons_self _ _)) hdisj
        have hb2 := consider_inv (build_candidates inp) hb hnew
        obtain ⟨c1, c2, c3⟩ := ih (consider_combo inp (build_candidates inp) best left r)
          (done + 1)
          (if (done + 1) % stp = 0 ∧ 0 < total_pairs then
            emit_progress (pollCancel neverCancel st).2
              ((80 + 20 * (done + 1) / total_pairs : Nat) : Int)
          else (pollCancel neverCancel st).2)
          hpw' hgood' hb2
        refine ⟨c1, c2, ?_⟩
        intro hE
        rcases hE with hE | ⟨r', hr', hd', hEe⟩
        · exact c3 (Or.inl (estar_head_consider hb hnew hmin hinj (Or.inl hE)))
        · rcases List.mem_cons.mp hr' with rfl | hr2
          · exact c3 (Or.inl (estar_head_consider hb hnew hmin hinj (Or.inr hEe)))
          · exact c3 (Or.inr ⟨r', hr2, hd', hEe⟩)

/-- The outer cross loop with no cancellation: never aborts, keeps the best
list invariant, and delivers the target entry when its pair is covered. -/
theorem crossOuter_run (inp : OptInput) (Lh Rh : List Item)
    (stp total_pairs : Nat) (right_list : List HalfEntry) (mrc : ℚ)
    (EStar : ResultEntry)
    (hitems : Lh ++ Rh = compute_items inp (build_candidates inp))
    (hmin : ∀ e ∈ allEntries inp, entryLe EStar e = true)
    (hinj : ∀ e ∈ allEntries inp, fkeyEq e EStar → e = EStar)
    (hrpw : List.Pairwise (fun a b => rightLe a b = true) right_list)
    (hrgood : ∀ r ∈ right_list, GoodHalfVal Rh r)
    (hmrc : ∀ r ∈ right_list, r.credit ≤ mrc) :
    ∀ (lefts : List HalfEntry) (best : List ResultEntry) (done : Nat) (st : St),
      (∀ l ∈ lefts, GoodHalfVal Lh l) →
      BestInv inp best →
      (crossOuter inp (build_candidates inp) neverCancel stp total_pairs right_list
        mrc lefts best done st).1 = false ∧
      BestInv inp (crossOuter inp (build_candidates inp) neverCancel stp total_pairs
        right_list mrc lefts best done st).2.1 ∧
      ((EStar ∈ best ∨ ∃ l ∈ lefts, ∃ r ∈ right_list, l.mask &&& r.mask = 0 ∧
          EStar = mkEntry inp (build_candidates inp) l r) →
        EStar ∈ (crossOuter inp (build_candidates inp) neverCancel stp total_pairs
          right_list mrc lefts best done st).2.1) := by
  intro lefts
  induction lefts with
  | nil =>
    intro best done st _ hb
    refine ⟨rfl, hb, ?_⟩
    intro hE
    rcases hE with hE | ⟨l, hl, _⟩
    · exact hE
    · simp at hl
  | cons l rest ih =>
    intro best done st hgoodl hb
    have hstep : crossOuter inp (build_candidates inp) neverCancel stp total_pairs
        right_list mrc (l :: rest) best done st =
      (if best.length = 5 ∧ (build_candidates inp).base_credit + l.credit + mrc +
          EPS < worstCredit best then
        crossOuter inp (build_candidates inp) neverCancel stp total_pairs right_list
          mrc rest best done (pollCancel neverCancel st).2
      else
        (if (crossInner inp (build_candidates inp) neverCancel l stp total_pairs
            right_list best done ((pollCancel neverCancel st).2)).1 then
          crossInner inp (build_candidates inp) neverCancel l stp total_pairs
            right_list best done ((pollCancel neverCancel st).2)
        else
          crossOuter inp (build_candidates inp) neverCancel stp total_pairs right_list
            mrc rest
            (crossInner inp (build_candidates inp) neverCancel l stp total_pairs
              right_list best done ((pollCancel neverCancel st).2)).2.1
            (crossInner inp (build_candidates inp) neverCancel l stp total_pairs
              right_list best done ((pollCancel neverCancel st).2)).2.2.1
            (crossInner inp (build_candidates inp) neverCancel l stp total_pairs
              right_list best done ((pollCancel neverCancel st).2)).2.2.2)) := rfl
    rw [hstep]
    have hgoodl' : ∀ x ∈ rest, GoodHalfVal Lh x :=
      fun x hx => hgoodl x (List.mem_cons_of_mem _ hx)
    by_cases hcut : best.length = 5 ∧ (build_candidates inp).base_credit + l.credit +
        mrc + EPS < worstCredit best
    · rw [if_pos hcut]
      obtain ⟨c1, c2, c3⟩ := ih best done ((pollCancel neverCancel st).2) hgoodl' hb
      refine ⟨c1, c2, ?_⟩
      intro hE
      refine c3 ?_
      rcases hE with hE | ⟨l', hl', r', hr', hd', hEe⟩
      · exact Or.inl hE
      · rcases List.mem_cons.mp hl' with rfl | hl2
        · exfalso
          have hEcred : EStar.credits = (build_candidates inp).base_credit +
              l'.credit + r'.credit := by
            rw [hEe, mkEntry_credits]
          have hworst : worstCredit best ≤ EStar.credits := worst_le hb hmin hcut.1
          have hEPS : (0 : ℚ) < EPS := by norm_num [EPS]
          have hrc : r'.credit ≤ mrc := hmrc r' hr'
          have h9 := hcut.2
          linarith
        · exact Or.inr ⟨l', hl2, r', hr', hd', hEe⟩
    · rw [if_neg hcut]
      obtain ⟨d1, d2, d3⟩ := crossInner_run inp Lh Rh l stp total_pairs EStar hitems
        hmin hinj (hgoodl l (List.mem_cons_self _ _)) right_list best done
        ((pollCancel neverCancel st).2) hrpw hrgood hb
      rw [if_neg (by rw [d1]; exact Bool.false_ne_true)]
      obtain ⟨c1, c2, c3⟩ := ih
        (crossInner inp (build_candidates inp) neverCancel l stp total_pairs
          right_list best done ((pollCancel neverCancel st).2)).2.1
        (crossInner inp (build_candidates inp) neverCancel l stp total_pairs
          right_list best done ((pollCancel neverCancel st).2)).2.2.1
        (crossInner inp (build_candidates inp) neverCancel l stp total_pairs
          right_list best done ((pollCancel neverCancel st).2)).2.2.2
        hgoodl' d2
      refine ⟨c1, c2, ?_⟩
      intro hE
      rcases hE with hE | ⟨l', hl', r', hr', hd', hEe⟩
      · exact c3 (Or.inl (d3 (Or.inl hE)))
      · rcases List.mem_cons.mp hl' with rfl | hl2
        · exact c3 (Or.inl (d3 (Or.inr ⟨r', hr', hd', hEe⟩)))
        · exact c3 (Or.inr ⟨l', hl2, r', hr', hd', hEe⟩)

/-! ### C1/C2 — compute-level assembly -/

theorem allEntries_elim {inp : OptInput} {e : ResultEntry} (h : e ∈ allEntries inp) :
    ∃ S : List Item, S.Sublist (compute_items inp (build_candidates inp)) ∧
      S.Pairwise (fun a b => a.mask &&& b.mask = 0) ∧
      e = entryOf inp (build_candidates inp) S := by
  unfold allEntries at h
  rcases List.mem_map.mp h with ⟨S, hS, rfl⟩
  rw [feasibleSets, List.mem_filter, List.mem_sublists] at hS
  exact ⟨S, hS.1, of_decide_eq_true hS.2, rfl⟩

theorem entryOf_ids_locked (inp : OptInput) (cb : CandBuild) (S : List Item) :
    ∀ x ∈ cb.locked_ids, x ∈ (entryOf inp cb S).ids := by
  intro x hx
  show x ∈ sortBy natLe (cb.locked_ids ++ (halfOf S).ids ++
    (⟨0, 0, 0, [], 0⟩ : HalfEntry).ids)
  rw [sortBy_mem]
  exact List.mem_append_left _ (List.mem_append_left _ hx)

theorem allEntries_nonempty (inp : OptInput) :
    entryOf inp (build_candidates inp) [] ∈ allEntries inp :=
  entryOf_mem_allEntries (List.nil_sublist _) List.Pairwise.nil

theorem bruteForceTop_spec (inp : OptInput) :
    ∃ EStar, bruteForceTop inp = some EStar ∧ EStar ∈ allEntries inp ∧
      ∀ e ∈ allEntries inp, entryLe EStar e = true := by
  unfold bruteForceTop
  cases hL : sortBy entryLe (allEntries inp) with
  | nil =>
    exfalso
    have h1 : entryOf inp (build_candidates inp) [] ∈ sortBy entryLe (allEntries inp) :=
      sortBy_mem.mpr (allEntries_nonempty inp)
    rw [hL] at h1
    simp at h1
  | cons x L2 =>
    refine ⟨x, rfl, ?_, ?_⟩
    · have h1 : x ∈ sortBy entryLe (allEntries inp) := by
        rw [hL]
        exact List.mem_cons_self _ _
      rwa [sortBy_mem] at h1
    · intro e he
      have he2 : e ∈ sortBy entryLe (allEntries inp) := sortBy_mem.mpr he
      rw [hL] at he2
      rcases List.mem_cons.mp he2 with rfl | he3
      · exact entryLe_refl e
      · have hs := sortBy_pairwise entryLe_trans_ex entryLe_total (allEntries inp)
        rw [hL] at hs
        exact (List.pairwise_cons.mp hs).1 e he3

theorem allEntries_key_inj {inp : OptInput}
    (hfav : inp.favorites.Nodup)
    (hcrs : (inp.courses.map (fun c => c.cid)).Nodup)
    {e E : ResultEntry} (he : e ∈ allEntries inp) (hE : E ∈ allEntries inp)
    (hk : fkeyEq e E) : e = E := by
  obtain ⟨S1, h1, _, rfl⟩ := allEntries_elim he
  obtain ⟨S2, h2, _, rfl⟩ := allEntries_elim hE
  rw [entryOf_key_inj hfav hcrs h1 h2 hk]

theorem table_good {done : List Item} {d : List (Nat × HalfEntry)}
    (hsound : TableSound done d) {e : HalfEntry} (h : e ∈ d.map Prod.snd) :
    GoodHalfVal done e := by
  rcases List.mem_map.mp h with ⟨p, hp, rfl⟩
  obtain ⟨S, hsub, hpw, _, hval⟩ := hsound p hp
  exact ⟨S, hsub, hpw, hval⟩

theorem table_key_mask {done : List Item} {d : List (Nat × HalfEntry)}
    (hsound : TableSound done d) {k : Nat} {e : HalfEntry} (h : (k, e) ∈ d) :
    e.mask = k := by
  obtain ⟨S, _, _, hk, hv⟩ := hsound (k, e) h
  have hv2 : e = halfOf S := hv
  have hk2 : k = orMasks S := hk
  rw [hv2, hk2]
  rfl

/-- The best entry of the brute-force order is built from one dominating entry
of each half table, with disjoint half masks. -/
theorem estar_pair (inp : OptInput) (mid : Nat) (tL tR : List (Nat × HalfEntry))
    {EStar : ResultEntry}
    (hLsound : TableSound ((compute_items inp (build_candidates inp)).take mid) tL)
    (hLcomp : TableComplete inp ((compute_items inp (build_candidates inp)).take mid) tL)
    (hRsound : TableSound ((compute_items inp (build_candidates inp)).drop mid) tR)
    (hRcomp : TableComplete inp ((compute_items inp (build_candidates inp)).drop mid) tR)
    (hEmem : EStar ∈ allEntries inp)
    (hmin : ∀ e ∈ allEntries inp, entryLe EStar e = true)
    (hinj : ∀ e ∈ allEntries inp, fkeyEq e EStar → e = EStar) :
    ∃ el ∈ tL.map Prod.snd, ∃ er ∈ tR.map Prod.snd,
      el.mask &&& er.mask = 0 ∧ EStar = mkEntry inp (build_candidates inp) el er := by
  obtain ⟨SStar, hsubS, hpwS, hES⟩ := allEntries_elim hEmem
  have hsplit := hsubS
  rw [← List.take_append_drop mid (compute_items inp (build_candidates inp))] at hsplit
  rcases List.sublist_append_iff.mp hsplit with ⟨Sl, Sr, hSeq, hsubL, hsubR⟩
  subst hSeq
  have hpwl : Sl.Pairwise (fun a b => a.mask &&& b.mask = 0) :=
    hpwS.sublist (List.sublist_append_left _ _)
  have hpwr : Sr.Pairwise (fun a b => a.mask &&& b.mask = 0) :=
    hpwS.sublist (List.sublist_append_right _ _)
  have hcross := orMasks_cross_disj hpwS
  obtain ⟨el, helm, heldom⟩ := hLcomp Sl hsubL hpwl
  obtain ⟨er, herm, herdom⟩ := hRcomp Sr hsubR hpwr
  have helmask : el.mask = orMasks Sl := table_key_mask hLsound helm
  have hermask : er.mask = orMasks Sr := table_key_mask hRsound herm
  have hdisj : el.mask &&& er.mask = 0 := by
    rw [helmask, hermask]
    exact hcross
  have hgl : GoodHalfVal ((compute_items inp (build_candidates inp)).take mid) el :=
    table_good hLsound (List.mem_map_of_mem _ helm)
  have hgr : GoodHalfVal ((compute_items inp (build_candidates inp)).drop mid) er :=
    table_good hRsound (List.mem_map_of_mem _ herm)
  have hAmem : mkEntry inp (build_candidates inp) el er ∈ allEntries inp :=
    mkEntry_sound (List.take_append_drop _ _) hgl hgr hdisj
  have helps : el.priority_sum = (el.ids.map (omFun inp)).sum :=
    goodval_psum hgl (fun x hx => List.take_subset _ _ hx)
  have herps : er.priority_sum = (er.ids.map (omFun inp)).sum :=
    goodval_psum hgr (fun x hx => List.drop_subset _ _ hx)
  have hSlps : (halfOf Sl).priority_sum = ((halfOf Sl).ids.map (omFun inp)).sum :=
    halfOf_psum_ranks (fun x hx => List.take_subset _ _ (hsubL.subset hx))
  have hSrps : (halfOf Sr).priority_sum = ((halfOf Sr).ids.map (omFun inp)).sum :=
    halfOf_psum_ranks (fun x hx => List.drop_subset _ _ (hsubR.subset hx))
  have step1 : entryLe (mkEntry inp (build_candidates inp) el er)
      (mkEntry inp (build_candidates inp) (halfOf Sl) er) = true :=
    mkEntry_mono_left inp (build_candidates inp) er helps hSlps heldom
  have step2 : entryLe (mkEntry inp (build_candidates inp) (halfOf Sl) er)
      (mkEntry inp (build_candidates inp) (halfOf Sl) (halfOf Sr)) = true :=
    mkEntry_mono_right inp (build_candidates inp) (halfOf Sl) herps hSrps herdom
  have hchain := entryLe_trans step1 step2
  rw [mkEntry_halves, ← hES] at hchain
  have hkey : fkeyEq (mkEntry inp (build_candidates inp) el er) EStar :=
    entryLe_antisymm_key hchain (hmin _ hAmem)
  have hAE : mkEntry inp (build_candidates inp) el er = EStar := hinj _ hAmem hkey
  exact ⟨el, List.mem_map_of_mem _ helm, er, List.mem_map_of_mem _ herm, hdisj, hAE.symm⟩

/-- Starting the cross loops from the two half tables delivers the brute-force
optimum at the head of the best list. -/
theorem cross_stage_top (inp : OptInput) (mid : Nat) (tL tR : List (Nat × HalfEntry))
    (stp tp : Nat) (st : St) (EStar : ResultEntry)
    (hLsound : TableSound ((compute_items inp (build_candidates inp)).take mid) tL)
    (hRsound : TableSound ((compute_items inp (build_candidates inp)).drop mid) tR)
    (hRcomp : TableComplete inp ((compute_items inp (build_candidates inp)).drop mid) tR)
    (hLcomp : TableComplete inp ((compute_items inp (build_candidates inp)).take mid) tL)
    (hEmem : EStar ∈ allEntries inp)
    (hmin : ∀ e ∈ allEntries inp, entryLe EStar e = true)
    (hinj : ∀ e ∈ allEntries inp, fkeyEq e EStar → e = EStar) :
    (crossOuter inp (build_candidates inp) neverCancel stp tp
      (sortBy rightLe (tR.map Prod.snd)) (headCredit (sortBy rightLe (tR.map Prod.snd)))
      (sortBy leftLe (tL.map Prod.snd)) [] 0 st).2.1.head? = some EStar := by
  obtain ⟨el, helm, er, herm, hdisj, hEeq⟩ :=
    estar_pair inp mid tL tR hLsound hLcomp hRsound hRcomp hEmem hmin hinj
  cases hRL : sortBy rightLe (tR.map Prod.snd) with
  | nil =>
    exfalso
    have h1 : er ∈ sortBy rightLe (tR.map Prod.snd) := sortBy_mem.mpr herm
    rw [hRL] at h1
    simp at h1
  | cons r0 rl =>
    have hrpw : List.Pairwise (fun a b => rightLe a b = true) (r0 :: rl) := by
      rw [← hRL]
      exact sortBy_pairwise rightLe_trans rightLe_total _
    have hrgood : ∀ r ∈ r0 :: rl,
        GoodHalfVal ((compute_items inp (build_candidates inp)).drop mid) r := by
      intro r hr
      have hr2 : r ∈ sortBy rightLe (tR.map Prod.snd) := by
        rw [hRL]
        exact hr
      exact table_good hRsound (sortBy_mem.mp hr2)
    have hmrc : ∀ r ∈ r0 :: rl, r.credit ≤ headCredit (r0 :: rl) := by
      intro r hr
      show r.credit ≤ r0.credit
      rcases List.mem_cons.mp hr with rfl | hr2
      · exact le_refl _
      · exact rightLe_credit ((List.pairwise_cons.mp hrpw).1 r hr2)
    have hgoodl : ∀ l ∈ sortBy leftLe (tL.map Prod.snd),
        GoodHalfVal ((compute_items inp (build_candidates inp)).take mid) l :=
      fun l hl => table_good hLsound (sortBy_mem.mp hl)
    obtain ⟨c1, c2, c3⟩ := crossOuter_run inp
      ((compute_items inp (build_candidates inp)).take mid)
      ((compute_items inp (build_candidates inp)).drop mid)
      stp tp (r0 :: rl) (headCredit (r0 :: rl)) EStar
      (List.take_append_drop _ _) hmin hinj hrpw hrgood hmrc
      (sortBy leftLe (tL.map Prod.snd)) [] 0 st hgoodl
      ⟨List.Pairwise.nil, by simp, by simp⟩
    have her2 : er ∈ r0 :: rl := by
      rw [← hRL]
      exact sortBy_mem.mpr herm
    have hmem := c3 (Or.inr ⟨el, sortBy_mem.mpr helm, er, her2, hdisj, hEeq⟩)
    exact sorted_head_min c2.1 hmem (fun x hx => hmin x (c2.2.2 x hx))
      (fun x hx hk => hinj x (c2.2.2 x hx) hk)

theorem crossInner_nofail (inp : OptInput) (cb : CandBuild) (left : HalfEntry)
    (stp tp : Nat) :
    ∀ (rights : List HalfEntry) (best : List ResultEntry) (done : Nat) (st : St),
      (crossInner inp cb neverCancel left stp tp rights best done st).1 = false := by
  intro rights
  induction rights with
  | nil => intro best done st; rfl
  | cons r rest ih =>
    intro best done st
    have hstep : crossInner inp cb neverCancel left stp tp (r :: rest) best done st =
      (if best.length = 5 ∧ cb.base_credit + left.credit + r.credit + EPS <
          worstCredit best then
        (false, best, done, (pollCancel neverCancel st).2)
      else if left.mask &&& r.mask ≠ 0 then
        crossInner inp cb neverCancel left stp tp rest best done
          (pollCancel neverCancel st).2
      else
        crossInner inp cb neverCancel left stp tp rest
          (consider_combo inp cb best left r) (done + 1)
          (if (done + 1) % stp = 0 ∧ 0 < tp then
            emit_progress (pollCancel neverCancel st).2
              ((80 + 20 * (done + 1) / tp : Nat) : Int)
          else (pollCancel neverCancel st).2)) := rfl
    rw [hstep]
    by_cases hcut : best.length = 5 ∧ cb.base_credit + left.credit + r.credit + EPS <
        worstCredit best
    · rw [if_pos hcut]
    · rw [if_neg hcut]
      by_cases hmask : left.mask &&& r.mask ≠ 0
      · rw [if_pos hmask]
        exact ih _ _ _
      · rw [if_neg hmask]
        exact ih _ _ _

theorem crossOuter_nofail (inp : OptInput) (cb : CandBuild) (stp tp : Nat)
    (right_list : List HalfEntry) (mrc : ℚ) :
    ∀ (lefts : List HalfEntry) (best : List ResultEntry) (done : Nat) (st : St),
      (crossOuter inp cb neverCancel stp tp right_list mrc lefts best done st).1 =
        false := by
  intro lefts
  induction lefts with
  | nil => intro best done st; rfl
  | cons l rest ih =>
    intro best done st
    have hstep : crossOuter inp cb neverCancel stp tp right_list mrc (l :: rest)
        best done st =
      (if best.length = 5 ∧ cb.base_credit + l.credit + mrc + EPS <
          worstCredit best then
        crossOuter inp cb neverCancel stp tp right_list mrc rest best done
          (pollCancel neverCancel st).2
      else
        (if (crossInner inp cb neverCancel l stp tp right_list best done
            ((pollCancel neverCancel st).2)).1 then
          crossInner inp cb neverCancel l stp tp right_list best done
            ((pollCancel neverCancel st).2)
        else
          crossOuter inp cb neverCancel stp tp right_list mrc rest
            (crossInner inp cb neverCancel l stp tp right_list best done
              ((pollCancel neverCancel st).2)).2.1
            (crossInner inp cb neverCancel l stp tp right_list best done
              ((pollCancel neverCancel st).2)).2.2.1
            (crossInner inp cb neverCancel l stp tp right_list best done
              ((pollCancel neverCancel st).2)).2.2.2)) := rfl
    rw [hstep]
    by_cases hcut : best.length = 5 ∧ cb.base_credit + l.credit + mrc + EPS <
        worstCredit best
    · rw [if_pos hcut]
      exact ih _ _ _
    · rw [if_neg hcut]
      rw [if_neg (by rw [crossInner_nofail]; exact Bool.false_ne_true)]
      exact ih _ _ _

theorem crossInner_sound (inp : OptInput) (Lh Rh : List Item) (left : HalfEntry)
    (stp tp : Nat)
    (hitems : Lh ++ Rh = compute_items inp (build_candidates inp))
    (hleft : GoodHalfVal Lh left) :
    ∀ (rights : List HalfEntry) (best : List ResultEntry) (done : Nat) (st : St),
      (∀ r ∈ rights, GoodHalfVal Rh r) →
      BestInv inp best →
      BestInv inp (crossInner inp (build_candidates inp) neverCancel left stp tp
        rights best done st).2.1 := by
  intro rights
  induction rights with
  | nil =>
    intro best done st _ hb
    exact hb
  | cons r rest ih =>
    intro best done st hgood hb
    have hstep : crossInner inp (build_candidates inp) neverCancel left stp tp
        (r :: rest) best done st =
      (if best.length = 5 ∧ (build_candidates inp).base_credit + left.credit +
          r.credit + EPS < worstCredit best then
        (false, best, done, (pollCancel neverCancel st).2)
      else if left.mask &&& r.mask ≠ 0 then
        crossInner inp (build_candidates inp) neverCancel left stp tp rest best done
          (pollCancel neverCancel st).2
      else
        crossInner inp (build_candidates inp) neverCancel left stp tp rest
          (consider_combo inp (build_candidates inp) best left r) (done + 1)
          (if (done + 1) % stp = 0 ∧ 0 < tp then
            emit_progress (pollCancel neverCancel st).2
              ((80 + 20 * (done + 1) / tp : Nat) : Int)
          else (pollCancel neverCancel st).2)) := rfl
    rw [hstep]
    have hgood2 : ∀ x ∈ rest, GoodHalfVal Rh x :=
      fun x hx => hgood x (List.mem_cons_of_mem _ hx)
    by_cases hcut : best.length = 5 ∧ (build_candidates inp).base_credit + left.credit +
        r.credit + EPS < worstCredit best
    · rw [if_pos hcut]
      exact hb
    · rw [if_neg hcut]
      by_cases hmask : left.mask &&& r.mask ≠ 0
      · rw [if_pos hmask]
        exact ih _ _ _ hgood2 hb
      · rw [if_neg hmask]
        exact ih _ _ _ hgood2 (consider_inv (build_candidates inp) hb
          (mkEntry_sound hitems hleft (hgood r (List.mem_cons_self _ _))
            (not_not.mp hmask)))

theorem crossOuter_sound (inp : OptInput) (Lh Rh : List Item) (stp tp : Nat)
    (right_list : List HalfEntry) (mrc : ℚ)
    (hitems : Lh ++ Rh = compute_items inp (build_candidates inp))
    (hrgood : ∀ r ∈ right_list, GoodHalfVal Rh r) :
    ∀ (lefts : List HalfEntry) (best : List ResultEntry) (done : Nat) (st : St),
      (∀ l ∈ lefts, GoodHalfVal Lh l) →
      BestInv inp best →
      BestInv inp (crossOuter inp (build_candidates inp) neverCancel stp tp right_list
        mrc lefts best done st).2.1 := by
  intro lefts
  induction lefts with
  | nil =>
    intro best done st _ hb
    exact hb
  | cons l rest ih =>
    intro best done st hgoodl hb
    have hstep : crossOuter inp (build_candidates inp) neverCancel stp tp right_list
        mrc (l :: rest) best done st =
      (if best.length = 5 ∧ (build_candidates inp).base_credit + l.credit + mrc +
          EPS < worstCredit best then
        crossOuter inp (build_candidates inp) neverCancel stp tp right_list mrc rest
          best done (pollCancel neverCancel st).2
      else
        (if (crossInner inp (build_candidates inp) neverCancel l stp tp right_list
            best done ((pollCancel neverCancel st).2)).1 then
          crossInner inp (build_candidates inp) neverCancel l stp tp right_list best
            done ((pollCancel neverCancel st).2)
        else
          crossOuter inp (build_candidates inp) neverCancel stp tp right_list mrc rest
            (crossInner inp (build_candidates inp) neverCancel l stp tp right_list
              best done ((pollCancel neverCancel st).2)).2.1
            (crossInner inp (build_candidates inp) neverCancel l stp tp right_list
              best done ((pollCancel neverCancel st).2)).2.2.1
            (crossInner inp (build_candidates inp) neverCancel l stp tp right_list
              best done ((pollCancel neverCancel st).2)).2.2.2)) := rfl
    rw [hstep]
    have hgoodl2 : ∀ x ∈ rest, GoodHalfVal Lh x :=
      fun x hx => hgoodl x (List.mem_cons_of_mem _ hx)
    by_cases hcut : best.length = 5 ∧ (build_candidates inp).base_credit + l.credit +
        mrc + EPS < worstCredit best
    · rw [if_pos hcut]
      exact ih _ _ _ hgoodl2 hb
    · rw [if_neg hcut]
      rw [if_neg (by rw [crossInner_nofail]; exact Bool.false_ne_true)]
      exact ih _ _ _ hgoodl2 (crossInner_sound inp Lh Rh l stp tp hitems
        (hgoodl l (List.mem_cons_self _ _)) right_list best done _ hrgood hb)

/-- C2: for every instance with duplicate-free favourites and course ids, at
most 12 optional candidates, a non-empty pool (an optional candidate or a
locked course), and no cancellation, the top-1 entry of the
meet-in-the-middle search (with its branch-and-bound cutoffs and per-half
domination pruning) equals the top-1 entry of the brute-force enumeration of
all conflict-free subsets under the ordering (maximal credit, then minimal
priority-sum, then lexicographically minimal sorted rank list). -/
theorem C2_meet_in_middle_top1_matches_brute_force (inp : OptInput) (st0 : St)
    (hfav : inp.favorites.Nodup)
    (hcrs : (inp.courses.map (fun c => c.cid)).Nodup)
    (hsize : (build_candidates inp).cand.length ≤ 12)
    (hne : ¬((build_candidates inp).cand = [] ∧
      (build_candidates inp).locked_ids = [])) :
    (compute_best_combinations inp neverCancel st0).1.head? = bruteForceTop inp := by
  obtain ⟨EStar, hBF, hEmem, hEmin⟩ := bruteForceTop_spec inp
  have hinj : ∀ e ∈ allEntries inp, fkeyEq e EStar → e = EStar :=
    fun e he hk => allEntries_key_inj hfav hcrs he hEmem hk
  rw [hBF]
  simp only [compute_best_combinations]
  split
  · rename_i h
    exact absurd h hne
  · split
    · rename_i h
      exact absurd h (by exact Bool.false_ne_true)
    · split
      · rename_i h
        exact absurd h (by exact Bool.false_ne_true)
      · split <;> split
        · rename_i h
          rw [crossOuter_nofail] at h
          exact absurd h (by exact Bool.false_ne_true)
        · exact cross_stage_top inp
            ((compute_items inp (build_candidates inp)).length / 2) _ _ _ _ _ EStar
            (enumerate_half_table inp (build_candidates inp) 0 40
              ((compute_items inp (build_candidates inp)).take
                ((compute_items inp (build_candidates inp)).length / 2)) _
              (fun x hx => List.take_subset _ _ hx)).2.1
            (enumerate_half_table inp (build_candidates inp) 40 40
              ((compute_items inp (build_candidates inp)).drop
                ((compute_items inp (build_candidates inp)).length / 2)) _
              (fun x hx => List.drop_subset _ _ hx)).2.1
            (enumerate_half_table inp (build_candidates inp) 40 40
              ((compute_items inp (build_candidates inp)).drop
                ((compute_items inp (build_candidates inp)).length / 2)) _
              (fun x hx => List.drop_subset _ _ hx)).2.2
            (enumerate_half_table inp (build_candidates inp) 0 40
              ((compute_items inp (build_candidates inp)).take
                ((compute_items inp (build_candidates inp)).length / 2)) _
              (fun x hx => List.take_subset _ _ hx)).2.2
            hEmem hEmin hinj
        · rename_i h
          rw [crossOuter_nofail] at h
          exact absurd h (by exact Bool.false_ne_true)
        · exact cross_stage_top inp
            ((compute_items inp (build_candidates inp)).length / 2) _ _ _ _ _ EStar
            (enumerate_half_table inp (build_candidates inp) 0 40
              ((compute_items inp (build_candidates inp)).take
                ((compute_items inp (build_candidates inp)).length / 2)) _
              (fun x hx => List.take_subset _ _ hx)).2.1
            (enumerate_half_table inp (build_candidates inp) 40 40
              ((compute_items inp (build_candidates inp)).drop
                ((compute_items inp (build_candidates inp)).length / 2)) _
              (fun x hx => List.drop_subset _ _ hx)).2.1
            (enumerate_half_table inp (build_candidates inp) 40 40
              ((compute_items inp (build_candidates inp)).drop
                ((compute_items inp (build_candidates inp)).length / 2)) _
              (fun x hx => List.drop_subset _ _ hx)).2.2
            (enumerate_half_table inp (build_candidates inp) 0 40
              ((compute_items inp (build_candidates inp)).take
                ((compute_items inp (build_candidates inp)).length / 2)) _
              (fun x hx => List.take_subset _ _ hx)).2.2
            hEmem hEmin hinj

/-- C2 witness: the theorem applied at a two-favourite input (one locked, one
optional candidate), all hypotheses discharged by evaluation. -/
theorem C2_witness :
    (compute_best_combinations
        ⟨[1, 2], [2], [1, 2], [], [⟨1, 3, "A", 1, 0⟩, ⟨2, 2, "B", 2, 0⟩]⟩
        neverCancel ⟨0, -1, []⟩).1.head? =
      bruteForceTop ⟨[1, 2], [2], [1, 2], [], [⟨1, 3, "A", 1, 0⟩, ⟨2, 2, "B", 2, 0⟩]⟩ :=
  C2_meet_in_middle_top1_matches_brute_force
    ⟨[1, 2], [2], [1, 2], [], [⟨1, 3, "A", 1, 0⟩, ⟨2, 2, "B", 2, 0⟩]⟩ ⟨0, -1, []⟩
    (by decide) (by decide) (by decide) (by decide)

/-- C1: for every input, every entry of the uncancelled optimizer's result
list contains every locked candidate id, and is exactly the locked base
extended by a conflict-free optional selection: a list of optional items
whose masks are pairwise disjoint and whose OR is disjoint from the locked
base's bitset; the result list is sorted by descending total credit, then
ascending priority sum, then lexicographically ascending sorted rank list,
and has at most 5 entries.  (The locked base itself, copied in full into
every entry, is not guaranteed conflict-free — see the counterexample.) -/
theorem C1_result_entries_cover_locked_base_sorted_bounded (inp : OptInput) (st0 : St) :
    List.Pairwise (fun a b => entryLe a b = true)
      (compute_best_combinations inp neverCancel st0).1 ∧
    (compute_best_combinations inp neverCancel st0).1.length ≤ 5 ∧
    ∀ e ∈ (compute_best_combinations inp neverCancel st0).1,
      (∀ x ∈ (build_candidates inp).locked_ids, x ∈ e.ids) ∧
      ∃ S : List Item, S.Sublist (compute_items inp (build_candidates inp)) ∧
        S.Pairwise (fun a b => a.mask &&& b.mask = 0) ∧
        orMasks S &&& baseMask (build_candidates inp) = 0 ∧
        e = entryOf inp (build_candidates inp) S := by
  have hmain : BestInv inp (compute_best_combinations inp neverCancel st0).1 := by
    simp only [compute_best_combinations]
    split
    · exact ⟨List.Pairwise.nil, by simp, by simp⟩
    · split
      · exact ⟨List.Pairwise.nil, by simp, by simp⟩
      · split
        · exact ⟨List.Pairwise.nil, by simp, by simp⟩
        · split <;> split
          · exact ⟨List.Pairwise.nil, by simp, by simp⟩
          · refine crossOuter_sound inp
                ((compute_items inp (build_candidates inp)).take
                  ((compute_items inp (build_candidates inp)).length / 2))
                ((compute_items inp (build_candidates inp)).drop
                  ((compute_items inp (build_candidates inp)).length / 2))
                _ _ _ _ (List.take_append_drop _ _) ?_ _ [] 0 _ ?_
                ⟨List.Pairwise.nil, by simp, by simp⟩
            · intro r hr
              exact table_good (enumerate_half_table inp (build_candidates inp) 40 40
                ((compute_items inp (build_candidates inp)).drop
                  ((compute_items inp (build_candidates inp)).length / 2)) _
                (fun x hx => List.drop_subset _ _ hx)).2.1 (sortBy_mem.mp hr)
            · intro l hl
              exact table_good (enumerate_half_table inp (build_candidates inp) 0 40
                ((compute_items inp (build_candidates inp)).take
                  ((compute_items inp (build_candidates inp)).length / 2)) _
                (fun x hx => List.take_subset _ _ hx)).2.1 (sortBy_mem.mp hl)
          · exact ⟨List.Pairwise.nil, by simp, by simp⟩
          · refine crossOuter_sound inp
                ((compute_items inp (build_candidates inp)).take
                  ((compute_items inp (build_candidates inp)).length / 2))
                ((compute_items inp (build_candidates inp)).drop
                  ((compute_items inp (build_candidates inp)).length / 2))
                _ _ _ _ (List.take_append_drop _ _) ?_ _ [] 0 _ ?_
                ⟨List.Pairwise.nil, by simp, by simp⟩
            · intro r hr
              exact table_good (enumerate_half_table inp (build_candidates inp) 40 40
                ((compute_items inp (build_candidates inp)).drop
                  ((compute_items inp (build_candidates inp)).length / 2)) _
                (fun x hx => List.drop_subset _ _ hx)).2.1 (sortBy_mem.mp hr)
            · intro l hl
              exact table_good (enumerate_half_table inp (build_candidates inp) 0 40
                ((compute_items inp (build_candidates inp)).take
                  ((compute_items inp (build_candidates inp)).length / 2)) _
                (fun x hx => List.take_subset _ _ hx)).2.1 (sortBy_mem.mp hl)
  refine ⟨hmain.1, hmain.2.1, ?_⟩
  intro e he
  obtain ⟨S, hsub, hpw, hEe⟩ := allEntries_elim (hmain.2.2 e he)
  refine ⟨?_, S, hsub, hpw, ?_, hEe⟩
  · intro x hx
    rw [hEe]
    exact entryOf_ids_locked inp (build_candidates inp) S x hx
  · exact orMasks_disj_of_forall (fun s hs => (mem_compute_items (hsub.subset hs)).2)

/-- C1 counterexample: with two locked courses occupying the same slot, the
single returned entry contains both course ids although their slot bitsets
overlap — the returned id set is not pairwise slot-disjoint, contrary to the
claim (the conflict-free guarantee only covers the optional part). -/
theorem C1_counterexample_conflicting_locked_pair :
    ∃ e ∈ (compute_best_combinations
        ⟨[1, 2], [1, 2], [1, 2], [], [⟨1, 1, "甲", 1, 0⟩, ⟨2, 1, "乙", 1, 0⟩]⟩
        neverCancel ⟨0, -1, []⟩).1,
      ∃ c1 ∈ (⟨[1, 2], [1, 2], [1, 2], [],
          [⟨1, 1, "甲", 1, 0⟩, ⟨2, 1, "乙", 1, 0⟩]⟩ : OptInput).courses,
        ∃ c2 ∈ (⟨[1, 2], [1, 2], [1, 2], [],
            [⟨1, 1, "甲", 1, 0⟩, ⟨2, 1, "乙", 1, 0⟩]⟩ : OptInput).courses,
          c1.cid ∈ e.ids ∧ c2.cid ∈ e.ids ∧ c1.cid ≠ c2.cid ∧
            ((c1.maskHi <<< 64) ||| c1.maskLo) &&&
              ((c2.maskHi <<< 64) ||| c2.maskLo) ≠ 0 := by
  decide

end CourseQuery
